import Mathlib

/-!
Verification development for the ranked-vote STV tabulation core.

Shallow embedding of:
  * the whole-ballot (Cambridge-style) STV engine, `tabulateSTV`;
  * the fractional (weighted inclusive Gregory) STV engine,
    `tabulateFractionalSTV`;
  * the first-alternate analytics table, `computeFirstAlternate`.

Conventions of the embedding:
  * JavaScript numbers are modelled as exact rationals (`ℚ`); the
    whole-ballot engine only ever produces integral values, and the
    fractional engine's claims are settled in exact arithmetic.
  * `Math.round` is modelled by `jround q = ⌊q + 1/2⌋` (round half up,
    which is what JavaScript does, including for negative arguments).
  * JavaScript `Map`s are modelled as association lists in insertion
    order, with `set` replacing an existing key in place.
  * `Array.prototype.sort` (stable since ES2019, and all comparators in
    the source are consistent) is modelled by the stable `List.mergeSort`.
  * `String.prototype.localeCompare` is modelled as code-point
    lexicographic comparison, which agrees with it on the ASCII
    same-case names appearing in ballots and in all concrete inputs used
    here.
-/

namespace RankedVote

/-- Candidate statuses, from the `"active" | "elected" | "eliminated"`
union type used by both engines. -/
inductive CandStatus where
  | active
  | elected
  | eliminated
deriving DecidableEq

/-- Allocatee (report_types.ts): a candidate index or the exhausted
sentinel `"X"`. -/
inductive Allocatee where
  | cand (i : ℕ)
  | ex
deriving DecidableEq

/-- Transfer kind (report_types.ts `TransferType`). -/
inductive TransferKind where
  | elimination
  | surplus
deriving DecidableEq

/-- Transfer record (report_types.ts `Transfer`): `from`, `to`, `count`,
`type`. -/
structure Transfer where
  tfrom : ℕ
  tto : Allocatee
  count : ℚ
  kind : TransferKind
deriving DecidableEq

/-- One allocation entry (report_types.ts `ITabulatorAllocation`). -/
structure Alloc where
  allocatee : Allocatee
  votes : ℚ
deriving DecidableEq

/-- One round record (report_types.ts `ITabulatorRound`). -/
structure Round where
  allocations : List Alloc
  undervote : ℚ
  overvote : ℚ
  continuingBallots : ℚ
  transfers : List Transfer
  electedThisRound : Option (List ℕ)
  eliminatedThisRound : Option (List ℕ)
deriving DecidableEq

/-- Per-candidate vote summary (report_types.ts `ICandidateVotes`). -/
structure CandVotes where
  candidate : ℕ
  firstRoundVotes : ℚ
  transferVotes : ℚ
  roundEliminated : Option ℕ
  roundElected : Option ℕ
deriving DecidableEq

/-- Input ballot for the tabulators: `{ rankings: string[]; weight?: number }`.
Both engines read the weight through `?? 1`, so an absent weight means 1. -/
structure Ballot where
  rankings : List String
  weight : Option ℚ
deriving DecidableEq

/-- Candidate state shared by both engines (`CandidateState` in the
source files). -/
structure Cand where
  index : ℕ
  name : String
  votes : ℚ
  status : CandStatus
  roundElected : Option ℕ
  roundEliminated : Option ℕ
  firstRoundVotes : ℚ
  transferVotes : ℚ
deriving DecidableEq

/-- Runtime ballot state (`BallotState` in the source files). -/
structure BState where
  originalRankings : List String
  currentIndex : ℕ
  weight : ℚ
deriving DecidableEq

/-- Engine result (`STVResult` in the source files). -/
structure STVResult where
  rounds : List Round
  winners : List ℕ
  quota : ℕ
  candidates : List String
  candidateVotes : List CandVotes
deriving DecidableEq

/-- JavaScript `Math.round`: round half toward positive infinity. -/
def jround (q : ℚ) : ℤ := ⌊q + 1 / 2⌋

/-- Droop quota, `floor(totalBallots / (seats + 1)) + 1`
(`calculateDroopQuota` in both engines). -/
def calculateDroopQuota (totalBallots seats : ℕ) : ℕ :=
  totalBallots / (seats + 1) + 1

/-- JavaScript `Map.get` on an insertion-ordered association list. -/
def mapGet {α : Type} (m : List (String × α)) (k : String) : Option α :=
  (m.find? (fun e => e.1 = k)).map (fun e => e.2)

/-- JavaScript `Map.set`: replace the value of an existing key in place,
else append a new entry. -/
def mapSet {α : Type} (m : List (String × α)) (k : String) (v : α) :
    List (String × α) :=
  if m.any (fun e => e.1 = k) then
    m.map (fun e => if e.1 = k then (k, v) else e)
  else m ++ [(k, v)]

/-- The `transferCounts.set(k, (transferCounts.get(k) || 0) + w)` idiom. -/
def tcAdd (m : List (String × ℚ)) (k : String) (w : ℚ) :
    List (String × ℚ) :=
  if m.any (fun e => e.1 = k) then
    m.map (fun e => if e.1 = k then (k, e.2 + w) else e)
  else m ++ [(k, w)]

/-- Look up a candidate by name (`candidateMap.get(name)`). -/
def candsGet (cands : List Cand) (name : String) : Option Cand :=
  cands.find? (fun c => c.name = name)

/-- Mutate the candidate record with the given name in place
(the source mutates the object returned by `candidateMap.get`). -/
def candsUpd (cands : List Cand) (name : String) (f : Cand → Cand) :
    List Cand :=
  cands.map (fun c => if c.name = name then f c else c)

/-- Status lookup: the source keeps a `candidateStatus` map updated in
lockstep with the `status` fields of `candidateMap`, so it is the
projection of that map. -/
def statusOf (cands : List Cand) (name : String) : Option CandStatus :=
  (candsGet cands name).map (fun c => c.status)

/-- Comparator for the allocation sort: exhausted compares after
everything, candidates by votes descending.  (The source comparator
never compares `X` with itself since each list holds a single `X`.) -/
def allocLe (a b : Alloc) : Bool :=
  if a.allocatee = .ex then decide (b.allocatee = .ex)
  else if b.allocatee = .ex then true
  else decide (b.votes ≤ a.votes)

/-- The allocation sort used by both engines (stable, votes descending,
exhausted last). -/
def sortAllocs (l : List Alloc) : List Alloc := l.mergeSort allocLe

/-- Votes-descending comparator (`(a, b) => b.votes - a.votes`). -/
def voteDescLe (a b : Cand) : Bool := decide (b.votes ≤ a.votes)

/-- Code-point lexicographic comparison of strings as character lists;
model of the default-locale `localeCompare` on the names used here. -/
def charsLt : List Char → List Char → Bool
  | [], [] => false
  | [], _ :: _ => true
  | _ :: _, [] => false
  | a :: as, b :: bs =>
    if a.toNat < b.toNat then true
    else if b.toNat < a.toNat then false
    else charsLt as bs

/-- Name comparator for the deterministic elimination tie-break
(`a.name.localeCompare(b.name)` sorted ascending). -/
def nameLe (a b : Cand) : Bool := !(charsLt b.name.data a.name.data)

/-- Fresh candidate record with index `i` and the given name. -/
def mkCand (i : ℕ) (name : String) : Cand :=
  { index := i, name := name, votes := 0, status := .active,
    roundElected := none, roundEliminated := none,
    firstRoundVotes := 0, transferVotes := 0 }

/-- Initialize the candidate map from the candidate-name list (both
engines build it the same way, via `candidateMap.set`). -/
def initCands (candidateNames : List String) : List Cand :=
  (candidateNames.enum).foldl
    (fun acc e =>
      (if acc.any (fun c => c.name = e.2) then
        acc.map (fun c => if c.name = e.2 then mkCand e.1 e.2 else c)
      else acc ++ [mkCand e.1 e.2]))
    []

/-- Initialize the empty ballot piles, one per candidate name. -/
def initPiles {α : Type} (candidateNames : List String) :
    List (String × List α) :=
  candidateNames.foldl (fun acc name => mapSet acc name []) []

/-- Minimum of a list of vote totals (`Math.min(...)`); the call sites
guarantee nonempty input. -/
def votesMin : List ℚ → ℚ
  | [] => 0
  | v :: vs => vs.foldl min v

/-- Push a runtime ballot onto the named pile
(`candidateBallots.get(name)!.push(b)`). -/
def pilesPush (piles : List (String × List BState)) (name : String)
    (b : BState) : List (String × List BState) :=
  mapSet piles name (((mapGet piles name).getD []) ++ [b])

/-!  ### Whole-ballot (Cambridge-style) engine, `tabulateSTV`  -/

/-- Index of the first ranking at or after `i` whose candidate is still
active (the `while` loop of the whole-ballot `getCurrentChoice`; on
exhaustion the cursor is left one past the end, exactly as the loop
leaves `currentIndex`). -/
def wbFindChoice (cands : List Cand) (rs : List String) (i : ℕ) : ℕ :=
  if h : i < rs.length then
    if statusOf cands (rs.get ⟨i, h⟩) = some .active then i
    else wbFindChoice cands rs (i + 1)
  else i
termination_by rs.length - i

/-- Whole-ballot `getCurrentChoice`: advance the cursor to the first
still-active choice and return it, or `none` when exhausted. -/
def wbGetCurrentChoice (cands : List Cand) (b : BState) :
    BState × Option String :=
  let j := wbFindChoice cands b.originalRankings b.currentIndex
  ({ b with currentIndex := j },
    if h : j < b.originalRankings.length then
      some (b.originalRankings.get ⟨j, h⟩)
    else none)

/-- Whole-ballot `advanceToNextChoice`: step past the current choice,
then find the next still-active one. -/
def wbAdvance (cands : List Cand) (b : BState) : BState × Option String :=
  wbGetCurrentChoice cands { b with currentIndex := b.currentIndex + 1 }

/-- Full state of the whole-ballot tabulation loop. -/
structure WBState where
  totalBallots : ℕ
  seats : ℕ
  quota : ℕ
  cands : List Cand
  piles : List (String × List BState)
  exhausted : List BState
  trace : List Round
  winners : List ℕ
  roundNumber : ℕ
deriving DecidableEq

/-- Initial whole-ballot state: candidate map, empty piles, and the
first-preference allocation of every ballot. -/
def wbInit (ballots : List Ballot) (seats : ℕ)
    (candidateNames : List String) : WBState :=
  let bstates : List BState :=
    ballots.map (fun b => ⟨b.rankings, 0, b.weight.getD 1⟩)
  let start : WBState :=
    { totalBallots := ballots.length, seats := seats,
      quota := calculateDroopQuota ballots.length seats,
      cands := initCands candidateNames,
      piles := initPiles candidateNames, exhausted := [],
      trace := [], winners := [], roundNumber := 1 }
  bstates.foldl
    (fun s b =>
      let r := wbGetCurrentChoice s.cands b
      match r.2 with
      | some choice =>
        { s with
          piles := pilesPush s.piles choice r.1,
          cands := candsUpd s.cands choice (fun c =>
            { c with votes := c.votes + r.1.weight,
                     firstRoundVotes := c.firstRoundVotes + r.1.weight }) }
      | none => { s with exhausted := s.exhausted ++ [r.1] })
    start

/-- Allocation snapshot taken at the top of each whole-ballot round:
rounded votes for every active or elected candidate, one exhausted
entry, sorted votes-descending with exhausted last. -/
def wbSnapshotAllocs (s : WBState) : List Alloc :=
  sortAllocs
    ((s.cands.filter
        (fun c => c.status = .active ∨ c.status = .elected)).map
        (fun c => ⟨.cand c.index, ((jround c.votes : ℤ) : ℚ)⟩)
      ++ [⟨.ex, (s.exhausted.length : ℚ)⟩])

/-- Accumulator for a round's action in the whole-ballot engine. -/
structure WBAct where
  cands : List Cand
  piles : List (String × List BState)
  exhausted : List BState
  winners : List ℕ
  transfers : List Transfer
  electedL : List ℕ
  eliminatedL : List ℕ
deriving DecidableEq

/-- State threaded through one ballot-redistribution loop (shared shape
of the surplus and elimination loops of the whole-ballot engine). -/
structure WBXfer where
  cands : List Cand
  piles : List (String × List BState)
  exhausted : List BState
  tc : List (String × ℚ)
deriving DecidableEq

/-- Redistribute a list of ballots: advance each to its next still-active
choice, move it there (or to exhausted) at full weight, and accumulate
per-destination transfer counts in first-receipt order. -/
def wbTransferBallots (st : WBXfer) (ballotList : List BState) : WBXfer :=
  ballotList.foldl
    (fun st b =>
      let r := wbAdvance st.cands b
      match r.2 with
      | some next =>
        { cands := candsUpd st.cands next (fun c =>
            { c with votes := c.votes + r.1.weight,
                     transferVotes := c.transferVotes + r.1.weight }),
          piles := pilesPush st.piles next r.1,
          exhausted := st.exhausted,
          tc := tcAdd st.tc next r.1.weight }
      | none =>
        { st with exhausted := st.exhausted ++ [r.1],
                  tc := tcAdd st.tc "X" r.1.weight })
    st

/-- Turn accumulated transfer counts into whole-ballot transfer records
(counts pass through `Math.round`). -/
def wbTcTransfers (cands : List Cand) (fromIdx : ℕ)
    (tc : List (String × ℚ)) (kind : TransferKind) : List Transfer :=
  tc.map (fun e =>
    ⟨fromIdx,
      (if e.1 = "X" then .ex
       else .cand (((candsGet cands e.1).map (fun c => c.index)).getD 0)),
      ((jround e.2 : ℤ) : ℚ), kind⟩)

/-- Process the over-quota candidates of one round in descending-votes
order, with the source's early exit once all seats are filled: mark each
elected, and while seats remain transfer the top `surplus` ballots of
its pile, then pin its votes at the quota. -/
def wbProcessElected (seats quota roundNumber : ℕ) :
    List String → WBAct → WBAct
  | [], st => st
  | name :: rest, st =>
    if seats ≤ st.winners.length then st
    else
      let st1 :=
        match candsGet st.cands name with
        | none => st
        | some elected =>
          let cands1 := candsUpd st.cands name (fun c =>
            { c with status := .elected,
                     roundElected := some roundNumber })
          let winners1 := st.winners ++ [elected.index]
          let st2 : WBAct :=
            { st with cands := cands1, winners := winners1,
                      electedL := st.electedL ++ [elected.index] }
          let surplus : ℤ := jround (elected.votes - (quota : ℚ))
          let st3 :=
            if 0 < surplus ∧ winners1.length < seats then
              let pile := (mapGet st2.piles name).getD []
              let transferBallots := pile.take surplus.toNat
              let keepBallots := pile.drop surplus.toNat
              let piles1 := mapSet st2.piles name keepBallots
              let xf := wbTransferBallots
                ⟨st2.cands, piles1, st2.exhausted, []⟩ transferBallots
              { st2 with cands := xf.cands, piles := xf.piles,
                         exhausted := xf.exhausted,
                         transfers := st2.transfers ++
                           wbTcTransfers xf.cands elected.index xf.tc
                             .surplus }
            else st2
          { st3 with cands := candsUpd st3.cands name (fun c =>
              { c with votes := (quota : ℚ) }) }
      wbProcessElected seats quota roundNumber rest st1

/-- Eliminate the lowest-vote active candidate (name-order tie-break)
and redistribute their whole pile. -/
def wbEliminate (roundNumber : ℕ) (st : WBAct) : WBAct :=
  let actives := st.cands.filter (fun c => c.status = .active)
  let lowestVotes := votesMin (actives.map (fun c => c.votes))
  let lowestCandidates := actives.filter (fun c => c.votes = lowestVotes)
  match (lowestCandidates.mergeSort nameLe).head? with
  | none => st
  | some eliminated =>
    let cands1 := candsUpd st.cands eliminated.name (fun c =>
      { c with status := .eliminated,
               roundEliminated := some roundNumber })
    let pile := (mapGet st.piles eliminated.name).getD []
    let xf := wbTransferBallots ⟨cands1, st.piles, st.exhausted, []⟩ pile
    { cands := candsUpd xf.cands eliminated.name (fun c =>
        { c with votes := 0 }),
      piles := mapSet xf.piles eliminated.name [],
      exhausted := xf.exhausted,
      winners := st.winners,
      transfers := st.transfers ++
        wbTcTransfers xf.cands eliminated.index xf.tc .elimination,
      electedL := st.electedL,
      eliminatedL := st.eliminatedL ++ [eliminated.index] }

/-- The action of one whole-ballot round: elect every over-quota active
candidate (votes descending), else eliminate the lowest. -/
def wbAction (s : WBState) : WBAct :=
  let actives := s.cands.filter (fun c => c.status = .active)
  let overQuota :=
    (actives.filter (fun c => (s.quota : ℚ) ≤ c.votes)).mergeSort
      voteDescLe
  let st0 : WBAct :=
    ⟨s.cands, s.piles, s.exhausted, s.winners, [], [], []⟩
  if overQuota.length ≠ 0 then
    wbProcessElected s.seats s.quota s.roundNumber
      (overQuota.map (fun c => c.name)) st0
  else wbEliminate s.roundNumber st0

/-- The fill-by-default election at the end of a whole-ballot round:
elect the remaining actives in candidate-map order until the seats are
filled (no extra round record is produced). -/
def wbFillElect : List String → WBState → WBState
  | [], s => s
  | name :: rest, s =>
    if s.seats ≤ s.winners.length then s
    else
      let s1 :=
        match candsGet s.cands name with
        | none => s
        | some c =>
          { s with
            cands := candsUpd s.cands name (fun c0 =>
              { c0 with status := .elected,
                        roundElected := some s.roundNumber }),
            winners := s.winners ++ [c.index] }
      wbFillElect rest s1

/-- The round record pushed by one whole-ballot round: the snapshot
taken before the action together with the action's transfers and the
elected/eliminated lists. -/
def wbRound0 (s : WBState) : Round :=
  { allocations := wbSnapshotAllocs s, undervote := 0, overvote := 0,
    continuingBallots :=
      (s.totalBallots : ℚ) - ((wbAction s).exhausted.length : ℚ),
    transfers := (wbAction s).transfers,
    electedThisRound :=
      if (wbAction s).electedL.length ≠ 0 then some (wbAction s).electedL
      else none,
    eliminatedThisRound :=
      if (wbAction s).eliminatedL.length ≠ 0 then
        some (wbAction s).eliminatedL
      else none }

/-- State after one whole-ballot round's action, record push and round
increment. -/
def wbAfterRound (s : WBState) : WBState :=
  { s with cands := (wbAction s).cands, piles := (wbAction s).piles,
           exhausted := (wbAction s).exhausted,
           winners := (wbAction s).winners,
           trace := s.trace ++ [wbRound0 s],
           roundNumber := s.roundNumber + 1 }

/-- One iteration of the whole-ballot `while` loop.  Returns the new
state and `true` when the loop breaks. -/
def wbBody (s : WBState) : WBState × Bool :=
  if (s.cands.filter (fun c => c.status = .active)).length = 0 then
    (s, true)
  else
    let s1 := wbAfterRound s
    let remaining := s1.cands.filter (fun c => c.status = .active)
    if (remaining.length : ℤ) ≤ (s1.seats : ℤ) - s1.winners.length then
      (wbFillElect (remaining.map (fun c => c.name)) s1, true)
    else (s1, false)

/-- The whole-ballot `while (winners.length < seats && roundNumber <=
maxRounds)` loop. -/
def wbLoop (cap : ℕ) (s : WBState) : WBState :=
  if h : s.winners.length < s.seats ∧ s.roundNumber ≤ cap then
    match hb : wbBody s with
    | (s', true) => s'
    | (s', false) => wbLoop cap s'
  else s
termination_by cap + 1 - s.roundNumber
decreasing_by
  have h' : s'.roundNumber = s.roundNumber + 1 := by
    unfold wbBody at hb
    dsimp only at hb
    split at hb
    · exact absurd (congrArg Prod.snd hb) (by simp)
    · split at hb
      · exact absurd (congrArg Prod.snd hb) (by simp)
      · cases hb
        rfl
  rw [h']
  omega

/-- The whole-ballot engine `tabulateSTV`, with the round cap as an
explicit parameter (the source fixes it to `candidateNames.length * 2`;
see `tabulateSTV`). -/
def tabulateSTVCap (cap : ℕ) (ballots : List Ballot) (seats : ℕ)
    (candidateNames : List String) : STVResult :=
  let s := wbLoop cap (wbInit ballots seats candidateNames)
  { rounds := s.trace, winners := s.winners, quota := s.quota,
    candidates := candidateNames,
    candidateVotes := s.cands.map (fun c =>
      ⟨c.index, ((jround c.firstRoundVotes : ℤ) : ℚ),
        ((jround c.transferVotes : ℤ) : ℚ),
        c.roundEliminated, c.roundElected⟩) }

/-- `tabulateSTV` (whole-ballot engine): Droop quota, whole-vote surplus
transfers, maximum `2 · |candidates|` rounds. -/
def tabulateSTV (ballots : List Ballot) (seats : ℕ)
    (candidateNames : List String) : STVResult :=
  tabulateSTVCap (candidateNames.length * 2) ballots seats candidateNames

/-!  ### Fractional (weighted inclusive Gregory) engine,
`tabulateFractionalSTV`.

Ballots can be referenced from several piles at once (a surplus transfer
keeps the residual weight conceptually with the elected candidate while
pushing the same ballot onto its next choice's pile), so runtime ballots
live in a store indexed by ballot id and piles hold ids. -/

/-- Index of the first usable ranking at or after `i` for the fractional
`getCurrentChoice`: eliminated candidates are always skipped, elected
ones only when `skipElected`; unknown names are skipped too. -/
def fracFindChoice (cands : List Cand) (rs : List String) (i : ℕ)
    (skipElected : Bool) : ℕ :=
  if h : i < rs.length then
    let st := statusOf cands (rs.get ⟨i, h⟩)
    if st = some .eliminated then fracFindChoice cands rs (i + 1) skipElected
    else if st = some .elected ∧ skipElected then
      fracFindChoice cands rs (i + 1) skipElected
    else if st = some .active ∨ (st = some .elected ∧ ¬skipElected) then i
    else fracFindChoice cands rs (i + 1) skipElected
  else i
termination_by rs.length - i

/-- Full state of the fractional tabulation loop. -/
structure FracState where
  seats : ℕ
  quota : ℕ
  cands : List Cand
  store : List BState
  piles : List (String × List ℕ)
  exhaustedIds : List ℕ
  exhaustedVotes : ℚ
  trace : List Round
  winners : List ℕ
  roundNumber : ℕ
deriving DecidableEq

/-- Push a ballot id onto the named pile. -/
def fpilesPush (piles : List (String × List ℕ)) (name : String)
    (id : ℕ) : List (String × List ℕ) :=
  mapSet piles name (((mapGet piles name).getD []) ++ [id])

/-- Initial fractional state: every ballot starts at its stated weight
(`?? 1.0`) with cursor at its first non-eliminated choice. -/
def fracInit (ballots : List Ballot) (seats : ℕ)
    (candidateNames : List String) (totalBallotsForQuota : Option ℕ) :
    FracState :=
  let quotaBasis := totalBallotsForQuota.getD ballots.length
  let bstates : List BState :=
    ballots.map (fun b => ⟨b.rankings, 0, b.weight.getD 1⟩)
  let start : FracState :=
    { seats := seats, quota := calculateDroopQuota quotaBasis seats,
      cands := initCands candidateNames,
      store := bstates,
      piles := initPiles candidateNames,
      exhaustedIds := [], exhaustedVotes := 0,
      trace := [], winners := [], roundNumber := 1 }
  (List.range bstates.length).foldl
    (fun s id =>
      match s.store.get? id with
      | none => s
      | some b =>
        let j := fracFindChoice s.cands b.originalRankings
          b.currentIndex false
        let b1 : BState := { b with currentIndex := j }
        let s1 := { s with store := s.store.set id b1 }
        if h : j < b.originalRankings.length then
          let choice := b.originalRankings.get ⟨j, h⟩
          { s1 with
            piles := fpilesPush s1.piles choice id,
            cands := candsUpd s1.cands choice (fun c =>
              { c with votes := c.votes + b1.weight,
                       firstRoundVotes := c.firstRoundVotes + b1.weight }) }
        else
          { s1 with exhaustedIds := s1.exhaustedIds ++ [id],
                    exhaustedVotes := s1.exhaustedVotes + b1.weight })
    start

/-- Allocation snapshot at the top of each fractional round: raw
fractional votes for active or elected candidates plus exhausted, sorted
votes-descending with exhausted last. -/
def fracSnapshotAllocs (s : FracState) : List Alloc :=
  sortAllocs
    ((s.cands.filter
        (fun c => c.status = .active ∨ c.status = .elected)).map
        (fun c => ⟨.cand c.index, c.votes⟩)
      ++ [⟨.ex, s.exhaustedVotes⟩])

/-- Turn accumulated fractional transfer counts into transfer records
(raw fractional counts). -/
def fracTcTransfers (cands : List Cand) (fromIdx : ℕ)
    (tc : List (String × ℚ)) (kind : TransferKind) : List Transfer :=
  tc.map (fun e =>
    ⟨fromIdx,
      (if e.1 = "X" then .ex
       else .cand (((candsGet cands e.1).map (fun c => c.index)).getD 0)),
      e.2, kind⟩)

/-- Accumulator for a fractional round's action. -/
structure FracAct where
  cands : List Cand
  store : List BState
  piles : List (String × List ℕ)
  exhaustedIds : List ℕ
  exhaustedVotes : ℚ
  winners : List ℕ
  transfers : List Transfer
  electedL : List ℕ
  eliminatedL : List ℕ
deriving DecidableEq

/-- One ballot of the surplus-distribution loop: reduce the ballot's
weight by `weight · transferFraction`, advance past the elected
candidate (skipping elected and eliminated), credit the transfer weight
to the next choice or to exhausted (cursor restored), and remember the
reassignment. -/
def fracSurplusStep (transferFraction : ℚ)
    (acc : FracAct × List (String × ℚ) × List (ℕ × String)) (id : ℕ) :
    FracAct × List (String × ℚ) × List (ℕ × String) :=
  let st := acc.1
  match st.store.get? id with
  | none => acc
  | some b =>
    let transferWeight := b.weight * transferFraction
    let b1 : BState := { b with weight := b.weight - transferWeight }
    let savedIndex := b1.currentIndex
    let j := fracFindChoice st.cands b1.originalRankings
      (savedIndex + 1) true
    if h : j < b1.originalRankings.length then
      let nextChoice := b1.originalRankings.get ⟨j, h⟩
      let b2 : BState := { b1 with currentIndex := j }
      (({ st with
          store := st.store.set id b2,
          cands := candsUpd st.cands nextChoice (fun c =>
            { c with votes := c.votes + transferWeight,
                     transferVotes :=
                       c.transferVotes + transferWeight }) },
        tcAdd acc.2.1 nextChoice transferWeight,
        acc.2.2 ++ [(id, nextChoice)]))
    else
      let b2 : BState := { b1 with currentIndex := savedIndex }
      (({ st with
          store := st.store.set id b2,
          exhaustedVotes := st.exhaustedVotes + transferWeight },
        tcAdd acc.2.1 "X" transferWeight,
        acc.2.2))

/-- Elect the single highest over-quota candidate and spread its surplus
proportionally over every ballot of its pile (`fracSurplusStep` per
ballot), then reassign the transferred ballots and pin the elected
candidate's votes at the quota. -/
def fracElect (seats quota roundNumber : ℕ) (name : String)
    (st : FracAct) : FracAct :=
  match candsGet st.cands name with
  | none => st
  | some elected =>
    let cands1 := candsUpd st.cands name (fun c =>
      { c with status := .elected, roundElected := some roundNumber })
    let winners1 := st.winners ++ [elected.index]
    let st2 : FracAct :=
      { st with cands := cands1, winners := winners1,
                electedL := st.electedL ++ [elected.index] }
    let surplus : ℚ := elected.votes - (quota : ℚ)
    let st3 :=
      if 0 < surplus ∧ winners1.length < seats then
        let transferFraction := surplus / elected.votes
        let pile := (mapGet st2.piles name).getD []
        let step := pile.foldl (fracSurplusStep transferFraction)
          (st2, [], [])
        let st4 := step.1
        let st5 := { st4 with
          piles := step.2.2.foldl
            (fun ps (e : ℕ × String) => fpilesPush ps e.2 e.1)
            st4.piles }
        { st5 with transfers := st5.transfers ++
            fracTcTransfers st5.cands elected.index step.2.1 .surplus }
      else st2
    { st3 with cands := candsUpd st3.cands name (fun c =>
        { c with votes := (quota : ℚ) }) }

/-- One ballot of the elimination loop: advance to the next choice
(skipping elected and eliminated) and move the ballot's full current
weight there, or to exhausted. -/
def fracElimStep (acc : FracAct × List (String × ℚ)) (id : ℕ) :
    FracAct × List (String × ℚ) :=
  let st := acc.1
  match st.store.get? id with
  | none => acc
  | some b =>
    let j := fracFindChoice st.cands b.originalRankings
      (b.currentIndex + 1) true
    let b1 : BState := { b with currentIndex := j }
    if h : j < b.originalRankings.length then
      let nextChoice := b.originalRankings.get ⟨j, h⟩
      ({ st with
          store := st.store.set id b1,
          piles := fpilesPush st.piles nextChoice id,
          cands := candsUpd st.cands nextChoice (fun c =>
            { c with votes := c.votes + b.weight,
                     transferVotes := c.transferVotes + b.weight }) },
        tcAdd acc.2 nextChoice b.weight)
    else
      ({ st with
          store := st.store.set id b1,
          exhaustedIds := st.exhaustedIds ++ [id],
          exhaustedVotes := st.exhaustedVotes + b.weight },
        tcAdd acc.2 "X" b.weight)

/-- Eliminate the lowest-vote active candidate (1e-4 tolerance on the
minimum, name-order tie-break) and move every ballot of its pile, at its
current weight, to its next choice (`fracElimStep` per ballot). -/
def fracEliminate (roundNumber : ℕ) (st : FracAct) : FracAct :=
  let actives := st.cands.filter (fun c => c.status = .active)
  let lowestVotes := votesMin (actives.map (fun c => c.votes))
  let lowestCandidates := actives.filter
    (fun c => |c.votes - lowestVotes| < 1 / 10000)
  match (lowestCandidates.mergeSort nameLe).head? with
  | none => st
  | some eliminated =>
    let cands1 := candsUpd st.cands eliminated.name (fun c =>
      { c with status := .eliminated,
               roundEliminated := some roundNumber })
    let pile := (mapGet st.piles eliminated.name).getD []
    let step := pile.foldl fracElimStep ({ st with cands := cands1 }, [])
    let st4 := step.1
    { st4 with
      cands := candsUpd st4.cands eliminated.name (fun c =>
        { c with votes := 0 }),
      piles := mapSet st4.piles eliminated.name [],
      transfers := st4.transfers ++
        fracTcTransfers st4.cands eliminated.index step.2 .elimination,
      eliminatedL := st4.eliminatedL ++ [eliminated.index] }

/-- The action of one fractional round: elect the single highest
over-quota active candidate, else eliminate the lowest. -/
def fracAction (s : FracState) : FracAct :=
  let actives := s.cands.filter (fun c => c.status = .active)
  let overQuota :=
    (actives.filter (fun c => (s.quota : ℚ) ≤ c.votes)).mergeSort
      voteDescLe
  let st0 : FracAct :=
    ⟨s.cands, s.store, s.piles, s.exhaustedIds, s.exhaustedVotes,
      s.winners, [], [], []⟩
  match overQuota.head? with
  | some elected => fracElect s.seats s.quota s.roundNumber elected.name st0
  | none => fracEliminate s.roundNumber st0

/-- The fill-by-default election of the fractional engine: elect the
remaining actives in votes-descending order until the seats are filled. -/
def fracFillElect : List String → FracState → FracState
  | [], s => s
  | name :: rest, s =>
    if s.seats ≤ s.winners.length then s
    else
      let s1 :=
        match candsGet s.cands name with
        | none => s
        | some c =>
          { s with
            cands := candsUpd s.cands name (fun c0 =>
              { c0 with status := .elected,
                        roundElected := some s.roundNumber }),
            winners := s.winners ++ [c.index] }
      fracFillElect rest s1

/-- The extra final round record emitted by the fractional
fill-by-default step: every elected candidate plus exhausted, sorted,
with no transfers. -/
def fracFinalRound (s : FracState) (continuingVotes : ℚ)
    (electedIdxs : List ℕ) : Round :=
  { allocations := sortAllocs
      ((s.cands.filter (fun c => c.status = .elected)).map
          (fun c => ⟨.cand c.index, c.votes⟩)
        ++ [⟨.ex, s.exhaustedVotes⟩]),
    undervote := 0, overvote := 0,
    continuingBallots := ((jround continuingVotes : ℤ) : ℚ),
    transfers := [],
    electedThisRound := some electedIdxs,
    eliminatedThisRound := none }

/-- The continuing-vote total computed after a fractional round's
action (votes held by active or elected candidates). -/
def fracContinuingVotes (s : FracState) : ℚ :=
  (((fracAction s).cands.filter
      (fun c => c.status = .active ∨ c.status = .elected)).map
      (fun c => c.votes)).sum

/-- The round record pushed by one fractional round. -/
def fracRound0 (s : FracState) : Round :=
  { allocations := fracSnapshotAllocs s, undervote := 0, overvote := 0,
    continuingBallots := ((jround (fracContinuingVotes s) : ℤ) : ℚ),
    transfers := (fracAction s).transfers,
    electedThisRound :=
      if (fracAction s).electedL.length ≠ 0 then
        some (fracAction s).electedL
      else none,
    eliminatedThisRound :=
      if (fracAction s).eliminatedL.length ≠ 0 then
        some (fracAction s).eliminatedL
      else none }

/-- State after one fractional round's action, record push and round
increment. -/
def fracAfterRound (s : FracState) : FracState :=
  { s with cands := (fracAction s).cands, store := (fracAction s).store,
           piles := (fracAction s).piles,
           exhaustedIds := (fracAction s).exhaustedIds,
           exhaustedVotes := (fracAction s).exhaustedVotes,
           winners := (fracAction s).winners,
           trace := s.trace ++ [fracRound0 s],
           roundNumber := s.roundNumber + 1 }

/-- One iteration of the fractional `while` loop.  Returns the new state
and `true` when the loop breaks. -/
def fracBody (s : FracState) : FracState × Bool :=
  if (s.cands.filter (fun c => c.status = .active)).length = 0 then
    (s, true)
  else
    let s1 := fracAfterRound s
    let remaining := s1.cands.filter (fun c => c.status = .active)
    if (remaining.length : ℤ) ≤ (s1.seats : ℤ) - s1.winners.length ∧
        0 < remaining.length then
      let remainingSorted := remaining.mergeSort voteDescLe
      let s2 := fracFillElect (remainingSorted.map (fun c => c.name)) s1
      let s3 := { s2 with trace := s2.trace ++
        [fracFinalRound s2 (fracContinuingVotes s)
          (remainingSorted.map (fun c => c.index))] }
      (s3, true)
    else (s1, false)

/-- The fractional `while (winners.length < seats && roundNumber <=
maxRounds)` loop. -/
def fracLoop (cap : ℕ) (s : FracState) : FracState :=
  if h : s.winners.length < s.seats ∧ s.roundNumber ≤ cap then
    match hb : fracBody s with
    | (s', true) => s'
    | (s', false) => fracLoop cap s'
  else s
termination_by cap + 1 - s.roundNumber
decreasing_by
  have h' : s'.roundNumber = s.roundNumber + 1 := by
    unfold fracBody at hb
    dsimp only at hb
    split at hb
    · exact absurd (congrArg Prod.snd hb) (by simp)
    · split at hb
      · exact absurd (congrArg Prod.snd hb) (by simp)
      · cases hb
        rfl
  rw [h']
  omega

/-- The fractional engine `tabulateFractionalSTV` with the round cap as
an explicit parameter (the source fixes it to
`candidateNames.length * 3`). -/
def tabulateFractionalSTVCap (cap : ℕ) (ballots : List Ballot)
    (seats : ℕ) (candidateNames : List String)
    (totalBallotsForQuota : Option ℕ) : STVResult :=
  let s := fracLoop cap
    (fracInit ballots seats candidateNames totalBallotsForQuota)
  { rounds := s.trace, winners := s.winners, quota := s.quota,
    candidates := candidateNames,
    candidateVotes := s.cands.map (fun c =>
      ⟨c.index, c.firstRoundVotes, c.transferVotes,
        c.roundEliminated, c.roundElected⟩) }

/-- `tabulateFractionalSTV` (fractional engine): Droop quota, weighted
inclusive Gregory surplus transfers, maximum `3 · |candidates|`
rounds. -/
def tabulateFractionalSTV (ballots : List Ballot) (seats : ℕ)
    (candidateNames : List String) (totalBallotsForQuota : Option ℕ) :
    STVResult :=
  tabulateFractionalSTVCap (candidateNames.length * 3) ballots seats
    candidateNames totalBallotsForQuota

/-!  ### First-alternate table (`computeFirstAlternate`,
scripts/load-portland.ts)  -/

/-- One cell of a candidate-pair table
(report_types.ts `ICandidatePairEntry`). -/
structure PairEntry where
  frac : ℚ
  numerator : ℕ
  denominator : ℕ
deriving DecidableEq

/-- Candidate-pair table (report_types.ts `ICandidatePairTable`). -/
structure PairTable where
  rows : List Allocatee
  cols : List Allocatee
  entries : List (List PairEntry)
deriving DecidableEq

/-- The `nameToIndex` map: `new Map(candidateNames.map((name, i) =>
[name, i]))` (a duplicated name keeps its last index). -/
def nameToIndex (candidateNames : List String) :
    List (String × ℕ) :=
  (candidateNames.enum).foldl (fun m e => mapSet m e.2 e.1) []

/-- Increment slot `i` of a counter array. -/
def listInc (l : List ℕ) (i : ℕ) : List ℕ := l.set i (l.getD i 0 + 1)

/-- The two counting passes of `computeFirstAlternate`: per first-choice
candidate, the number of ballots with that first choice, and the
`secondChoice[first][second]` matrix with column `n` standing for
exhausted. -/
def firstAlternateCounts (ballots : List Ballot)
    (candidateNames : List String) : List ℕ × List (List ℕ) :=
  let n := candidateNames.length
  let idx := nameToIndex candidateNames
  ballots.foldl
    (fun acc b =>
      match b.rankings with
      | [] => acc
      | r0 :: rest =>
        match mapGet idx r0 with
        | none => acc
        | some first =>
          let counts := listInc acc.1 first
          let second :=
            match rest with
            | [] => n
            | r1 :: _ =>
              match mapGet idx r1 with
              | some s => s
              | none => n
          (counts, acc.2.set first (listInc (acc.2.getD first []) second)))
    (List.replicate n 0, List.replicate n (List.replicate (n + 1) 0))

/-- `computeFirstAlternate` (scripts/load-portland.ts): for each
first-choice candidate `a` the row of second-choice counts over every
candidate plus exhausted, each over the denominator
`firstChoiceCounts[a]`, with an all-zero diagonal cell. -/
def computeFirstAlternate (ballots : List Ballot)
    (candidateNames : List String) : PairTable :=
  let n := candidateNames.length
  let counts := firstAlternateCounts ballots candidateNames
  { rows := (List.range n).map (fun i => .cand i),
    cols := (List.range n).map (fun i => .cand i) ++ [.ex],
    entries := (List.range n).map (fun a =>
      let denom := counts.1.getD a 0
      (List.range (n + 1)).map (fun b =>
        if a = b ∧ b < n then ⟨0, 0, 0⟩
        else
          let num := (counts.2.getD a []).getD b 0
          ⟨if 0 < denom then (num : ℚ) / (denom : ℚ) else 0,
            num, denom⟩)) }

/-!  ### Helpers for stating properties of results  -/

/-- Default round record (for safe indexing in statements). -/
def emptyRound : Round := ⟨[], 0, 0, 0, [], none, none⟩

/-- Default candidate summary (for safe indexing in statements). -/
def emptyCandVotes : CandVotes := ⟨0, 0, 0, none, none⟩

/-- The votes a round record shows for an allocatee (summed, though each
record holds at most one entry per allocatee). -/
def allocVotesOf (r : Round) (a : Allocatee) : ℚ :=
  ((r.allocations.filter (fun e => e.allocatee = a)).map
    (fun e => e.votes)).sum

/-- The summary entry of candidate index `i` in a result. -/
def cvOf (r : STVResult) (i : ℕ) : CandVotes :=
  (r.candidateVotes.find? (fun cv => cv.candidate = i)).getD
    emptyCandVotes

/-- Elected-pin trace property of a whole-ballot state: every round
record strictly after a candidate's election round shows exactly the
quota for it (record `i` of the trace is round `i + 1`). -/
def wbPinQ (s : WBState) : Prop :=
  ∀ c ∈ s.cands, ∀ r, c.roundElected = some r →
    ∀ i, r ≤ i → i < s.trace.length →
      allocVotesOf (s.trace.getD i emptyRound) (.cand c.index) =
        (s.quota : ℚ)

/-- Loop invariant for the elected pin on the whole-ballot engine:
round/trace bookkeeping, distinct names and indexes, elected entries
pinned at the quota, and the trace property `wbPinQ`. -/
def wbPin (s : WBState) : Prop :=
  s.trace.length + 1 = s.roundNumber ∧
  (s.cands.map (fun c => c.name)).Nodup ∧
  (s.cands.map (fun c => c.index)).Nodup ∧
  (∀ c ∈ s.cands, ∀ r, c.roundElected = some r →
    r < s.roundNumber ∧ c.status = .elected ∧
      c.votes = (s.quota : ℚ)) ∧
  wbPinQ s

/-- Elected-pin trace property of a fractional state. -/
def fracPinQ (s : FracState) : Prop :=
  ∀ c ∈ s.cands, ∀ r, c.roundElected = some r →
    ∀ i, r ≤ i → i < s.trace.length →
      allocVotesOf (s.trace.getD i emptyRound) (.cand c.index) =
        (s.quota : ℚ)

/-- Loop invariant for the elected pin on the fractional engine. -/
def fracPin (s : FracState) : Prop :=
  s.trace.length + 1 = s.roundNumber ∧
  (s.cands.map (fun c => c.name)).Nodup ∧
  (s.cands.map (fun c => c.index)).Nodup ∧
  (∀ c ∈ s.cands, ∀ r, c.roundElected = some r →
    r < s.roundNumber ∧ c.status = .elected ∧
      c.votes = (s.quota : ℚ)) ∧
  fracPinQ s

/-!  ### Concrete inputs used by the claims  -/

/-- Scenario S2: ten identical ballots `A > B > C > D`. -/
def s2ballots : List Ballot :=
  List.replicate 10 ⟨["A", "B", "C", "D"], none⟩

/-- Scenario S2 result (whole-ballot, two seats). -/
def s2res : STVResult := tabulateSTV s2ballots 2 ["A", "B", "C", "D"]

/-- Pile-order probe for the surplus-selection rule: six `A > B` ballots
received before four `A > C` ballots. -/
def pileOrderBallots : List Ballot :=
  List.replicate 6 ⟨["A", "B"], none⟩ ++
    List.replicate 4 ⟨["A", "C"], none⟩

/-- Result of the pile-order probe (whole-ballot, two seats). -/
def pileOrderRes : STVResult :=
  tabulateSTV pileOrderBallots 2 ["A", "B", "C", "D"]

/-- Fill-by-default probe: bullet votes `A`×3 and `B`×3, `C > B`×2,
`D`×1; two seats. -/
def fillBallots : List Ballot :=
  List.replicate 3 ⟨["A"], none⟩ ++ List.replicate 3 ⟨["B"], none⟩ ++
    List.replicate 2 ⟨["C", "B"], none⟩ ++ [⟨["D"], none⟩]

/-- Result of the fill-by-default probe. -/
def fillRes : STVResult := tabulateSTV fillBallots 2 ["A", "B", "C", "D"]

/-- Transfer-order probe: the eliminated candidate's pile reaches a
higher-index destination before a lower-index one. -/
def xferOrderBallots : List Ballot :=
  [⟨["A", "C"], none⟩, ⟨["A", "B"], none⟩] ++
    List.replicate 2 ⟨["B"], none⟩ ++ List.replicate 2 ⟨["C"], none⟩

/-- Result of the transfer-order probe (whole-ballot, one seat). -/
def xferOrderRes : STVResult := tabulateSTV xferOrderBallots 1 ["A", "B", "C"]

/-- Scenario S4 ballots: `A > B`×6, `A > C`×6, `C > B`×3. -/
def s4ballots : List Ballot :=
  List.replicate 6 ⟨["A", "B"], none⟩ ++
    List.replicate 6 ⟨["A", "C"], none⟩ ++
    List.replicate 3 ⟨["C", "B"], none⟩

/-- Scenario S4 result (fractional, two seats). -/
def s4res : STVResult := tabulateFractionalSTV s4ballots 2 ["A", "B", "C"] none

/-- Ordering of two allocation entries required by the emitted
allocation lists: any entry before the exhausted entry, and otherwise
votes non-increasing. -/
def allocBefore (a b : Alloc) : Prop :=
  b.allocatee = .ex ∨ (a.allocatee ≠ .ex ∧ b.votes ≤ a.votes)

/-- A transfer list's from-candidates are grouped when every change of
from-value is permanent: once the list moves off a value it never
returns to it. -/
def grouped : List ℕ → Bool
  | [] => true
  | [_] => true
  | x :: y :: xs =>
    if x = y then grouped (y :: xs)
    else !((y :: xs).contains x) && grouped (y :: xs)

/-- Tag coherence of one round record: surplus transfers come from a
candidate elected this round, elimination transfers from a candidate
eliminated this round. -/
def tagsOk (rec : Round) : Prop :=
  ∀ t ∈ rec.transfers,
    (t.kind = .surplus → t.tfrom ∈ rec.electedThisRound.getD []) ∧
    (t.kind = .elimination → t.tfrom ∈ rec.eliminatedThisRound.getD [])

/-- First-choice candidate index of a ballot under `nameToIndex`. -/
def firstChoiceOf (candidateNames : List String) (b : Ballot) :
    Option ℕ :=
  match b.rankings with
  | [] => none
  | r :: _ => mapGet (nameToIndex candidateNames) r

/-- Number of ballots whose first choice resolves to candidate `a`. -/
def firstChoiceCount (candidateNames : List String)
    (ballots : List Ballot) (a : ℕ) : ℕ :=
  ballots.countP (fun b => decide (firstChoiceOf candidateNames b = some a))

/-- Boolean test that two transfers whose destinations are both
candidates have ascending destination indices. -/
def candToIdxLe (t u : Transfer) : Bool :=
  match t.tto, u.tto with
  | .cand i, .cand j => decide (i ≤ j)
  | _, _ => true

/-- Backward status simulation: a candidate active afterwards was active
before. -/
def statusBack (c c' : Cand) : Prop :=
  c'.status = .active → c.status = .active

/-- Evolution of one candidate entry across one round action, as needed
for the elected-pin invariant: index and name never change, and an
entry's election record either is untouched (with the whole entry frozen
once elected) or is set by this very action, which pins the votes at the
quota. -/
def pinStep (quota rn : ℕ) (c c' : Cand) : Prop :=
  c'.index = c.index ∧ c'.name = c.name ∧
  ((c'.roundElected = c.roundElected ∧ (c.status = .elected → c' = c)) ∨
   (c'.status = .elected ∧ c'.votes = (quota : ℚ) ∧
     c'.roundElected = some rn))

/-!  ### Claims settled on concrete inputs  -/

/-- C1, counterexample.  On Scenario S2 the quota is 4 and B is elected
in round 2 as claimed, but round 2 emits no transfers at all: once B's
election fills the last seat, the engine's `surplus > 0 &&
winners.length < seats` guard suppresses the surplus transfer, so C
receives 2 votes is false — C's allocation stays 0 and C is never a
transfer destination in round 2. -/
theorem c1_counterexample :
    s2res.quota = 4 ∧
    (s2res.rounds.getD 1 emptyRound).electedThisRound = some [1] ∧
    (s2res.rounds.getD 1 emptyRound).transfers = [] ∧
    allocVotesOf (s2res.rounds.getD 1 emptyRound) (.cand 2) = 0 ∧
    (cvOf s2res 2).transferVotes = 0 := by
  with_unfolding_all decide

/-- C1, amended.  Scenario S2 as the whole-ballot engine actually runs
it: quota 4; round 1 elects A at 10 votes and transfers its surplus of 6
to B; round 2 shows B at 6 ≥ 4 and elects B, and because both seats are
then filled B's surplus of 2 is not transferred (C receives nothing);
tabulation stops after two rounds with winners [A, B] in that order. -/
theorem c1_amended_s2 :
    s2res.quota = 4 ∧
    allocVotesOf (s2res.rounds.getD 0 emptyRound) (.cand 0) = 10 ∧
    (s2res.rounds.getD 0 emptyRound).electedThisRound = some [0] ∧
    (s2res.rounds.getD 0 emptyRound).transfers =
      [⟨0, .cand 1, 6, .surplus⟩] ∧
    allocVotesOf (s2res.rounds.getD 1 emptyRound) (.cand 1) = 6 ∧
    (s2res.rounds.getD 1 emptyRound).electedThisRound = some [1] ∧
    (s2res.rounds.getD 1 emptyRound).transfers = [] ∧
    allocVotesOf (s2res.rounds.getD 1 emptyRound) (.cand 2) = 0 ∧
    s2res.rounds.length = 2 ∧
    s2res.winners = [0, 1] := by
  with_unfolding_all decide

/-- C2, code evaluation at the failing input.  A's pile receives six
`A > B` ballots and then four `A > C` ballots; A has 10 votes, quota 4,
surplus 6.  The source comments say the six ballots taken for the
surplus are the top of the pile — the most recently received — which
would move 2 ballots to B and 4 to C; but `ballotPile.slice(0, surplus)`
takes the six earliest-received ballots instead, so B receives all 6 and
C receives nothing. -/
theorem c2_slice_takes_earliest :
    (pileOrderRes.rounds.getD 0 emptyRound).transfers =
      [⟨0, .cand 1, 6, .surplus⟩] ∧
    allocVotesOf (pileOrderRes.rounds.getD 1 emptyRound) (.cand 1) = 6 ∧
    allocVotesOf (pileOrderRes.rounds.getD 1 emptyRound) (.cand 2) = 0 := by
  with_unfolding_all decide

/-- C3, counterexample.  On the fill-by-default probe the whole-ballot
engine seats A and B by default at round index 3, while B holds 5 votes
to A's 3: the claim's descending-votes order would elect B before A
(winners [1, 0]) and append a third, transfer-free round record, but the
engine returns winners [0, 1] (candidate order) and only two round
records. -/
theorem c3_counterexample :
    fillRes.winners = [0, 1] ∧
    (cvOf fillRes 0).roundElected = some 3 ∧
    (cvOf fillRes 1).roundElected = some 3 ∧
    (cvOf fillRes 0).firstRoundVotes + (cvOf fillRes 0).transferVotes
      = 3 ∧
    (cvOf fillRes 1).firstRoundVotes + (cvOf fillRes 1).transferVotes
      = 5 ∧
    fillRes.rounds.length = 2 := by
  with_unfolding_all decide

/-- C4, counterexample.  On Scenario S2, A has `round_elected = 1`, but
the round-1 record (the record with `r' = r`) shows A's allocation as
its full pre-transfer 10 votes, not the quota 4: the "every round
r' ≥ r" form of the elected-pin claim fails at `r' = r`. -/
theorem c4_counterexample :
    (cvOf s2res 0).roundElected = some 1 ∧
    s2res.quota = 4 ∧
    allocVotesOf (s2res.rounds.getD 0 emptyRound) (.cand 0) = 10 := by
  with_unfolding_all decide

/-- C6, counterexample.  With candidates [A, B] and the single ballot
`A > B`, row A of the first-alternate table has denominator 1 (its
first-choice count) in the B column and the exhausted column, but the
diagonal (A, A) cell is emitted as an all-zero entry with denominator 0,
so the denominator is not identical across all columns. -/
theorem c6_counterexample :
    (((computeFirstAlternate [⟨["A", "B"], none⟩] ["A", "B"]).entries.getD
        0 []).getD 0 ⟨0, 0, 0⟩).denominator = 0 ∧
    (((computeFirstAlternate [⟨["A", "B"], none⟩] ["A", "B"]).entries.getD
        0 []).getD 1 ⟨0, 0, 0⟩).denominator = 1 ∧
    ¬ (((computeFirstAlternate [⟨["A", "B"], none⟩] ["A", "B"]).entries.getD
        0 []).map (fun e => e.denominator)).all (fun d => d = 1) := by
  with_unfolding_all decide

/-- C7, counterexample.  Transfers are recorded in the order a
destination first receives a ballot, not by destination index: on the
transfer-order probe the round-1 elimination of A produces the transfer
list [A→C: 1, A→B: 1], whose to-indices 2, 1 are not ascending. -/
theorem c7_counterexample :
    (xferOrderRes.rounds.getD 0 emptyRound).transfers =
      [⟨0, .cand 2, 1, .elimination⟩, ⟨0, .cand 1, 1, .elimination⟩] ∧
    ¬ (xferOrderRes.rounds.getD 0 emptyRound).transfers.Pairwise
        (fun t u => candToIdxLe t u = true) := by
  with_unfolding_all decide

/-- C9.  Scenario S4 on the fractional engine: quota 6; round 1 shows A
at 12, elects A (surplus 6, fraction 1/2) and transfers 3 to B and 3 to
C; round 2 shows A pinned at 6 and C at 6, and elects C; the winners are
[A, C]. -/
theorem c9_s4_scenario :
    s4res.quota = 6 ∧
    allocVotesOf (s4res.rounds.getD 0 emptyRound) (.cand 0) = 12 ∧
    (s4res.rounds.getD 0 emptyRound).electedThisRound = some [0] ∧
    (s4res.rounds.getD 0 emptyRound).transfers =
      [⟨0, .cand 1, 3, .surplus⟩, ⟨0, .cand 2, 3, .surplus⟩] ∧
    allocVotesOf (s4res.rounds.getD 1 emptyRound) (.cand 0) = 6 ∧
    allocVotesOf (s4res.rounds.getD 1 emptyRound) (.cand 1) = 3 ∧
    allocVotesOf (s4res.rounds.getD 1 emptyRound) (.cand 2) = 6 ∧
    (s4res.rounds.getD 1 emptyRound).electedThisRound = some [2] ∧
    s4res.winners = [0, 2] := by
  with_unfolding_all decide

/-!  ### General lemmas: folds, loop bodies, loop invariants  -/

/-- Fold invariant preservation. -/
theorem foldl_inv {σ ι : Type} (Inv : σ → Prop) (f : σ → ι → σ)
    (step : ∀ s x, Inv s → Inv (f s x)) :
    ∀ (l : List ι) (s : σ), Inv s → Inv (l.foldl f s)
  | [], _, h => h
  | x :: xs, s, h => foldl_inv Inv f step (l := xs) (f s x) (step s x h)

/-- The whole-ballot loop body advances the round counter whenever it
does not break. -/
theorem wbBody_rn {s s' : WBState} (h : wbBody s = (s', false)) :
    s'.roundNumber = s.roundNumber + 1 := by
  unfold wbBody at h
  dsimp only at h
  split at h
  · exact absurd (congrArg Prod.snd h) (by simp)
  · split at h
    · exact absurd (congrArg Prod.snd h) (by simp)
    · cases h
      rfl

/-- The fractional loop body advances the round counter whenever it does
not break. -/
theorem fracBody_rn {s s' : FracState} (h : fracBody s = (s', false)) :
    s'.roundNumber = s.roundNumber + 1 := by
  unfold fracBody at h
  dsimp only at h
  split at h
  · exact absurd (congrArg Prod.snd h) (by simp)
  · split at h
    · exact absurd (congrArg Prod.snd h) (by simp)
    · cases h
      rfl

/-- Any property preserved by the whole-ballot loop body holds of the
loop's result. -/
theorem wbLoop_inv (P : WBState → Prop)
    (hstep : ∀ s s' b, wbBody s = (s', b) → P s → P s') :
    ∀ (n cap : ℕ) (s : WBState), cap + 1 - s.roundNumber ≤ n → P s →
      P (wbLoop cap s) := by
  intro n
  induction n with
  | zero =>
    intro cap s hle hP
    rw [wbLoop]
    split
    · next hg => omega
    · exact hP
  | succ n ih =>
    intro cap s hle hP
    rw [wbLoop]
    split
    · next hg =>
      rcases hb : wbBody s with ⟨s', b⟩
      cases b with
      | true => exact hstep s s' true hb hP
      | false =>
        have hrn := wbBody_rn hb
        exact ih cap s' (by omega) (hstep s s' false hb hP)
    · exact hP

/-- Any property preserved by the fractional loop body holds of the
loop's result. -/
theorem fracLoop_inv (P : FracState → Prop)
    (hstep : ∀ s s' b, fracBody s = (s', b) → P s → P s') :
    ∀ (n cap : ℕ) (s : FracState), cap + 1 - s.roundNumber ≤ n → P s →
      P (fracLoop cap s) := by
  intro n
  induction n with
  | zero =>
    intro cap s hle hP
    rw [fracLoop]
    split
    · next hg => omega
    · exact hP
  | succ n ih =>
    intro cap s hle hP
    rw [fracLoop]
    split
    · next hg =>
      rcases hb : fracBody s with ⟨s', b⟩
      cases b with
      | true => exact hstep s s' true hb hP
      | false =>
        have hrn := fracBody_rn hb
        exact ih cap s' (by omega) (hstep s s' false hb hP)
    · exact hP

/-!  ### The allocation sort  -/

theorem allocLe_trans (a b c : Alloc) (h1 : allocLe a b = true)
    (h2 : allocLe b c = true) : allocLe a c = true := by
  unfold allocLe at *
  split_ifs at * with h3 h4 h5 h6 h7 <;> simp_all
  · exact le_trans (by assumption) (by assumption)

theorem allocLe_total (a b : Alloc) :
    (allocLe a b || allocLe b a) = true := by
  unfold allocLe
  split_ifs <;> simp_all
  exact le_total b.votes a.votes

theorem sortAllocs_perm (l : List Alloc) : (sortAllocs l).Perm l :=
  List.mergeSort_perm l allocLe

theorem allocLe_implies_allocBefore (a b : Alloc)
    (h : allocLe a b = true) : allocBefore a b := by
  unfold allocLe at h
  unfold allocBefore
  split_ifs at h with h1 h2 <;> simp_all

/-- The sorted allocation list of a snapshot — exhausted-free entries
followed by a single exhausted entry — is pairwise `allocBefore` and
contains exactly one exhausted entry. -/
theorem sortAllocs_wf (front : List Alloc) (xv : ℚ)
    (hfront : ∀ a ∈ front, a.allocatee ≠ .ex) :
    (sortAllocs (front ++ [⟨.ex, xv⟩])).Pairwise allocBefore ∧
    (sortAllocs (front ++ [⟨.ex, xv⟩])).countP
      (fun a => decide (a.allocatee = .ex)) = 1 := by
  constructor
  · exact (List.sorted_mergeSort allocLe_trans allocLe_total
      (front ++ [⟨.ex, xv⟩])).imp
      (fun h => allocLe_implies_allocBefore _ _ h)
  · rw [List.Perm.countP_eq _ (sortAllocs_perm _)]
    rw [List.countP_append]
    have hz : front.countP (fun a => decide (a.allocatee = .ex)) = 0 := by
      rw [List.countP_eq_zero]
      intro a ha
      simpa using hfront a ha
    simp [hz]

/-- The whole-ballot snapshot is a sorted exhausted-free front plus one
exhausted entry. -/
theorem wbSnapshotAllocs_wf (s : WBState) :
    (wbSnapshotAllocs s).Pairwise allocBefore ∧
    (wbSnapshotAllocs s).countP
      (fun a => decide (a.allocatee = .ex)) = 1 := by
  apply sortAllocs_wf
  intro a ha
  simp only [List.mem_map] at ha
  obtain ⟨c, _, rfl⟩ := ha
  simp

/-- The fractional snapshot is a sorted exhausted-free front plus one
exhausted entry. -/
theorem fracSnapshotAllocs_wf (s : FracState) :
    (fracSnapshotAllocs s).Pairwise allocBefore ∧
    (fracSnapshotAllocs s).countP
      (fun a => decide (a.allocatee = .ex)) = 1 := by
  apply sortAllocs_wf
  intro a ha
  simp only [List.mem_map] at ha
  obtain ⟨c, _, rfl⟩ := ha
  simp

/-- The fractional final fill-by-default record is also of that shape. -/
theorem fracFinalRound_wf (s : FracState) (cv : ℚ) (el : List ℕ) :
    (fracFinalRound s cv el).allocations.Pairwise allocBefore ∧
    (fracFinalRound s cv el).allocations.countP
      (fun a => decide (a.allocatee = .ex)) = 1 := by
  apply sortAllocs_wf
  intro a ha
  simp only [List.mem_map] at ha
  obtain ⟨c, _, rfl⟩ := ha
  simp

/-- Filling by default never touches the whole-ballot trace. -/
theorem wbFillElect_trace :
    ∀ (names : List String) (s : WBState),
      (wbFillElect names s).trace = s.trace
  | [], _ => rfl
  | name :: rest, s => by
    unfold wbFillElect
    split
    · rfl
    · rw [wbFillElect_trace rest]
      rcases h : candsGet s.cands name with _ | c <;> simp [h]

/-- Filling by default never touches the fractional trace. -/
theorem fracFillElect_trace :
    ∀ (names : List String) (s : FracState),
      (fracFillElect names s).trace = s.trace
  | [], _ => rfl
  | name :: rest, s => by
    unfold fracFillElect
    split
    · rfl
    · rw [fracFillElect_trace rest]
      rcases h : candsGet s.cands name with _ | c <;> simp [h]

/-- Every record in the trace after one whole-ballot loop iteration was
already there or is the snapshot record of this round. -/
theorem wbBody_trace {s s' : WBState} {b : Bool}
    (h : wbBody s = (s', b)) :
    ∀ rec ∈ s'.trace, rec ∈ s.trace ∨
      rec.allocations = wbSnapshotAllocs s := by
  unfold wbBody at h
  dsimp only at h
  split at h
  · cases h
    exact fun rec hrec => Or.inl hrec
  · split at h <;> cases h
    · intro rec hrec
      rw [wbFillElect_trace] at hrec
      rcases List.mem_append.mp hrec with hrec | hrec
      · exact Or.inl hrec
      · rcases List.mem_singleton.mp hrec with rfl
        exact Or.inr rfl
    · intro rec hrec
      rcases List.mem_append.mp hrec with hrec | hrec
      · exact Or.inl hrec
      · rcases List.mem_singleton.mp hrec with rfl
        exact Or.inr rfl

/-- Every record in the trace after one fractional loop iteration was
already there, is the snapshot record of this round, or is a final
fill-by-default record. -/
theorem fracBody_trace {s s' : FracState} {b : Bool}
    (h : fracBody s = (s', b)) :
    ∀ rec ∈ s'.trace, rec ∈ s.trace ∨
      rec.allocations = fracSnapshotAllocs s ∨
      (∃ (s2 : FracState) (cv : ℚ) (el : List ℕ),
        rec = fracFinalRound s2 cv el) := by
  unfold fracBody at h
  dsimp only at h
  split at h
  · cases h
    exact fun rec hrec => Or.inl hrec
  · split at h <;> cases h
    · intro rec hrec
      rw [fracFillElect_trace] at hrec
      rcases List.mem_append.mp hrec with hrec | hrec
      · rcases List.mem_append.mp hrec with hrec | hrec
        · exact Or.inl hrec
        · rcases List.mem_singleton.mp hrec with rfl
          exact Or.inr (Or.inl rfl)
      · rcases List.mem_singleton.mp hrec with rfl
        exact Or.inr (Or.inr ⟨_, _, _, rfl⟩)
    · intro rec hrec
      rcases List.mem_append.mp hrec with hrec | hrec
      · exact Or.inl hrec
      · rcases List.mem_singleton.mp hrec with rfl
        exact Or.inr (Or.inl rfl)

/-- The whole-ballot initial state has an empty trace. -/
theorem wbInit_trace (ballots : List Ballot) (seats : ℕ)
    (names : List String) : (wbInit ballots seats names).trace = [] := by
  unfold wbInit
  dsimp only
  apply foldl_inv (fun s : WBState => s.trace = [])
  · intro s b hs
    rcases hr : (wbGetCurrentChoice s.cands b).2 with _ | c <;>
      simp [hr, hs]
  · rfl

/-- The fractional initial state has an empty trace. -/
theorem fracInit_trace (ballots : List Ballot) (seats : ℕ)
    (names : List String) (tq : Option ℕ) :
    (fracInit ballots seats names tq).trace = [] := by
  unfold fracInit
  dsimp only
  apply foldl_inv (fun s : FracState => s.trace = [])
  · intro s id hs
    rcases hr : s.store.get? id with _ | b
    · simp [hr, hs]
    · simp only [hr]
      split <;> simp [hs]
  · rfl

/-!  ### Claim C10: allocation lists sorted, exhausted last  -/

/-- C10.  In every round record emitted by either engine (including the
final fill-by-default record of the fractional engine), the allocation
list is pairwise ordered with votes descending and any entry before the
exhausted entry, and contains exactly one exhausted entry — hence it is
sorted by votes in descending order with the Exhausted entry last. -/
theorem c10_allocations_sorted :
    (∀ (ballots : List Ballot) (seats : ℕ) (names : List String),
      ∀ rec ∈ (tabulateSTV ballots seats names).rounds,
        rec.allocations.Pairwise allocBefore ∧
        rec.allocations.countP
          (fun a => decide (a.allocatee = .ex)) = 1) ∧
    (∀ (ballots : List Ballot) (seats : ℕ) (names : List String)
        (tq : Option ℕ),
      ∀ rec ∈ (tabulateFractionalSTV ballots seats names tq).rounds,
        rec.allocations.Pairwise allocBefore ∧
        rec.allocations.countP
          (fun a => decide (a.allocatee = .ex)) = 1) := by
  constructor
  · intro ballots seats names
    have h := wbLoop_inv
      (fun s => ∀ rec ∈ s.trace,
        rec.allocations.Pairwise allocBefore ∧
        rec.allocations.countP
          (fun a => decide (a.allocatee = .ex)) = 1)
      (by
        intro s s' b hb hP
        intro rec hrec
        rcases wbBody_trace hb rec hrec with hrec' | hall
        · exact hP rec hrec'
        · rw [hall]
          exact wbSnapshotAllocs_wf s)
      (names.length * 2 + 1) (names.length * 2)
      (wbInit ballots seats names) (by omega)
      (by
        intro rec hrec
        rw [wbInit_trace] at hrec
        cases hrec)
    exact h
  · intro ballots seats names tq
    have h := fracLoop_inv
      (fun s => ∀ rec ∈ s.trace,
        rec.allocations.Pairwise allocBefore ∧
        rec.allocations.countP
          (fun a => decide (a.allocatee = .ex)) = 1)
      (by
        intro s s' b hb hP
        intro rec hrec
        rcases fracBody_trace hb rec hrec with hrec' | hall |
          ⟨s2, cv, el, hfin⟩
        · exact hP rec hrec'
        · rw [hall]
          exact fracSnapshotAllocs_wf s
        · rw [hfin]
          exact fracFinalRound_wf s2 cv el)
      (names.length * 3 + 1) (names.length * 3)
      (fracInit ballots seats names tq) (by omega)
      (by
        intro rec hrec
        rw [fracInit_trace] at hrec
        cases hrec)
    exact h

/-- Witness for C10 at a concrete record of the Scenario S2 run. -/
theorem c10_witness :
    (s2res.rounds.getD 0 emptyRound) ∈ s2res.rounds ∧
    (s2res.rounds.getD 0 emptyRound).allocations.Pairwise allocBefore ∧
    (s2res.rounds.getD 0 emptyRound).allocations.countP
      (fun a => decide (a.allocatee = .ex)) = 1 :=
  ⟨by with_unfolding_all decide,
    c10_allocations_sorted.1 s2ballots 2 ["A", "B", "C", "D"]
      (s2res.rounds.getD 0 emptyRound)
      (by with_unfolding_all decide)⟩

/-!  ### Claim C5: monotone exhaustion  -/

/-- The exhausted entry of a sorted snapshot carries exactly the
exhausted total it was built from. -/
theorem filterEx_sum (l : List Alloc) (xval : ℚ)
    (hfront : ∀ a ∈ l, a.allocatee ≠ .ex) :
    (((sortAllocs (l ++ [⟨.ex, xval⟩])).filter
        (fun e => e.allocatee = Allocatee.ex)).map
        (fun e => e.votes)).sum = xval := by
  rw [List.Perm.sum_eq (List.Perm.map _
    (List.Perm.filter _ (sortAllocs_perm _)))]
  rw [List.filter_append]
  have hnil : l.filter (fun e => decide (e.allocatee = Allocatee.ex))
      = [] := by
    rw [List.filter_eq_nil_iff]
    intro a ha
    simpa using hfront a ha
  rw [hnil]
  simp

theorem allocVotesOf_wbRound0_ex (s : WBState) :
    allocVotesOf (wbRound0 s) .ex = (s.exhausted.length : ℚ) := by
  show (((sortAllocs _).filter _).map _).sum = _
  apply filterEx_sum
  intro a ha
  simp only [List.mem_map] at ha
  obtain ⟨c, _, rfl⟩ := ha
  simp

theorem allocVotesOf_fracRound0_ex (s : FracState) :
    allocVotesOf (fracRound0 s) .ex = s.exhaustedVotes := by
  show (((sortAllocs _).filter _).map _).sum = _
  apply filterEx_sum
  intro a ha
  simp only [List.mem_map] at ha
  obtain ⟨c, _, rfl⟩ := ha
  simp

theorem allocVotesOf_fracFinalRound_ex (s : FracState) (cv : ℚ)
    (el : List ℕ) :
    allocVotesOf (fracFinalRound s cv el) .ex = s.exhaustedVotes := by
  show (((sortAllocs _).filter _).map _).sum = _
  apply filterEx_sum
  intro a ha
  simp only [List.mem_map] at ha
  obtain ⟨c, _, rfl⟩ := ha
  simp

/-- Ballot redistribution only ever adds to the exhausted pile. -/
theorem wbTransferBallots_exhausted (st : WBXfer) (l : List BState) :
    st.exhausted.length ≤ (wbTransferBallots st l).exhausted.length := by
  unfold wbTransferBallots
  apply foldl_inv (fun x : WBXfer =>
    st.exhausted.length ≤ x.exhausted.length)
  · intro x b hx
    dsimp only
    rcases hadv : (wbAdvance x.cands b).2 with _ | nm
    · dsimp only
      simp only [List.length_append, List.length_cons, List.length_nil]
      omega
    · exact hx
  · exact le_refl _

/-- Electing candidates only ever adds to the exhausted pile. -/
theorem wbProcessElected_exhausted (seats quota rn : ℕ) :
    ∀ (names : List String) (st : WBAct),
      st.exhausted.length ≤
        (wbProcessElected seats quota rn names st).exhausted.length
  | [], st => le_refl _
  | name :: rest, st => by
    unfold wbProcessElected
    split
    · exact le_refl _
    · refine le_trans ?_ (wbProcessElected_exhausted seats quota rn rest _)
      rcases hg : candsGet st.cands name with _ | elected
      · exact le_refl _
      · dsimp only
        split
        · exact wbTransferBallots_exhausted ⟨_, _, _, _⟩ _
        · exact le_refl _

/-- Elimination only ever adds to the exhausted pile. -/
theorem wbEliminate_exhausted (rn : ℕ) (st : WBAct) :
    st.exhausted.length ≤ (wbEliminate rn st).exhausted.length := by
  unfold wbEliminate
  dsimp only
  split
  · exact le_refl _
  · exact wbTransferBallots_exhausted ⟨_, _, _, _⟩ _

/-- The whole-ballot round action only ever adds to the exhausted
pile. -/
theorem wbAction_exhausted (s : WBState) :
    s.exhausted.length ≤ (wbAction s).exhausted.length := by
  unfold wbAction
  dsimp only
  split
  · exact wbProcessElected_exhausted _ _ _ _ ⟨_, _, _, _, _, _, _⟩
  · exact wbEliminate_exhausted _ ⟨_, _, _, _, _, _, _⟩

/-- Filling by default never touches the whole-ballot exhausted pile. -/
theorem wbFillElect_exhausted :
    ∀ (names : List String) (s : WBState),
      (wbFillElect names s).exhausted = s.exhausted
  | [], _ => rfl
  | name :: rest, s => by
    unfold wbFillElect
    split
    · rfl
    · rw [wbFillElect_exhausted rest]
      rcases h : candsGet s.cands name with _ | c <;> simp [h]

/-- Case analysis for one whole-ballot loop iteration. -/
theorem wbBody_cases (s : WBState) :
    wbBody s = (s, true) ∨
    (∃ names, wbBody s =
      (wbFillElect names (wbAfterRound s), true)) ∨
    wbBody s = (wbAfterRound s, false) := by
  unfold wbBody
  dsimp only
  split
  · exact Or.inl rfl
  · split
    · exact Or.inr (Or.inl ⟨_, rfl⟩)
    · exact Or.inr (Or.inr rfl)

/-- Case analysis for one fractional loop iteration. -/
theorem fracBody_cases (s : FracState) :
    fracBody s = (s, true) ∨
    (∃ names el, fracBody s =
      ({ fracFillElect names (fracAfterRound s) with
          trace := (fracFillElect names (fracAfterRound s)).trace ++
            [fracFinalRound (fracFillElect names (fracAfterRound s))
              (fracContinuingVotes s) el] }, true)) ∨
    fracBody s = (fracAfterRound s, false) := by
  unfold fracBody
  dsimp only
  split
  · exact Or.inl rfl
  · split
    · exact Or.inr (Or.inl ⟨_, _, rfl⟩)
    · exact Or.inr (Or.inr rfl)

/-- The monotone-exhaustion invariant of the whole-ballot loop: the
recorded exhausted allocations form a non-decreasing chain and are
bounded by the current exhausted count. -/
theorem wbBody_exhausted_inv {s s' : WBState} {b : Bool}
    (h : wbBody s = (s', b))
    (hP : (s.trace.map (fun r => allocVotesOf r .ex)).Chain' (· ≤ ·) ∧
      ∀ r ∈ s.trace.getLast?,
        allocVotesOf r .ex ≤ (s.exhausted.length : ℚ)) :
    (s'.trace.map (fun r => allocVotesOf r .ex)).Chain' (· ≤ ·) ∧
      ∀ r ∈ s'.trace.getLast?,
        allocVotesOf r .ex ≤ (s'.exhausted.length : ℚ) := by
  have key : ∀ (s1 : WBState), s1.trace = s.trace ++ [wbRound0 s] →
      s1.exhausted = (wbAction s).exhausted →
      (s1.trace.map (fun r => allocVotesOf r .ex)).Chain' (· ≤ ·) ∧
      ∀ r ∈ s1.trace.getLast?,
        allocVotesOf r .ex ≤ (s1.exhausted.length : ℚ) := by
    intro s1 ht hx
    constructor
    · rw [ht, List.map_append, List.chain'_append]
      refine ⟨hP.1, List.chain'_singleton _, ?_⟩
      intro x hx' y hy'
      simp only [List.head?_cons, Option.mem_def, Option.some.injEq,
        List.map_cons, List.map_nil] at hy'
      subst hy'
      rw [List.getLast?_map] at hx'
      simp only [Option.mem_def, Option.map_eq_some'] at hx'
      obtain ⟨r, hr, rfl⟩ := hx'
      rw [allocVotesOf_wbRound0_ex]
      exact hP.2 r hr
    · intro r hr
      rw [ht, List.getLast?_concat] at hr
      rw [Option.mem_some_iff] at hr
      subst hr
      rw [allocVotesOf_wbRound0_ex, hx]
      exact_mod_cast wbAction_exhausted s
  rcases wbBody_cases s with hc | ⟨names, hc⟩ | hc <;> rw [hc] at h <;>
    cases h
  · exact hP
  · refine key _ ?_ ?_
    · rw [wbFillElect_trace]
      rfl
    · rw [wbFillElect_exhausted]
      rfl
  · exact key _ rfl rfl

/-- Filling by default never touches the fractional exhausted total. -/
theorem fracFillElect_exhaustedVotes :
    ∀ (names : List String) (s : FracState),
      (fracFillElect names s).exhaustedVotes = s.exhaustedVotes
  | [], _ => rfl
  | name :: rest, s => by
    unfold fracFillElect
    split
    · rfl
    · rw [fracFillElect_exhaustedVotes rest]
      rcases h : candsGet s.cands name with _ | c <;> simp [h]

/-- Filling by default never touches the fractional ballot store. -/
theorem fracFillElect_store :
    ∀ (names : List String) (s : FracState),
      (fracFillElect names s).store = s.store
  | [], _ => rfl
  | name :: rest, s => by
    unfold fracFillElect
    split
    · rfl
    · rw [fracFillElect_store rest]
      rcases h : candsGet s.cands name with _ | c <;> simp [h]

/-- One surplus step keeps all ballot weights nonnegative and only adds
to the exhausted total, given a transfer fraction in [0, 1]. -/
theorem fracSurplusStep_inv (tf : ℚ) (htf0 : 0 ≤ tf) (htf1 : tf ≤ 1)
    (base : ℚ)
    (acc : FracAct × List (String × ℚ) × List (ℕ × String)) (id : ℕ)
    (hacc : (∀ bl ∈ acc.1.store, 0 ≤ bl.weight) ∧
      base ≤ acc.1.exhaustedVotes) :
    (∀ bl ∈ (fracSurplusStep tf acc id).1.store, 0 ≤ bl.weight) ∧
      base ≤ (fracSurplusStep tf acc id).1.exhaustedVotes := by
  unfold fracSurplusStep
  dsimp only
  split
  · exact hacc
  · next bl hb =>
    have hblw : 0 ≤ bl.weight := hacc.1 bl (List.get?_mem hb)
    have htw : 0 ≤ bl.weight * tf := mul_nonneg hblw htf0
    have hrem : 0 ≤ bl.weight - bl.weight * tf := by
      have : bl.weight * tf ≤ bl.weight * 1 :=
        mul_le_mul_of_nonneg_left htf1 hblw
      linarith
    split
    · refine ⟨?_, hacc.2⟩
      intro x hx
      rcases List.mem_or_eq_of_mem_set hx with hx | rfl
      · exact hacc.1 x hx
      · exact hrem
    · refine ⟨?_, ?_⟩
      · intro x hx
        rcases List.mem_or_eq_of_mem_set hx with hx | rfl
        · exact hacc.1 x hx
        · exact hrem
      · dsimp only
        linarith [hacc.2]

/-- The surplus fold keeps all ballot weights nonnegative and only adds
to the exhausted total. -/
theorem fracSurplusFold_inv (tf : ℚ) (htf0 : 0 ≤ tf) (htf1 : tf ≤ 1)
    (base : ℚ) (pile : List ℕ)
    (acc : FracAct × List (String × ℚ) × List (ℕ × String))
    (hacc : (∀ bl ∈ acc.1.store, 0 ≤ bl.weight) ∧
      base ≤ acc.1.exhaustedVotes) :
    (∀ bl ∈ (pile.foldl (fracSurplusStep tf) acc).1.store,
      0 ≤ bl.weight) ∧
    base ≤ (pile.foldl (fracSurplusStep tf) acc).1.exhaustedVotes :=
  foldl_inv _ _ (fun acc id h => fracSurplusStep_inv tf htf0 htf1 base
    acc id h) pile acc hacc

/-- One elimination step keeps all ballot weights nonnegative and only
adds to the exhausted total. -/
theorem fracElimStep_inv (base : ℚ) (acc : FracAct × List (String × ℚ))
    (id : ℕ)
    (hacc : (∀ bl ∈ acc.1.store, 0 ≤ bl.weight) ∧
      base ≤ acc.1.exhaustedVotes) :
    (∀ bl ∈ (fracElimStep acc id).1.store, 0 ≤ bl.weight) ∧
      base ≤ (fracElimStep acc id).1.exhaustedVotes := by
  unfold fracElimStep
  dsimp only
  split
  · exact hacc
  · next bl hb =>
    have hblw : 0 ≤ bl.weight := hacc.1 bl (List.get?_mem hb)
    split
    · refine ⟨?_, hacc.2⟩
      intro x hx
      rcases List.mem_or_eq_of_mem_set hx with hx | rfl
      · exact hacc.1 x hx
      · exact hblw
    · refine ⟨?_, ?_⟩
      · intro x hx
        rcases List.mem_or_eq_of_mem_set hx with hx | rfl
        · exact hacc.1 x hx
        · exact hblw
      · dsimp only
        linarith [hacc.2]

/-- Surplus distribution keeps all ballot weights nonnegative and only
adds to the exhausted total. -/
theorem fracElect_nonneg_exh (seats quota rn : ℕ) (name : String)
    (st : FracAct) (hw : ∀ bl ∈ st.store, 0 ≤ bl.weight) :
    (∀ bl ∈ (fracElect seats quota rn name st).store, 0 ≤ bl.weight) ∧
    st.exhaustedVotes ≤
      (fracElect seats quota rn name st).exhaustedVotes := by
  unfold fracElect
  dsimp only
  rcases hg : candsGet st.cands name with _ | elected
  · exact ⟨hw, le_refl _⟩
  · dsimp only
    split
    · next hcond =>
      have hq : (0 : ℚ) ≤ (quota : ℚ) := by positivity
      have hv : (0 : ℚ) < elected.votes := by
        have := hcond.1
        linarith
      have htf0 : (0 : ℚ) ≤
          (elected.votes - (quota : ℚ)) / elected.votes :=
        div_nonneg (le_of_lt hcond.1) (le_of_lt hv)
      have htf1 : (elected.votes - (quota : ℚ)) / elected.votes ≤ 1 := by
        rw [div_le_one hv]
        linarith
      refine fracSurplusFold_inv _ htf0 htf1 _ _ _ ⟨?_, ?_⟩
      · exact hw
      · exact le_refl _
    · exact ⟨hw, le_refl _⟩

/-- Elimination keeps all ballot weights nonnegative and only adds to
the exhausted total. -/
theorem fracEliminate_nonneg_exh (rn : ℕ) (st : FracAct)
    (hw : ∀ bl ∈ st.store, 0 ≤ bl.weight) :
    (∀ bl ∈ (fracEliminate rn st).store, 0 ≤ bl.weight) ∧
    st.exhaustedVotes ≤ (fracEliminate rn st).exhaustedVotes := by
  unfold fracEliminate
  dsimp only
  split
  · exact ⟨hw, le_refl _⟩
  · refine foldl_inv
      (fun acc : FracAct × List (String × ℚ) =>
        (∀ bl ∈ acc.1.store, 0 ≤ bl.weight) ∧
        st.exhaustedVotes ≤ acc.1.exhaustedVotes)
      fracElimStep
      (fun acc id h => fracElimStep_inv st.exhaustedVotes acc id h)
      _ _ ⟨?_, ?_⟩
    · exact hw
    · exact le_refl _

/-- The fractional round action keeps all ballot weights nonnegative and
only adds to the exhausted total. -/
theorem fracAction_nonneg_exh (s : FracState)
    (hw : ∀ bl ∈ s.store, 0 ≤ bl.weight) :
    (∀ bl ∈ (fracAction s).store, 0 ≤ bl.weight) ∧
    s.exhaustedVotes ≤ (fracAction s).exhaustedVotes := by
  unfold fracAction
  dsimp only
  split
  · exact fracElect_nonneg_exh _ _ _ _ ⟨_, _, _, _, _, _, _, _, _⟩ hw
  · exact fracEliminate_nonneg_exh _ ⟨_, _, _, _, _, _, _, _, _⟩ hw

/-- The monotone-exhaustion invariant of the fractional loop. -/
theorem fracBody_exhausted_inv {s s' : FracState} {b : Bool}
    (h : fracBody s = (s', b))
    (hP : (∀ bl ∈ s.store, 0 ≤ bl.weight) ∧
      (s.trace.map (fun r => allocVotesOf r .ex)).Chain' (· ≤ ·) ∧
      ∀ r ∈ s.trace.getLast?,
        allocVotesOf r .ex ≤ s.exhaustedVotes) :
    (∀ bl ∈ s'.store, 0 ≤ bl.weight) ∧
      (s'.trace.map (fun r => allocVotesOf r .ex)).Chain' (· ≤ ·) ∧
      ∀ r ∈ s'.trace.getLast?,
        allocVotesOf r .ex ≤ s'.exhaustedVotes := by
  have hact := fracAction_nonneg_exh s hP.1
  have key : (((s.trace ++ [fracRound0 s]).map
        (fun r => allocVotesOf r .ex)).Chain' (· ≤ ·)) ∧
      ∀ r ∈ (s.trace ++ [fracRound0 s]).getLast?,
        allocVotesOf r .ex ≤ (fracAction s).exhaustedVotes := by
    constructor
    · rw [List.map_append, List.chain'_append]
      refine ⟨hP.2.1, List.chain'_singleton _, ?_⟩
      intro x hx' y hy'
      simp only [List.head?_cons, Option.mem_def, Option.some.injEq,
        List.map_cons, List.map_nil] at hy'
      subst hy'
      rw [List.getLast?_map] at hx'
      simp only [Option.mem_def, Option.map_eq_some'] at hx'
      obtain ⟨r, hr, rfl⟩ := hx'
      rw [allocVotesOf_fracRound0_ex]
      exact hP.2.2 r hr
    · intro r hr
      rw [List.getLast?_concat] at hr
      rw [Option.mem_some_iff] at hr
      subst hr
      rw [allocVotesOf_fracRound0_ex]
      exact hact.2
  rcases fracBody_cases s with hc | ⟨names, el, hc⟩ | hc <;>
    rw [hc] at h <;> cases h
  · exact hP
  · have hst := fracFillElect_store names (fracAfterRound s)
    have hxv := fracFillElect_exhaustedVotes names (fracAfterRound s)
    have htr := fracFillElect_trace names (fracAfterRound s)
    have htr2 : (fracAfterRound s).trace = s.trace ++ [fracRound0 s] :=
      rfl
    refine ⟨?_, ?_, ?_⟩
    · intro bl hbl
      dsimp only at hbl
      rw [hst] at hbl
      exact hact.1 bl hbl
    · dsimp only
      rw [htr, htr2]
      rw [List.map_append, List.chain'_append]
      refine ⟨key.1, List.chain'_singleton _, ?_⟩
      intro x hx' y hy'
      simp only [List.head?_cons, Option.mem_def, Option.some.injEq,
        List.map_cons, List.map_nil] at hy'
      subst hy'
      rw [List.getLast?_map] at hx'
      simp only [Option.mem_def, Option.map_eq_some'] at hx'
      obtain ⟨r, hr, rfl⟩ := hx'
      rw [allocVotesOf_fracFinalRound_ex, hxv]
      exact key.2 r hr
    · intro r hr
      dsimp only at hr
      rw [List.getLast?_concat, Option.mem_some_iff] at hr
      subst hr
      dsimp only
      rw [allocVotesOf_fracFinalRound_ex]
  · exact ⟨hact.1, key.1, key.2⟩

/-- Under nonnegative input weights, the initial fractional store only
holds nonnegative weights. -/
theorem fracInit_store_nonneg (ballots : List Ballot) (seats : ℕ)
    (names : List String) (tq : Option ℕ)
    (hw : ∀ b ∈ ballots, 0 ≤ b.weight.getD 1) :
    ∀ bl ∈ (fracInit ballots seats names tq).store, 0 ≤ bl.weight := by
  unfold fracInit
  dsimp only
  refine foldl_inv (fun s : FracState => ∀ bl ∈ s.store, 0 ≤ bl.weight)
    _ ?_ _ _ ?_
  · intro s id hs
    dsimp only
    split
    · exact hs
    · next bl hbl =>
      split
      · intro x hx
        dsimp only at hx
        rcases List.mem_or_eq_of_mem_set hx with hx | rfl
        · exact hs x hx
        · exact hs bl (List.get?_mem hbl)
      · intro x hx
        dsimp only at hx
        rcases List.mem_or_eq_of_mem_set hx with hx | rfl
        · exact hs x hx
        · exact hs bl (List.get?_mem hbl)
  · intro bl hbl
    dsimp only at hbl
    simp only [List.mem_map] at hbl
    obtain ⟨b0, hb0, rfl⟩ := hbl
    exact hw b0 hb0

/-- C5.  In both round engines, the Exhausted allocation of each later
round is at least the Exhausted allocation of the round before it (for
the fractional engine, under nonnegative input ballot weights — every
actual input uses weight 1). -/
theorem c5_monotone_exhaustion :
    (∀ (ballots : List Ballot) (seats : ℕ) (names : List String)
        (i : ℕ),
      i + 1 < (tabulateSTV ballots seats names).rounds.length →
      allocVotesOf
          ((tabulateSTV ballots seats names).rounds.getD i emptyRound)
          .ex ≤
        allocVotesOf
          ((tabulateSTV ballots seats names).rounds.getD (i + 1)
            emptyRound) .ex) ∧
    (∀ (ballots : List Ballot) (seats : ℕ) (names : List String)
        (tq : Option ℕ),
      (∀ b ∈ ballots, 0 ≤ b.weight.getD 1) →
      ∀ i : ℕ,
      i + 1 < (tabulateFractionalSTV ballots seats names tq).rounds.length →
      allocVotesOf
          ((tabulateFractionalSTV ballots seats names tq).rounds.getD i
            emptyRound) .ex ≤
        allocVotesOf
          ((tabulateFractionalSTV ballots seats names tq).rounds.getD
            (i + 1) emptyRound) .ex) := by
  constructor
  · intro ballots seats names i hi
    have hP := wbLoop_inv
      (fun s => (s.trace.map (fun r => allocVotesOf r .ex)).Chain'
          (· ≤ ·) ∧
        ∀ r ∈ s.trace.getLast?,
          allocVotesOf r .ex ≤ (s.exhausted.length : ℚ))
      (fun s s' b hb hP => wbBody_exhausted_inv hb hP)
      (names.length * 2 + 1) (names.length * 2)
      (wbInit ballots seats names) (by omega)
      (by
        dsimp only
        rw [wbInit_trace]
        exact ⟨List.chain'_nil, by intro r hr; cases hr⟩)
    have hr : (tabulateSTV ballots seats names).rounds =
        (wbLoop (names.length * 2) (wbInit ballots seats names)).trace :=
      rfl
    rw [hr] at hi ⊢
    have h1 : i < (wbLoop (names.length * 2)
        (wbInit ballots seats names)).trace.length := by omega
    rw [List.getD_eq_getElem _ _ h1, List.getD_eq_getElem _ _ hi]
    have hch := hP.1
    rw [List.chain'_iff_get] at hch
    have := hch i (by simp only [List.length_map]; omega)
    simpa only [List.get_eq_getElem, List.getElem_map] using this
  · intro ballots seats names tq hw i hi
    have hP := fracLoop_inv
      (fun s => (∀ bl ∈ s.store, 0 ≤ bl.weight) ∧
        (s.trace.map (fun r => allocVotesOf r .ex)).Chain' (· ≤ ·) ∧
        ∀ r ∈ s.trace.getLast?,
          allocVotesOf r .ex ≤ s.exhaustedVotes)
      (fun s s' b hb hP => fracBody_exhausted_inv hb hP)
      (names.length * 3 + 1) (names.length * 3)
      (fracInit ballots seats names tq) (by omega)
      (by
        dsimp only
        refine ⟨fracInit_store_nonneg ballots seats names tq hw, ?_, ?_⟩
        · rw [fracInit_trace]
          exact List.chain'_nil
        · rw [fracInit_trace]
          intro r hr
          cases hr)
    have hr : (tabulateFractionalSTV ballots seats names tq).rounds =
        (fracLoop (names.length * 3)
          (fracInit ballots seats names tq)).trace := rfl
    rw [hr] at hi ⊢
    have h1 : i < (fracLoop (names.length * 3)
        (fracInit ballots seats names tq)).trace.length := by omega
    rw [List.getD_eq_getElem _ _ h1, List.getD_eq_getElem _ _ hi]
    have hch := hP.2.1
    rw [List.chain'_iff_get] at hch
    have := hch i (by simp only [List.length_map]; omega)
    simpa only [List.get_eq_getElem, List.getElem_map] using this

/-- Witness for C5 at the Scenario S2 (whole-ballot) and Scenario S4
(fractional) runs. -/
theorem c5_witness :
    (0 + 1 < s2res.rounds.length ∧
      allocVotesOf (s2res.rounds.getD 0 emptyRound) .ex ≤
        allocVotesOf (s2res.rounds.getD (0 + 1) emptyRound) .ex) ∧
    ((∀ b ∈ s4ballots, 0 ≤ b.weight.getD 1) ∧
      0 + 1 < s4res.rounds.length ∧
      allocVotesOf (s4res.rounds.getD 0 emptyRound) .ex ≤
        allocVotesOf (s4res.rounds.getD (0 + 1) emptyRound) .ex) :=
  ⟨⟨by with_unfolding_all decide,
    c5_monotone_exhaustion.1 s2ballots 2 ["A", "B", "C", "D"] 0
      (by with_unfolding_all decide)⟩,
   ⟨by with_unfolding_all decide,
    by with_unfolding_all decide,
    c5_monotone_exhaustion.2 s4ballots 2 ["A", "B", "C"] none
      (by with_unfolding_all decide) 0 (by with_unfolding_all decide)⟩⟩

/-!  ### Claim C8: the round cap never truncates a tabulation

The loop bodies never reference the cap, every continuing iteration
turns at least one active candidate elected or eliminated, and statuses
never return to active; so the loop always exits before the round
counter can reach the cap, and raising the cap cannot change any
result. -/


theorem statusBack_refl (cs : List Cand) :
    List.Forall₂ statusBack cs cs := by
  induction cs with
  | nil => exact List.Forall₂.nil
  | cons c cs ih => exact List.Forall₂.cons (fun h => h) ih

theorem statusBack_trans {a b c : List Cand}
    (h1 : List.Forall₂ statusBack a b) (h2 : List.Forall₂ statusBack b c) :
    List.Forall₂ statusBack a c := by
  induction h1 generalizing c with
  | nil => cases h2; exact List.Forall₂.nil
  | cons hab h1 ih =>
    cases h2 with
    | cons hbc h2 => exact List.Forall₂.cons (fun h => hab (hbc h)) (ih h2)

/-- Backward simulation bounds the number of active candidates. -/
theorem activeLen_le_of_statusBack {cs cs' : List Cand}
    (h : List.Forall₂ statusBack cs cs') :
    (cs'.filter (fun c => c.status = .active)).length ≤
    (cs.filter (fun c => c.status = .active)).length := by
  induction h with
  | nil => exact le_refl _
  | cons hcc h ih =>
    rename_i c c' cs cs'
    simp only [List.filter_cons]
    by_cases hc' : c'.status = .active
    · have hc : c.status = .active := hcc hc'
      simp only [hc, hc', decide_True, if_true]
      exact Nat.succ_le_succ ih
    · by_cases hc : c.status = .active
      · simp only [hc, hc', decide_True, decide_False, if_true, if_false]
        simp only [List.length_cons]
        exact Nat.le_succ_of_le ih
      · simp only [hc, hc', decide_False, if_false]
        exact ih

/-- `candsUpd` with a function that never revives a candidate is a
backward simulation. -/
theorem candsUpd_statusBack (cs : List Cand) (n : String)
    (f : Cand → Cand)
    (hf : ∀ c, (f c).status = .active → c.status = .active) :
    List.Forall₂ statusBack cs (candsUpd cs n f) := by
  induction cs with
  | nil => exact List.Forall₂.nil
  | cons c cs ih =>
    refine List.Forall₂.cons ?_ ih
    show statusBack c (if c.name = n then f c else c)
    by_cases hc : c.name = n
    · rw [if_pos hc]
      exact hf c
    · rw [if_neg hc]
      exact fun h => h

/-- `candsUpd` keeps the name list unchanged whenever the update
preserves names. -/
theorem candsUpd_map_name (cs : List Cand) (n : String) (f : Cand → Cand)
    (hf : ∀ c, (f c).name = c.name) :
    (candsUpd cs n f).map (fun c => c.name) =
      cs.map (fun c => c.name) := by
  induction cs with
  | nil => rfl
  | cons c cs ih =>
    simp only [candsUpd, List.map_cons] at *
    by_cases hc : c.name = n <;> simp [hc, hf c, ih]

/-- `candsUpd` is the identity when no entry carries the key. -/
theorem candsUpd_eq_of_not_mem (cs : List Cand) (n : String)
    (f : Cand → Cand) (h : ∀ c ∈ cs, ¬ c.name = n) :
    candsUpd cs n f = cs := by
  induction cs with
  | nil => rfl
  | cons c cs ih =>
    simp only [candsUpd, List.map_cons]
    rw [if_neg (h c (by simp))]
    have := ih (fun c hc => h c (List.mem_cons_of_mem _ hc))
    simpa [candsUpd] using this

/-- Marking an active candidate non-active strictly lowers the active
count (under distinct names). -/
theorem candsUpd_active_lt (cs : List Cand) (n : String)
    (f : Cand → Cand)
    (hnodup : (cs.map (fun c => c.name)).Nodup)
    (c0 : Cand) (hc0 : c0 ∈ cs) (hn : c0.name = n)
    (hact : c0.status = .active)
    (hf : ∀ c, ¬ (f c).status = .active) :
    ((candsUpd cs n f).filter (fun c => c.status = .active)).length <
    (cs.filter (fun c => c.status = .active)).length := by
  induction cs with
  | nil => cases hc0
  | cons c cs ih =>
    simp only [List.map_cons, List.nodup_cons] at hnodup
    rcases List.mem_cons.mp hc0 with rfl | hc0'
    · have hrest : candsUpd cs n f = cs := by
        apply candsUpd_eq_of_not_mem
        intro c hc hcn
        exact hnodup.1 (List.mem_map.mpr ⟨c, hc, hcn.trans hn.symm⟩)
      simp only [candsUpd, List.map_cons, if_pos hn]
      simp only [candsUpd] at hrest
      rw [hrest]
      simp [List.filter_cons, hact, hf c0]
    · have hcname : ¬ c.name = n := by
        intro hcn
        exact hnodup.1 (List.mem_map.mpr ⟨c0, hc0', hn.trans hcn.symm⟩)
      have hlt := ih hnodup.2 hc0'
      simp only [candsUpd] at hlt
      simp only [candsUpd, List.map_cons, if_neg hcname,
        List.filter_cons]
      by_cases hc : c.status = .active
      · simp only [hc, decide_True, if_true, List.length_cons]
        exact Nat.succ_lt_succ hlt
      · simp only [hc, decide_False, if_false]
        exact hlt

/-- Lookup by the name of a member, under distinct names. -/
theorem candsGet_of_nodup (cs : List Cand)
    (hnodup : (cs.map (fun c => c.name)).Nodup)
    (c : Cand) (hc : c ∈ cs) : candsGet cs c.name = some c := by
  induction cs with
  | nil => cases hc
  | cons d cs ih =>
    simp only [List.map_cons, List.nodup_cons] at hnodup
    rcases List.mem_cons.mp hc with rfl | hc'
    · simp [candsGet, List.find?]
    · have hd : ¬ d.name = c.name := by
        intro hdn
        exact hnodup.1 (List.mem_map.mpr ⟨c, hc', hdn.symm⟩)
      simp only [candsGet, List.find?]
      rw [decide_eq_false hd]
      exact ih hnodup.2 hc'

/-- The running minimum of a nonempty vote list is attained. -/
theorem votesMin_mem : ∀ (v : ℚ) (vs : List ℚ),
    votesMin (v :: vs) ∈ v :: vs
  | v, [] => by simp [votesMin]
  | v, x :: xs => by
    have h := votesMin_mem (min v x) xs
    have heq : votesMin (v :: x :: xs) = votesMin (min v x :: xs) := rfl
    rw [heq]
    rcases List.mem_cons.mp h with hm | hm
    · rcases min_choice v x with hc | hc <;> rw [hm, hc] <;> simp
    · simp [List.mem_cons_of_mem, hm]

/-- Ballot redistribution never revives a candidate. -/
theorem wbTransferBallots_statusBack (st : WBXfer) (l : List BState) :
    List.Forall₂ statusBack st.cands (wbTransferBallots st l).cands := by
  unfold wbTransferBallots
  apply foldl_inv
    (fun x : WBXfer => List.Forall₂ statusBack st.cands x.cands)
  · intro x b hx
    dsimp only
    rcases hadv : (wbAdvance x.cands b).2 with _ | nm
    · exact hx
    · exact statusBack_trans hx (candsUpd_statusBack _ _ _
        (fun c h => h))
  · exact statusBack_refl _

/-- Ballot redistribution keeps the candidate name list unchanged. -/
theorem wbTransferBallots_map_name (st : WBXfer) (l : List BState) :
    (wbTransferBallots st l).cands.map (fun c => c.name) =
      st.cands.map (fun c => c.name) := by
  unfold wbTransferBallots
  apply foldl_inv (fun x : WBXfer =>
    x.cands.map (fun c => c.name) = st.cands.map (fun c => c.name))
  · intro x b hx
    dsimp only
    rcases hadv : (wbAdvance x.cands b).2 with _ | nm
    · exact hx
    · rw [← hx]
      exact candsUpd_map_name _ _ _ (fun c => rfl)
  · rfl

/-- Electing candidates never revives a candidate. -/
theorem wbProcessElected_statusBack (seats quota rn : ℕ) :
    ∀ (names : List String) (st : WBAct),
      List.Forall₂ statusBack st.cands
        (wbProcessElected seats quota rn names st).cands
  | [], st => statusBack_refl _
  | name :: rest, st => by
    unfold wbProcessElected
    split
    · exact statusBack_refl _
    · refine statusBack_trans ?_
        (wbProcessElected_statusBack seats quota rn rest _)
      rcases hg : candsGet st.cands name with _ | elected
      · exact statusBack_refl _
      · dsimp only
        refine statusBack_trans ?_
          (candsUpd_statusBack _ _ _ (fun c h => h))
        split
        · refine statusBack_trans ?_
            (wbTransferBallots_statusBack ⟨_, _, _, _⟩ _)
          exact candsUpd_statusBack _ _ _ (fun c h => by simp at h)
        · exact candsUpd_statusBack _ _ _ (fun c h => by simp at h)

/-- Electing candidates keeps the candidate name list unchanged. -/
theorem wbProcessElected_map_name (seats quota rn : ℕ) :
    ∀ (names : List String) (st : WBAct),
      (wbProcessElected seats quota rn names st).cands.map
        (fun c => c.name) = st.cands.map (fun c => c.name)
  | [], st => rfl
  | name :: rest, st => by
    unfold wbProcessElected
    split
    · rfl
    · rw [wbProcessElected_map_name seats quota rn rest]
      rcases hg : candsGet st.cands name with _ | elected
      · rfl
      · dsimp only
        refine Eq.trans (candsUpd_map_name _ _ _ ?_) ?_
        · intro c
          rfl
        · split
          · refine Eq.trans (wbTransferBallots_map_name ⟨_, _, _, _⟩ _)
              ?_
            refine Eq.trans (candsUpd_map_name _ _ _ ?_) ?_
            · intro c
              rfl
            · rfl
          · refine Eq.trans (candsUpd_map_name _ _ _ ?_) ?_
            · intro c
              rfl
            · rfl

/-- Elimination never revives a candidate. -/
theorem wbEliminate_statusBack (rn : ℕ) (st : WBAct) :
    List.Forall₂ statusBack st.cands (wbEliminate rn st).cands := by
  unfold wbEliminate
  dsimp only
  split
  · exact statusBack_refl _
  · refine statusBack_trans ?_
      (candsUpd_statusBack _ _ _ (fun c h => h))
    refine statusBack_trans ?_
      (wbTransferBallots_statusBack ⟨_, _, _, _⟩ _)
    exact candsUpd_statusBack _ _ _ (fun c h => by simp at h)

/-- Elimination keeps the candidate name list unchanged. -/
theorem wbEliminate_map_name (rn : ℕ) (st : WBAct) :
    (wbEliminate rn st).cands.map (fun c => c.name) =
      st.cands.map (fun c => c.name) := by
  unfold wbEliminate
  dsimp only
  split
  · rfl
  · refine Eq.trans (candsUpd_map_name _ _ _ ?_) ?_
    · intro c
      rfl
    · refine Eq.trans (wbTransferBallots_map_name ⟨_, _, _, _⟩ _) ?_
      refine Eq.trans (candsUpd_map_name _ _ _ ?_) ?_
      · intro c
        rfl
      · rfl

/-- The whole-ballot round action never revives a candidate. -/
theorem wbAction_statusBack (s : WBState) :
    List.Forall₂ statusBack s.cands (wbAction s).cands := by
  unfold wbAction
  dsimp only
  split
  · exact wbProcessElected_statusBack _ _ _ _ ⟨_, _, _, _, _, _, _⟩
  · exact wbEliminate_statusBack _ ⟨_, _, _, _, _, _, _⟩

/-- The whole-ballot round action keeps the candidate name list
unchanged. -/
theorem wbAction_map_name (s : WBState) :
    (wbAction s).cands.map (fun c => c.name) =
      s.cands.map (fun c => c.name) := by
  unfold wbAction
  dsimp only
  split
  · exact wbProcessElected_map_name _ _ _ _ ⟨_, _, _, _, _, _, _⟩
  · exact wbEliminate_map_name _ ⟨_, _, _, _, _, _, _⟩

/-- Processing a nonempty over-quota list with a seat still open
strictly lowers the active count. -/
theorem wbProcessElected_active_lt (seats quota rn : ℕ) (name : String)
    (rest : List String) (st : WBAct)
    (hwin : st.winners.length < seats)
    (hnodup : (st.cands.map (fun c => c.name)).Nodup)
    (c0 : Cand) (hc0 : c0 ∈ st.cands) (hn : c0.name = name)
    (hact : c0.status = .active) :
    ((wbProcessElected seats quota rn (name :: rest) st).cands.filter
      (fun c => c.status = .active)).length <
    (st.cands.filter (fun c => c.status = .active)).length := by
  unfold wbProcessElected
  rw [if_neg (by omega)]
  have hget : candsGet st.cands name = some c0 := by
    rw [← hn]
    exact candsGet_of_nodup st.cands hnodup c0 hc0
  rw [hget]
  dsimp only
  refine lt_of_le_of_lt (activeLen_le_of_statusBack
    (wbProcessElected_statusBack seats quota rn rest _)) ?_
  refine lt_of_le_of_lt (activeLen_le_of_statusBack
    (candsUpd_statusBack _ _ _ (fun c h => h))) ?_
  split
  · refine lt_of_le_of_lt (activeLen_le_of_statusBack
      (wbTransferBallots_statusBack ⟨_, _, _, _⟩ _)) ?_
    exact candsUpd_active_lt _ _ _ hnodup c0 hc0 hn hact
      (fun c => by simp)
  · exact candsUpd_active_lt _ _ _ hnodup c0 hc0 hn hact
      (fun c => by simp)

/-- Elimination with at least one active candidate strictly lowers the
active count. -/
theorem wbEliminate_active_lt (rn : ℕ) (st : WBAct)
    (hnz : (st.cands.filter (fun c => c.status = .active)).length ≠ 0)
    (hnodup : (st.cands.map (fun c => c.name)).Nodup) :
    ((wbEliminate rn st).cands.filter
      (fun c => c.status = .active)).length <
    (st.cands.filter (fun c => c.status = .active)).length := by
  have hne : st.cands.filter (fun c => c.status = .active) ≠ [] := by
    intro h
    rw [h] at hnz
    exact hnz rfl
  unfold wbEliminate
  dsimp only
  split
  · next hnone =>
    exfalso
    rcases hf : st.cands.filter (fun c => c.status = .active) with
      _ | ⟨a, as⟩
    · exact hne hf
    · have hmm := votesMin_mem a.votes (as.map (fun c => c.votes))
      have hmm2 : votesMin ((a :: as).map (fun c => c.votes)) ∈
          (a :: as).map (fun c => c.votes) := hmm
      obtain ⟨c, hcmem, hcv⟩ := List.mem_map.mp hmm2
      have hcl : c ∈ (a :: as).filter (fun c => decide (c.votes =
          votesMin ((a :: as).map (fun d => d.votes)))) :=
        List.mem_filter.mpr ⟨hcmem, by simp [hcv]⟩
      rw [hf] at hnone
      have hperm := List.mergeSort_perm
        ((a :: as).filter (fun c => decide (c.votes =
          votesMin ((a :: as).map (fun d => d.votes))))) nameLe
      rw [List.head?_eq_none_iff] at hnone
      rw [hnone] at hperm
      exact absurd (hperm.symm.mem_iff.mp hcl) (List.not_mem_nil c)
  · next eliminated helim =>
    have hmem2 : eliminated ∈ (st.cands.filter
        (fun c => c.status = .active)).filter (fun c => decide (c.votes =
          votesMin ((st.cands.filter
            (fun c => c.status = .active)).map (fun d => d.votes)))) := by
      have hms := List.mem_of_mem_head? (Option.mem_def.mpr helim)
      exact (List.mergeSort_perm _ nameLe).subset hms
    have hmem3 := (List.mem_filter.mp hmem2).1
    have hmem4 := List.mem_filter.mp hmem3
    have hstat : eliminated.status = .active := by
      have := hmem4.2
      simpa using this
    refine lt_of_le_of_lt (activeLen_le_of_statusBack
      (candsUpd_statusBack _ _ _ (fun c h => h))) ?_
    refine lt_of_le_of_lt (activeLen_le_of_statusBack
      (wbTransferBallots_statusBack ⟨_, _, _, _⟩ _)) ?_
    exact candsUpd_active_lt _ _ _ hnodup eliminated hmem4.1 rfl hstat
      (fun c => by simp)

/-- A whole-ballot round action with actives left and a seat still open
strictly lowers the active count. -/
theorem wbAction_active_lt (s : WBState)
    (hnz : (s.cands.filter (fun c => c.status = .active)).length ≠ 0)
    (hwin : s.winners.length < s.seats)
    (hnodup : (s.cands.map (fun c => c.name)).Nodup) :
    ((wbAction s).cands.filter (fun c => c.status = .active)).length <
    (s.cands.filter (fun c => c.status = .active)).length := by
  unfold wbAction
  dsimp only
  split
  · next hlen =>
    rcases hM : ((s.cands.filter (fun c => c.status = .active)).filter
        (fun c => (s.quota : ℚ) ≤ c.votes)).mergeSort voteDescLe with
      _ | ⟨o, rest⟩
    · rw [hM] at hlen
      simp at hlen
    · rw [hM]
      have homem : o ∈ ((s.cands.filter (fun c => c.status =
          .active)).filter (fun c => (s.quota : ℚ) ≤ c.votes)) := by
        have : o ∈ ((s.cands.filter (fun c => c.status =
            .active)).filter (fun c => (s.quota : ℚ) ≤
              c.votes)).mergeSort voteDescLe := by
          rw [hM]
          exact List.mem_cons_self o rest
        exact (List.mergeSort_perm _ voteDescLe).subset this
      have homem2 := List.mem_filter.mp (List.mem_filter.mp homem).1
      have hostat : o.status = .active := by
        have := homem2.2
        simpa using this
      exact wbProcessElected_active_lt s.seats s.quota s.roundNumber
        o.name (rest.map (fun c => c.name)) ⟨_, _, _, _, _, _, _⟩ hwin
        hnodup o homem2.1 rfl hostat
  · exact wbEliminate_active_lt _ _ hnz hnodup

/-- With no active candidates left the loop is the identity, so the cap
is irrelevant. -/
theorem wbLoop_AC0 (cap cap' : ℕ) (s : WBState)
    (hAC : (s.cands.filter (fun c => c.status = .active)).length = 0) :
    wbLoop cap s = wbLoop cap' s := by
  have hb : wbBody s = (s, true) := by
    unfold wbBody
    rw [if_pos hAC]
  have key : ∀ c : ℕ, wbLoop c s = s := by
    intro c
    rw [wbLoop]
    split
    · rcases hb2 : wbBody s with ⟨t, b⟩
      have hb3 : (s, true) = (t, b) := hb.symm.trans hb2
      injection hb3 with h1 h2
      subst h1
      subst h2
      rfl
    · rfl
  rw [key cap, key cap']

/-- The whole-ballot loop's result does not depend on the cap as long as
both caps leave room for one round per remaining active candidate. -/
theorem wbLoop_cap_eq :
    ∀ (n : ℕ) (s : WBState) (cap cap' : ℕ),
      (s.cands.map (fun c => c.name)).Nodup →
      (s.cands.filter (fun c => c.status = .active)).length ≤ n →
      s.roundNumber +
        (s.cands.filter (fun c => c.status = .active)).length ≤ cap + 1 →
      s.roundNumber +
        (s.cands.filter (fun c => c.status = .active)).length ≤
          cap' + 1 →
      wbLoop cap s = wbLoop cap' s := by
  intro n
  induction n with
  | zero =>
    intro s cap cap' hnodup hn h1 h2
    exact wbLoop_AC0 cap cap' s (Nat.le_zero.mp hn)
  | succ n ih =>
    intro s cap cap' hnodup hn h1 h2
    by_cases hAC0 :
        (s.cands.filter (fun c => c.status = .active)).length = 0
    · exact wbLoop_AC0 cap cap' s hAC0
    · have hg1 : s.roundNumber ≤ cap := by omega
      have hg2 : s.roundNumber ≤ cap' := by omega
      by_cases hw : s.winners.length < s.seats
      · conv_lhs => rw [wbLoop]
        conv_rhs => rw [wbLoop]
        rw [dif_pos ⟨hw, hg1⟩, dif_pos ⟨hw, hg2⟩]
        rcases hb : wbBody s with ⟨s', b⟩
        cases b with
        | true => rfl
        | false =>
          have hrn := wbBody_rn hb
          have hs' : s' = wbAfterRound s := by
            rcases wbBody_cases s with h | ⟨names, h⟩ | h
            · rw [h] at hb
              exact absurd (congrArg Prod.snd hb) (by simp)
            · rw [h] at hb
              exact absurd (congrArg Prod.snd hb) (by simp)
            · rw [h] at hb
              exact (congrArg Prod.fst hb).symm
          subst hs'
          have hmap : ((wbAfterRound s).cands.map (fun c => c.name)) =
              s.cands.map (fun c => c.name) := wbAction_map_name s
          have hdec : (((wbAfterRound s).cands.filter
              (fun c => c.status = .active)).length <
              (s.cands.filter (fun c => c.status = .active)).length) :=
            wbAction_active_lt s hAC0 hw hnodup
          refine ih (wbAfterRound s) cap cap' ?_ ?_ ?_ ?_
          · rw [hmap]
            exact hnodup
          · omega
          · rw [hrn]
            omega
          · rw [hrn]
            omega
      · conv_lhs => rw [wbLoop]
        conv_rhs => rw [wbLoop]
        rw [dif_neg (fun hcon => hw hcon.1),
          dif_neg (fun hcon => hw hcon.1)]

/-- A surplus-distribution ballot step only adds votes to candidates, so
activity only goes backward. -/
theorem fracSurplusStep_statusBack (tf : ℚ) (base : List Cand)
    (acc : FracAct × List (String × ℚ) × List (ℕ × String)) (id : ℕ)
    (hacc : List.Forall₂ statusBack base acc.1.cands) :
    List.Forall₂ statusBack base (fracSurplusStep tf acc id).1.cands := by
  unfold fracSurplusStep
  dsimp only
  split
  · exact hacc
  · split
    · refine statusBack_trans ?_
        (candsUpd_statusBack _ _ _ (fun c h => h))
      exact hacc
    · exact hacc

/-- A surplus-distribution ballot step keeps the candidate name list. -/
theorem fracSurplusStep_map_name (tf : ℚ)
    (acc : FracAct × List (String × ℚ) × List (ℕ × String)) (id : ℕ) :
    (fracSurplusStep tf acc id).1.cands.map (fun c => c.name) =
      acc.1.cands.map (fun c => c.name) := by
  unfold fracSurplusStep
  dsimp only
  split
  · rfl
  · split
    · refine candsUpd_map_name _ _ _ ?_
      intro c
      rfl
    · rfl

/-- Fold form of `fracSurplusStep_statusBack`. -/
theorem fracSurplusFold_statusBack (tf : ℚ) (base : List Cand)
    (pile : List ℕ)
    (acc : FracAct × List (String × ℚ) × List (ℕ × String))
    (hacc : List.Forall₂ statusBack base acc.1.cands) :
    List.Forall₂ statusBack base
      ((pile.foldl (fracSurplusStep tf) acc).1.cands) :=
  foldl_inv _ _ (fun a i h => fracSurplusStep_statusBack tf base a i h)
    pile acc hacc

/-- Fold form of `fracSurplusStep_map_name`. -/
theorem fracSurplusFold_map_name (tf : ℚ) (pile : List ℕ)
    (acc : FracAct × List (String × ℚ) × List (ℕ × String)) :
    (pile.foldl (fracSurplusStep tf) acc).1.cands.map
      (fun c => c.name) = acc.1.cands.map (fun c => c.name) := by
  refine foldl_inv (fun a => a.1.cands.map (fun c => c.name) =
      acc.1.cands.map (fun c => c.name)) (fracSurplusStep tf) ?_ pile acc
    rfl
  intro a i h
  rw [fracSurplusStep_map_name]
  exact h

/-- An elimination ballot step only adds votes, so activity only goes
backward. -/
theorem fracElimStep_statusBack (base : List Cand)
    (acc : FracAct × List (String × ℚ)) (id : ℕ)
    (hacc : List.Forall₂ statusBack base acc.1.cands) :
    List.Forall₂ statusBack base (fracElimStep acc id).1.cands := by
  unfold fracElimStep
  dsimp only
  split
  · exact hacc
  · split
    · refine statusBack_trans ?_
        (candsUpd_statusBack _ _ _ (fun c h => h))
      exact hacc
    · exact hacc

/-- An elimination ballot step keeps the candidate name list. -/
theorem fracElimStep_map_name (acc : FracAct × List (String × ℚ))
    (id : ℕ) :
    (fracElimStep acc id).1.cands.map (fun c => c.name) =
      acc.1.cands.map (fun c => c.name) := by
  unfold fracElimStep
  dsimp only
  split
  · rfl
  · split
    · refine candsUpd_map_name _ _ _ ?_
      intro c
      rfl
    · rfl

/-- Fold form of `fracElimStep_statusBack`. -/
theorem fracElimFold_statusBack (base : List Cand) (pile : List ℕ)
    (acc : FracAct × List (String × ℚ))
    (hacc : List.Forall₂ statusBack base acc.1.cands) :
    List.Forall₂ statusBack base
      ((pile.foldl fracElimStep acc).1.cands) :=
  foldl_inv _ _ (fun a i h => fracElimStep_statusBack base a i h) pile
    acc hacc

/-- Fold form of `fracElimStep_map_name`. -/
theorem fracElimFold_map_name (pile : List ℕ)
    (acc : FracAct × List (String × ℚ)) :
    (pile.foldl fracElimStep acc).1.cands.map (fun c => c.name) =
      acc.1.cands.map (fun c => c.name) := by
  refine foldl_inv (fun a => a.1.cands.map (fun c => c.name) =
      acc.1.cands.map (fun c => c.name)) fracElimStep ?_ pile acc rfl
  intro a i h
  rw [fracElimStep_map_name]
  exact h

/-- Electing a present candidate in the fractional engine keeps the
candidate name list. -/
theorem fracElect_map_name (seats quota rn : ℕ) (name : String)
    (st : FracAct) :
    (fracElect seats quota rn name st).cands.map (fun c => c.name) =
      st.cands.map (fun c => c.name) := by
  unfold fracElect
  dsimp only
  split
  · rfl
  · refine Eq.trans (candsUpd_map_name _ _ _ ?_) ?_
    · intro c
      rfl
    · split
      · dsimp only
        refine Eq.trans (fracSurplusFold_map_name _ _ _) ?_
        refine candsUpd_map_name _ _ _ ?_
        intro c
        rfl
      · refine candsUpd_map_name _ _ _ ?_
        intro c
        rfl

/-- Eliminating in the fractional engine keeps the candidate name
list. -/
theorem fracEliminate_map_name (rn : ℕ) (st : FracAct) :
    (fracEliminate rn st).cands.map (fun c => c.name) =
      st.cands.map (fun c => c.name) := by
  unfold fracEliminate
  dsimp only
  split
  · rfl
  · refine Eq.trans (candsUpd_map_name _ _ _ ?_) ?_
    · intro c
      rfl
    · refine Eq.trans (fracElimFold_map_name _ _) ?_
      refine candsUpd_map_name _ _ _ ?_
      intro c
      rfl

/-- The fractional round action keeps the candidate name list. -/
theorem fracAction_map_name (s : FracState) :
    (fracAction s).cands.map (fun c => c.name) =
      s.cands.map (fun c => c.name) := by
  unfold fracAction
  dsimp only
  split
  · exact fracElect_map_name _ _ _ _ ⟨_, _, _, _, _, _, _, _, _⟩
  · exact fracEliminate_map_name _ ⟨_, _, _, _, _, _, _, _, _⟩

/-- Electing a present active candidate in the fractional engine
strictly lowers the active count. -/
theorem fracElect_active_lt (seats quota rn : ℕ) (name : String)
    (st : FracAct)
    (hnodup : (st.cands.map (fun c => c.name)).Nodup)
    (c0 : Cand) (hc0 : c0 ∈ st.cands) (hn : c0.name = name)
    (hact : c0.status = .active) :
    ((fracElect seats quota rn name st).cands.filter
      (fun c => c.status = .active)).length <
    (st.cands.filter (fun c => c.status = .active)).length := by
  unfold fracElect
  have hget : candsGet st.cands name = some c0 := by
    rw [← hn]
    exact candsGet_of_nodup st.cands hnodup c0 hc0
  rw [hget]
  dsimp only
  refine lt_of_le_of_lt (activeLen_le_of_statusBack
    (candsUpd_statusBack _ _ _ (fun c h => h))) ?_
  split
  · dsimp only
    refine lt_of_le_of_lt (activeLen_le_of_statusBack
      (fracSurplusFold_statusBack _ _ _ _ (statusBack_refl _))) ?_
    exact candsUpd_active_lt _ _ _ hnodup c0 hc0 hn hact
      (fun c => by simp)
  · exact candsUpd_active_lt _ _ _ hnodup c0 hc0 hn hact
      (fun c => by simp)

/-- Fractional elimination with at least one active candidate strictly
lowers the active count. -/
theorem fracEliminate_active_lt (rn : ℕ) (st : FracAct)
    (hnz : (st.cands.filter (fun c => c.status = .active)).length ≠ 0)
    (hnodup : (st.cands.map (fun c => c.name)).Nodup) :
    ((fracEliminate rn st).cands.filter
      (fun c => c.status = .active)).length <
    (st.cands.filter (fun c => c.status = .active)).length := by
  have hne : st.cands.filter (fun c => c.status = .active) ≠ [] := by
    intro h
    rw [h] at hnz
    exact hnz rfl
  unfold fracEliminate
  dsimp only
  split
  · next hnone =>
    exfalso
    rcases hf : st.cands.filter (fun c => c.status = .active) with
      _ | ⟨a, as⟩
    · exact hne hf
    · have hmm := votesMin_mem a.votes (as.map (fun c => c.votes))
      have hmm2 : votesMin ((a :: as).map (fun c => c.votes)) ∈
          (a :: as).map (fun c => c.votes) := hmm
      obtain ⟨c, hcmem, hcv⟩ := List.mem_map.mp hmm2
      have hcl : c ∈ (a :: as).filter (fun c => decide (|c.votes -
          votesMin ((a :: as).map (fun d => d.votes))| < 1 / 10000)) := by
        refine List.mem_filter.mpr ⟨hcmem, ?_⟩
        rw [hcv]
        norm_num
      rw [hf] at hnone
      have hperm := List.mergeSort_perm
        ((a :: as).filter (fun c => decide (|c.votes -
          votesMin ((a :: as).map (fun d => d.votes))| < 1 / 10000)))
        nameLe
      rw [List.head?_eq_none_iff] at hnone
      rw [hnone] at hperm
      exact absurd (hperm.symm.mem_iff.mp hcl) (List.not_mem_nil c)
  · next eliminated helim =>
    have hmem2 : eliminated ∈ (st.cands.filter
        (fun c => c.status = .active)).filter (fun c => decide
          (|c.votes - votesMin ((st.cands.filter
            (fun c => c.status = .active)).map
              (fun d => d.votes))| < 1 / 10000)) := by
      have hms := List.mem_of_mem_head? (Option.mem_def.mpr helim)
      exact (List.mergeSort_perm _ nameLe).subset hms
    have hmem4 := List.mem_filter.mp (List.mem_filter.mp hmem2).1
    have hstat : eliminated.status = .active := by
      have := hmem4.2
      simpa using this
    refine lt_of_le_of_lt (activeLen_le_of_statusBack
      (candsUpd_statusBack _ _ _ (fun c h => h))) ?_
    refine lt_of_le_of_lt (activeLen_le_of_statusBack
      (fracElimFold_statusBack _ _ _ (statusBack_refl _))) ?_
    exact candsUpd_active_lt _ _ _ hnodup eliminated hmem4.1 rfl hstat
      (fun c => by simp)

/-- A fractional round action with actives left strictly lowers the
active count. -/
theorem fracAction_active_lt (s : FracState)
    (hnz : (s.cands.filter (fun c => c.status = .active)).length ≠ 0)
    (hnodup : (s.cands.map (fun c => c.name)).Nodup) :
    ((fracAction s).cands.filter (fun c => c.status = .active)).length <
    (s.cands.filter (fun c => c.status = .active)).length := by
  unfold fracAction
  dsimp only
  split
  · next elected hhead =>
    have homem : elected ∈ ((s.cands.filter (fun c => c.status =
        .active)).filter (fun c => (s.quota : ℚ) ≤ c.votes)) := by
      have hms := List.mem_of_mem_head? (Option.mem_def.mpr hhead)
      exact (List.mergeSort_perm _ voteDescLe).subset hms
    have homem2 := List.mem_filter.mp (List.mem_filter.mp homem).1
    have hostat : elected.status = .active := by
      have := homem2.2
      simpa using this
    exact fracElect_active_lt s.seats s.quota s.roundNumber elected.name
      ⟨_, _, _, _, _, _, _, _, _⟩ hnodup elected homem2.1 rfl hostat
  · exact fracEliminate_active_lt _ _ hnz hnodup

/-- With no active candidates left the fractional loop is the identity,
so the cap is irrelevant. -/
theorem fracLoop_AC0 (cap cap' : ℕ) (s : FracState)
    (hAC : (s.cands.filter (fun c => c.status = .active)).length = 0) :
    fracLoop cap s = fracLoop cap' s := by
  have hb : fracBody s = (s, true) := by
    unfold fracBody
    rw [if_pos hAC]
  have key : ∀ c : ℕ, fracLoop c s = s := by
    intro c
    rw [fracLoop]
    split
    · rcases hb2 : fracBody s with ⟨t, b⟩
      have hb3 : (s, true) = (t, b) := hb.symm.trans hb2
      injection hb3 with h1 h2
      subst h1
      subst h2
      rfl
    · rfl
  rw [key cap, key cap']

/-- The fractional loop's result does not depend on the cap as long as
both caps leave room for one round per remaining active candidate. -/
theorem fracLoop_cap_eq :
    ∀ (n : ℕ) (s : FracState) (cap cap' : ℕ),
      (s.cands.map (fun c => c.name)).Nodup →
      (s.cands.filter (fun c => c.status = .active)).length ≤ n →
      s.roundNumber +
        (s.cands.filter (fun c => c.status = .active)).length ≤ cap + 1 →
      s.roundNumber +
        (s.cands.filter (fun c => c.status = .active)).length ≤
          cap' + 1 →
      fracLoop cap s = fracLoop cap' s := by
  intro n
  induction n with
  | zero =>
    intro s cap cap' hnodup hn h1 h2
    exact fracLoop_AC0 cap cap' s (Nat.le_zero.mp hn)
  | succ n ih =>
    intro s cap cap' hnodup hn h1 h2
    by_cases hAC0 :
        (s.cands.filter (fun c => c.status = .active)).length = 0
    · exact fracLoop_AC0 cap cap' s hAC0
    · have hg1 : s.roundNumber ≤ cap := by omega
      have hg2 : s.roundNumber ≤ cap' := by omega
      by_cases hw : s.winners.length < s.seats
      · conv_lhs => rw [fracLoop]
        conv_rhs => rw [fracLoop]
        rw [dif_pos ⟨hw, hg1⟩, dif_pos ⟨hw, hg2⟩]
        rcases hb : fracBody s with ⟨s', b⟩
        cases b with
        | true => rfl
        | false =>
          have hrn := fracBody_rn hb
          have hs' : s' = fracAfterRound s := by
            rcases fracBody_cases s with h | ⟨names, el, h⟩ | h
            · rw [h] at hb
              exact absurd (congrArg Prod.snd hb) (by simp)
            · rw [h] at hb
              exact absurd (congrArg Prod.snd hb) (by simp)
            · rw [h] at hb
              exact (congrArg Prod.fst hb).symm
          subst hs'
          have hmap : ((fracAfterRound s).cands.map (fun c => c.name)) =
              s.cands.map (fun c => c.name) := fracAction_map_name s
          have hdec : (((fracAfterRound s).cands.filter
              (fun c => c.status = .active)).length <
              (s.cands.filter (fun c => c.status = .active)).length) :=
            fracAction_active_lt s hAC0 hnodup
          refine ih (fracAfterRound s) cap cap' ?_ ?_ ?_ ?_
          · rw [hmap]
            exact hnodup
          · omega
          · rw [hrn]
            omega
          · rw [hrn]
            omega
      · conv_lhs => rw [fracLoop]
        conv_rhs => rw [fracLoop]
        rw [dif_neg (fun hcon => hw hcon.1),
          dif_neg (fun hcon => hw hcon.1)]

/-- The candidate-map build keeps names distinct (a repeated name
replaces in place) and never exceeds one entry per processed name. -/
theorem initCands_fold_nodup :
    ∀ (l : List (ℕ × String)) (acc : List Cand),
      ((acc.map (fun c => c.name)).Nodup) →
      (((l.foldl (fun acc e =>
          (if acc.any (fun c => c.name = e.2) then
            acc.map (fun c => if c.name = e.2 then mkCand e.1 e.2 else c)
          else acc ++ [mkCand e.1 e.2])) acc).map
            (fun c => c.name)).Nodup ∧
        (l.foldl (fun acc e =>
          (if acc.any (fun c => c.name = e.2) then
            acc.map (fun c => if c.name = e.2 then mkCand e.1 e.2 else c)
          else acc ++ [mkCand e.1 e.2])) acc).length ≤
          acc.length + l.length)
  | [], acc, hacc => ⟨hacc, by simp⟩
  | e :: l, acc, hacc => by
    rw [List.foldl_cons]
    by_cases hany : acc.any (fun c => c.name = e.2) = true
    · rw [if_pos hany]
      have hmap : ((acc.map (fun c =>
          if c.name = e.2 then mkCand e.1 e.2 else c)).map
            (fun c => c.name)) = acc.map (fun c => c.name) := by
        rw [List.map_map]
        refine List.map_congr_left ?_
        intro c _
        dsimp only [Function.comp]
        split
        · next hc => exact hc.symm
        · rfl
      obtain ⟨ih1, ih2⟩ := initCands_fold_nodup l
        (acc.map (fun c => if c.name = e.2 then mkCand e.1 e.2 else c))
        (by rw [hmap]; exact hacc)
      refine ⟨ih1, ?_⟩
      rw [List.length_map] at ih2
      simp only [List.length_cons]
      omega
    · rw [if_neg hany]
      have hno : e.2 ∉ acc.map (fun c => c.name) := by
        intro hmem
        obtain ⟨c, hcmem, hcn⟩ := List.mem_map.mp hmem
        exact hany (List.any_eq_true.mpr ⟨c, hcmem, by simp [hcn]⟩)
      have hnodup2 : ((acc ++ [mkCand e.1 e.2]).map
          (fun c => c.name)).Nodup := by
        rw [List.map_append, List.nodup_append]
        refine ⟨hacc, List.nodup_singleton _, ?_⟩
        intro x hx hx2
        rw [List.map_singleton, List.mem_singleton] at hx2
        subst hx2
        exact hno hx
      obtain ⟨ih1, ih2⟩ := initCands_fold_nodup l
        (acc ++ [mkCand e.1 e.2]) hnodup2
      refine ⟨ih1, ?_⟩
      rw [List.length_append] at ih2
      simp only [List.length_cons, List.length_nil] at *
      omega

/-- The initial candidate map has pairwise distinct names. -/
theorem initCands_nodup (ns : List String) :
    ((initCands ns).map (fun c => c.name)).Nodup :=
  (initCands_fold_nodup ns.enum [] (by simp)).1

/-- The initial candidate map has at most one entry per input name. -/
theorem initCands_length (ns : List String) :
    (initCands ns).length ≤ ns.length := by
  have h := (initCands_fold_nodup ns.enum [] (by simp)).2
  rw [List.enum_length] at h
  have h2 : (initCands ns).length ≤
      List.length ([] : List Cand) + ns.length := h
  simpa using h2

/-- First-choice assignment changes neither the candidate names nor the
round counter of the whole-ballot initial state. -/
theorem wbInit_cands_rn (ballots : List Ballot) (seats : ℕ)
    (names : List String) :
    (wbInit ballots seats names).cands.map (fun c => c.name) =
      (initCands names).map (fun c => c.name) ∧
    (wbInit ballots seats names).roundNumber = 1 := by
  unfold wbInit
  dsimp only
  apply foldl_inv (fun s : WBState =>
    s.cands.map (fun c => c.name) =
      (initCands names).map (fun c => c.name) ∧ s.roundNumber = 1)
  · intro s b hs
    rcases hr : (wbGetCurrentChoice s.cands b).2 with _ | c
    · simp only [hr]
      exact hs
    · simp only [hr]
      refine ⟨?_, hs.2⟩
      refine Eq.trans (candsUpd_map_name _ _ _ ?_) hs.1
      intro c0
      rfl
  · exact ⟨rfl, rfl⟩

/-- First-choice assignment changes neither the candidate names nor the
round counter of the fractional initial state. -/
theorem fracInit_cands_rn (ballots : List Ballot) (seats : ℕ)
    (names : List String) (tq : Option ℕ) :
    (fracInit ballots seats names tq).cands.map (fun c => c.name) =
      (initCands names).map (fun c => c.name) ∧
    (fracInit ballots seats names tq).roundNumber = 1 := by
  unfold fracInit
  dsimp only
  apply foldl_inv (fun s : FracState =>
    s.cands.map (fun c => c.name) =
      (initCands names).map (fun c => c.name) ∧ s.roundNumber = 1)
  · intro s id hs
    rcases hr : s.store.get? id with _ | b
    · simp only [hr]
      exact hs
    · simp only [hr]
      split
      · refine ⟨?_, hs.2⟩
        refine Eq.trans (candsUpd_map_name _ _ _ ?_) hs.1
        intro c0
        rfl
      · exact hs
  · exact ⟨rfl, rfl⟩

/-- C8: the round caps (`2·|candidates|` whole-ballot, `3·|candidates|`
fractional) can never be exceeded: every continuing round strictly
reduces the number of active candidates, so any cap at least as large as
the source's produces the identical result; in particular the loop
guards never truncate a tabulation, and no abort/diagnostic path is
reachable (or present) in the code. -/
theorem c8_round_cap_never_binds :
    (∀ (ballots : List Ballot) (seats : ℕ) (names : List String)
      (k : ℕ),
      tabulateSTVCap (names.length * 2 + k) ballots seats names =
        tabulateSTV ballots seats names) ∧
    (∀ (ballots : List Ballot) (seats : ℕ) (names : List String)
      (tq : Option ℕ) (k : ℕ),
      tabulateFractionalSTVCap (names.length * 3 + k) ballots seats
          names tq =
        tabulateFractionalSTV ballots seats names tq) := by
  constructor
  · intro ballots seats names k
    have hcr := wbInit_cands_rn ballots seats names
    have hnodup : ((wbInit ballots seats names).cands.map
        (fun c => c.name)).Nodup := by
      rw [hcr.1]
      exact initCands_nodup names
    have hlen : (wbInit ballots seats names).cands.length ≤
        names.length := by
      have h1 := congrArg List.length hcr.1
      rw [List.length_map, List.length_map] at h1
      rw [h1]
      exact initCands_length names
    have hAC : ((wbInit ballots seats names).cands.filter
        (fun c => c.status = .active)).length ≤ names.length :=
      le_trans (List.length_filter_le _ _) hlen
    have hE := wbLoop_cap_eq
      (((wbInit ballots seats names).cands.filter
        (fun c => c.status = .active)).length)
      (wbInit ballots seats names) (names.length * 2 + k)
      (names.length * 2) hnodup (le_refl _)
      (by rw [hcr.2]; omega) (by rw [hcr.2]; omega)
    unfold tabulateSTV tabulateSTVCap
    dsimp only
    rw [hE]
  · intro ballots seats names tq k
    have hcr := fracInit_cands_rn ballots seats names tq
    have hnodup : ((fracInit ballots seats names tq).cands.map
        (fun c => c.name)).Nodup := by
      rw [hcr.1]
      exact initCands_nodup names
    have hlen : (fracInit ballots seats names tq).cands.length ≤
        names.length := by
      have h1 := congrArg List.length hcr.1
      rw [List.length_map, List.length_map] at h1
      rw [h1]
      exact initCands_length names
    have hAC : ((fracInit ballots seats names tq).cands.filter
        (fun c => c.status = .active)).length ≤ names.length :=
      le_trans (List.length_filter_le _ _) hlen
    have hE := fracLoop_cap_eq
      (((fracInit ballots seats names tq).cands.filter
        (fun c => c.status = .active)).length)
      (fracInit ballots seats names tq) (names.length * 3 + k)
      (names.length * 3) hnodup (le_refl _)
      (by rw [hcr.2]; omega) (by rw [hcr.2]; omega)
    unfold tabulateFractionalSTV tabulateFractionalSTVCap
    dsimp only
    rw [hE]

/-- Incrementing a counter slot raises exactly that slot. -/
theorem listInc_getD_self (l : List ℕ) (a : ℕ) (ha : a < l.length) :
    (listInc l a).getD a 0 = l.getD a 0 + 1 := by
  rw [listInc, List.getD_eq_getElem?_getD, List.getElem?_set_self]
  · simp [List.getD_eq_getElem?_getD]
  · exact ha

/-- Incrementing a counter slot leaves the other slots alone. -/
theorem listInc_getD_ne (l : List ℕ) (i a : ℕ) (h : i ≠ a) :
    (listInc l i).getD a 0 = l.getD a 0 := by
  rw [listInc, List.getD_eq_getElem?_getD, List.getElem?_set_ne h,
    ← List.getD_eq_getElem?_getD]

/-- The first counting pass of `computeFirstAlternate` tallies, per
candidate slot, the ballots whose first choice resolves to it. -/
theorem firstAltCounts_fst (names : List String) :
    ∀ (ballots : List Ballot) (acc : List ℕ × List (List ℕ)) (a : ℕ),
      a < acc.1.length →
      (ballots.foldl (fun acc b =>
        match b.rankings with
        | [] => acc
        | r0 :: rest =>
          match mapGet (nameToIndex names) r0 with
          | none => acc
          | some first =>
            (listInc acc.1 first,
              acc.2.set first (listInc (acc.2.getD first [])
                (match rest with
                 | [] => names.length
                 | r1 :: _ =>
                   match mapGet (nameToIndex names) r1 with
                   | some s => s
                   | none => names.length)))) acc).1.getD a 0 =
        acc.1.getD a 0 + firstChoiceCount names ballots a
  | [], acc, a, ha => by simp [firstChoiceCount]
  | b :: bs, acc, a, ha => by
    rw [List.foldl_cons]
    have hcnt : firstChoiceCount names (b :: bs) a =
        firstChoiceCount names bs a +
          (if firstChoiceOf names b = some a then 1 else 0) := by
      simp [firstChoiceCount, List.countP_cons]
    rcases hb : b.rankings with _ | ⟨r0, rest⟩
    · simp only [hb]
      rw [firstAltCounts_fst names bs acc a ha]
      have h2 : firstChoiceOf names b = none := by
        simp [firstChoiceOf, hb]
      rw [hcnt, h2]
      simp
    · simp only [hb]
      rcases hg : mapGet (nameToIndex names) r0 with _ | first
      · simp only [hg]
        rw [firstAltCounts_fst names bs acc a ha]
        have h2 : firstChoiceOf names b = none := by
          simp [firstChoiceOf, hb, hg]
        rw [hcnt, h2]
        simp
      · simp only [hg]
        rw [firstAltCounts_fst names bs _ a
          (by dsimp only; rw [listInc, List.length_set]; exact ha)]
        have h2 : firstChoiceOf names b = some first := by
          simp [firstChoiceOf, hb, hg]
        rw [hcnt, h2]
        by_cases hfa : first = a
        · subst hfa
          rw [listInc_getD_self acc.1 first ha]
          rw [if_pos rfl]
          omega
        · rw [listInc_getD_ne acc.1 first a hfa]
          rw [if_neg (fun h => hfa (Option.some.inj h))]
          omega

/-- C6: in the first-alternate table every off-diagonal cell of row `a`
(each other candidate's column and the exhausted column) carries the
denominator `firstChoiceCounts[a]`, the number of ballots whose first
choice resolves to `a`; the diagonal cell, however, is emitted as an
all-zero entry (denominator 0), so the denominator is uniform only off
the diagonal. -/
theorem c6_denominator_uniform (ballots : List Ballot)
    (names : List String) (a b : ℕ) (ha : a < names.length)
    (hb : b < names.length + 1) :
    (a ≠ b →
      (((computeFirstAlternate ballots names).entries.getD a []).getD b
        ⟨0, 0, 0⟩).denominator = firstChoiceCount names ballots a) ∧
    (a = b →
      ((computeFirstAlternate ballots names).entries.getD a []).getD b
        ⟨0, 0, 0⟩ = ⟨0, 0, 0⟩) := by
  unfold computeFirstAlternate
  dsimp only
  have hrow : ((List.range names.length).map (fun a =>
      (List.range (names.length + 1)).map (fun b =>
        if a = b ∧ b < names.length then (⟨0, 0, 0⟩ : PairEntry)
        else
          ⟨if 0 < (firstAlternateCounts ballots names).1.getD a 0 then
              ((((firstAlternateCounts ballots names).2.getD a
                []).getD b 0 : ℕ) : ℚ) /
                (((firstAlternateCounts ballots names).1.getD a 0 :
                  ℕ) : ℚ)
            else 0,
            (((firstAlternateCounts ballots names).2.getD a []).getD b
              0),
            ((firstAlternateCounts ballots names).1.getD a 0)⟩))).getD a
        [] =
      (List.range (names.length + 1)).map (fun b =>
        if a = b ∧ b < names.length then (⟨0, 0, 0⟩ : PairEntry)
        else
          ⟨if 0 < (firstAlternateCounts ballots names).1.getD a 0 then
              ((((firstAlternateCounts ballots names).2.getD a
                []).getD b 0 : ℕ) : ℚ) /
                (((firstAlternateCounts ballots names).1.getD a 0 :
                  ℕ) : ℚ)
            else 0,
            (((firstAlternateCounts ballots names).2.getD a []).getD b
              0),
            ((firstAlternateCounts ballots names).1.getD a 0)⟩) := by
    rw [List.getD_eq_getElem _ _ (by simpa using ha)]
    simp
  rw [hrow]
  rw [List.getD_eq_getElem _ _ (by simpa using hb)]
  simp only [List.getElem_map, List.getElem_range]
  constructor
  · intro hab
    rw [if_neg (fun h => hab h.1)]
    dsimp only
    have hc := firstAltCounts_fst names ballots
      (List.replicate names.length 0,
        List.replicate names.length
          (List.replicate (names.length + 1) 0)) a
      (by simpa using ha)
    dsimp only at hc
    have hz : (List.replicate names.length (0 : ℕ)).getD a 0 = 0 := by
      rw [List.getD_eq_getElem?_getD, List.getElem?_replicate]
      simp [ha]
    rw [hz] at hc
    exact hc.trans (Nat.zero_add _)
  · intro hab
    subst hab
    rw [if_pos ⟨rfl, ha⟩]

/-- C6 witness: on one `A > B` ballot with candidates [A, B], row A's
B-column denominator equals A's first-choice count 1. -/
theorem c6_witness :
    0 < (["A", "B"] : List String).length ∧
    1 < (["A", "B"] : List String).length + 1 ∧
    (0 : ℕ) ≠ 1 ∧
    (((computeFirstAlternate [⟨["A", "B"], none⟩]
        ["A", "B"]).entries.getD 0 []).getD 1 ⟨0, 0, 0⟩).denominator =
      firstChoiceCount ["A", "B"] [⟨["A", "B"], none⟩] 0 :=
  ⟨by decide, by decide, by decide,
    (c6_denominator_uniform [⟨["A", "B"], none⟩] ["A", "B"] 0 1
      (by decide) (by decide)).1 (by decide)⟩

/-- An entry with a different name survives an upsert unchanged. -/
theorem candsUpd_mem_ne (cs : List Cand) (n : String) (f : Cand → Cand)
    (c : Cand) (hc : c ∈ cs) (hn : c.name ≠ n) :
    c ∈ candsUpd cs n f := by
  unfold candsUpd
  refine List.mem_map.mpr ⟨c, hc, ?_⟩
  rw [if_neg hn]

/-- Looking up the upserted name returns the mapped entry (for a
name-preserving update). -/
theorem candsGet_candsUpd (cs : List Cand) (n : String)
    (f : Cand → Cand) (hf : ∀ c, (f c).name = c.name) :
    candsGet (candsUpd cs n f) n = Option.map f (candsGet cs n) := by
  induction cs with
  | nil => rfl
  | cons d cs ih =>
    show candsGet ((if d.name = n then f d else d) :: candsUpd cs n f) n
      = Option.map f (candsGet (d :: cs) n)
    by_cases hdn : d.name = n
    · rw [if_pos hdn]
      rw [candsGet, List.find?_cons_of_pos _ (by simp [hf d, hdn]),
        candsGet, List.find?_cons_of_pos _ (by simp [hdn])]
      rfl
    · rw [if_neg hdn]
      rw [candsGet, List.find?_cons_of_neg _ (by simp [hdn]),
        candsGet, List.find?_cons_of_neg _ (by simp [hdn])]
      exact ih

/-- Looking up a name other than the upserted one is unchanged (for a
name-preserving update). -/
theorem candsGet_candsUpd_ne (cs : List Cand) (m n : String)
    (f : Cand → Cand) (hf : ∀ c, (f c).name = c.name) (hmn : m ≠ n) :
    candsGet (candsUpd cs m f) n = candsGet cs n := by
  induction cs with
  | nil => rfl
  | cons d cs ih =>
    show candsGet ((if d.name = m then f d else d) :: candsUpd cs m f) n
      = candsGet (d :: cs) n
    have hname : (if d.name = m then f d else d).name = d.name := by
      split
    -- update preserves the name in both branches
      · exact hf d
      · rfl
    by_cases hdn : d.name = n
    · have hpn : (if d.name = m then f d else d).name = n := by
        rw [hname]
        exact hdn
      rw [candsGet, List.find?_cons_of_pos _ (by simp [hpn]),
        candsGet, List.find?_cons_of_pos _ (by simp [hdn])]
      rw [if_neg (fun h => hmn (h.symm.trans hdn))]
    · rw [candsGet, List.find?_cons_of_neg _ (by simp [hname, hdn]),
        candsGet, List.find?_cons_of_neg _ (by simp [hdn])]
      exact ih

/-- The whole-ballot fill-by-default loop never touches candidates whose
names it does not process. -/
theorem wbFillElect_candsGet_other :
    ∀ (names : List String) (s : WBState) (nm : String),
      nm ∉ names →
      candsGet (wbFillElect names s).cands nm = candsGet s.cands nm
  | [], _, _, _ => rfl
  | name :: rest, s, nm, h => by
    simp only [wbFillElect]
    split
    · rfl
    · rcases hg : candsGet s.cands name with _ | c
      · simp only [hg]
        exact wbFillElect_candsGet_other rest s nm
          (fun hr => h (List.mem_cons_of_mem _ hr))
      · simp only [hg]
        rw [wbFillElect_candsGet_other rest _ nm
          (fun hr => h (List.mem_cons_of_mem _ hr))]
        exact candsGet_candsUpd_ne s.cands name nm _ (fun c => rfl)
          (fun heq => h (heq ▸ List.mem_cons_self name rest))

/-- The whole-ballot fill-by-default loop, given pairwise-distinct
present candidates and enough seats, elects every one of them in list
order at the state's current round number. -/
theorem wbFillElect_spec :
    ∀ (cs : List Cand) (s : WBState),
      s.winners.length + cs.length ≤ s.seats →
      ((s.cands.map (fun c => c.name)).Nodup) →
      ((cs.map (fun c => c.name)).Nodup) →
      (∀ c ∈ cs, c ∈ s.cands) →
      (wbFillElect (cs.map (fun c => c.name)) s).winners =
        s.winners ++ cs.map (fun c => c.index) ∧
      (∀ c ∈ cs, ∃ c',
        candsGet (wbFillElect (cs.map (fun c => c.name)) s).cands
          c.name = some c' ∧
        c'.status = .elected ∧
        c'.roundElected = some s.roundNumber)
  | [], s, h1, h2, h3, h4 =>
    ⟨by simp [wbFillElect], fun c hc => absurd hc (List.not_mem_nil c)⟩
  | c :: rest, s, h1, h2, h3, h4 => by
    have hmem : c ∈ s.cands := h4 c (List.mem_cons_self c rest)
    have hget : candsGet s.cands c.name = some c :=
      candsGet_of_nodup s.cands h2 c hmem
    have hlt : ¬ (s.seats ≤ s.winners.length) := by
      simp only [List.length_cons] at h1
      omega
    have hnotin : c.name ∉ rest.map (fun c => c.name) := by
      have := h3
      rw [List.map_cons, List.nodup_cons] at this
      exact this.1
    rw [List.map_cons]
    simp only [wbFillElect]
    rw [if_neg hlt, hget]
    dsimp only
    obtain ⟨ihw, ihe⟩ := wbFillElect_spec rest
      { s with
        cands := candsUpd s.cands c.name (fun c0 =>
          { c0 with status := .elected,
                    roundElected := some s.roundNumber }),
        winners := s.winners ++ [c.index] }
      (by simp only [List.length_append, List.length_cons,
            List.length_nil] at *
          omega)
      (by dsimp only
          have hmn2 : (candsUpd s.cands c.name (fun c0 =>
              { c0 with status := .elected,
                        roundElected := some s.roundNumber })).map
              (fun c1 => c1.name) = s.cands.map (fun c1 => c1.name) := by
            refine candsUpd_map_name _ _ _ ?_
            intro c1
            rfl
          rw [hmn2]
          exact h2)
      (by rw [List.map_cons, List.nodup_cons] at h3
          exact h3.2)
      (by intro c0 hc0
          dsimp only
          refine candsUpd_mem_ne _ _ _ c0 (h4 c0
            (List.mem_cons_of_mem _ hc0)) ?_
          intro heq
          exact hnotin (heq ▸ List.mem_map_of_mem (fun c => c.name) hc0))
    constructor
    · rw [ihw]
      dsimp only
      rw [List.map_cons, List.append_assoc]
      rfl
    · intro c0 hc0
      rcases List.mem_cons.mp hc0 with rfl | hc0r
      · rw [wbFillElect_candsGet_other (rest.map (fun c => c.name)) _
          c0.name hnotin]
        dsimp only
        have hgu : candsGet (candsUpd s.cands c0.name (fun c1 =>
            { c1 with status := .elected,
                      roundElected := some s.roundNumber })) c0.name =
            Option.map (fun c1 =>
              { c1 with status := CandStatus.elected,
                        roundElected := some s.roundNumber })
              (candsGet s.cands c0.name) := by
          refine candsGet_candsUpd _ _ _ ?_
          intro c1
          rfl
        rw [hgu, hget]
        exact ⟨_, rfl, rfl, rfl⟩
      · exact ihe c0 hc0r

/-- The fractional fill-by-default loop never touches candidates whose
names it does not process. -/
theorem fracFillElect_candsGet_other :
    ∀ (names : List String) (s : FracState) (nm : String),
      nm ∉ names →
      candsGet (fracFillElect names s).cands nm = candsGet s.cands nm
  | [], _, _, _ => rfl
  | name :: rest, s, nm, h => by
    simp only [fracFillElect]
    split
    · rfl
    · rcases hg : candsGet s.cands name with _ | c
      · simp only [hg]
        exact fracFillElect_candsGet_other rest s nm
          (fun hr => h (List.mem_cons_of_mem _ hr))
      · simp only [hg]
        rw [fracFillElect_candsGet_other rest _ nm
          (fun hr => h (List.mem_cons_of_mem _ hr))]
        exact candsGet_candsUpd_ne s.cands name nm _ (fun c => rfl)
          (fun heq => h (heq ▸ List.mem_cons_self name rest))

/-- The fractional fill-by-default loop, given pairwise-distinct present
candidates and enough seats, elects every one of them in list order at
the state's current round number. -/
theorem fracFillElect_spec :
    ∀ (cs : List Cand) (s : FracState),
      s.winners.length + cs.length ≤ s.seats →
      ((s.cands.map (fun c => c.name)).Nodup) →
      ((cs.map (fun c => c.name)).Nodup) →
      (∀ c ∈ cs, c ∈ s.cands) →
      (fracFillElect (cs.map (fun c => c.name)) s).winners =
        s.winners ++ cs.map (fun c => c.index) ∧
      (∀ c ∈ cs, ∃ c',
        candsGet (fracFillElect (cs.map (fun c => c.name)) s).cands
          c.name = some c' ∧
        c'.status = .elected ∧
        c'.roundElected = some s.roundNumber)
  | [], s, h1, h2, h3, h4 =>
    ⟨by simp [fracFillElect], fun c hc => absurd hc (List.not_mem_nil c)⟩
  | c :: rest, s, h1, h2, h3, h4 => by
    have hmem : c ∈ s.cands := h4 c (List.mem_cons_self c rest)
    have hget : candsGet s.cands c.name = some c :=
      candsGet_of_nodup s.cands h2 c hmem
    have hlt : ¬ (s.seats ≤ s.winners.length) := by
      simp only [List.length_cons] at h1
      omega
    have hnotin : c.name ∉ rest.map (fun c => c.name) := by
      have := h3
      rw [List.map_cons, List.nodup_cons] at this
      exact this.1
    rw [List.map_cons]
    simp only [fracFillElect]
    rw [if_neg hlt, hget]
    dsimp only
    obtain ⟨ihw, ihe⟩ := fracFillElect_spec rest
      { s with
        cands := candsUpd s.cands c.name (fun c0 =>
          { c0 with status := .elected,
                    roundElected := some s.roundNumber }),
        winners := s.winners ++ [c.index] }
      (by simp only [List.length_append, List.length_cons,
            List.length_nil] at *
          omega)
      (by dsimp only
          have hmn2 : (candsUpd s.cands c.name (fun c0 =>
              { c0 with status := .elected,
                        roundElected := some s.roundNumber })).map
              (fun c1 => c1.name) = s.cands.map (fun c1 => c1.name) := by
            refine candsUpd_map_name _ _ _ ?_
            intro c1
            rfl
          rw [hmn2]
          exact h2)
      (by rw [List.map_cons, List.nodup_cons] at h3
          exact h3.2)
      (by intro c0 hc0
          dsimp only
          refine candsUpd_mem_ne _ _ _ c0 (h4 c0
            (List.mem_cons_of_mem _ hc0)) ?_
          intro heq
          exact hnotin (heq ▸ List.mem_map_of_mem (fun c => c.name) hc0))
    constructor
    · rw [ihw]
      dsimp only
      rw [List.map_cons, List.append_assoc]
      rfl
    · intro c0 hc0
      rcases List.mem_cons.mp hc0 with rfl | hc0r
      · rw [fracFillElect_candsGet_other (rest.map (fun c => c.name)) _
          c0.name hnotin]
        dsimp only
        have hgu : candsGet (candsUpd s.cands c0.name (fun c1 =>
            { c1 with status := .elected,
                      roundElected := some s.roundNumber })) c0.name =
            Option.map (fun c1 =>
              { c1 with status := CandStatus.elected,
                        roundElected := some s.roundNumber })
              (candsGet s.cands c0.name) := by
          refine candsGet_candsUpd _ _ _ ?_
          intro c1
          rfl
        rw [hgu, hget]
        exact ⟨_, rfl, rfl, rfl⟩
      · exact ihe c0 hc0r

theorem voteDescLe_trans (a b c : Cand) (h1 : voteDescLe a b = true)
    (h2 : voteDescLe b c = true) : voteDescLe a c = true := by
  simp only [voteDescLe, decide_eq_true_eq] at *
  exact le_trans h2 h1

theorem voteDescLe_total (a b : Cand) :
    (voteDescLe a b || voteDescLe b a) = true := by
  simp only [voteDescLe, Bool.or_eq_true, decide_eq_true_eq]
  exact le_total b.votes a.votes

/-- C3: fill by default.  Whole-ballot engine: when, after a round's
action, the remaining actives fit in the remaining seats, the loop stops
and elects them all at the following round index — but in candidate-map
order, not by descending votes, and no extra round record is appended
(the trace gains only the regular record of the continuing round).
Fractional engine: under the same condition (plus at least one active
remaining) all remaining actives are elected in descending-votes order
at the following round index, and one extra final record with no
transfers is appended. -/
theorem c3_fill_by_default :
    (∀ s : WBState,
      (s.cands.filter (fun c => c.status = .active)).length ≠ 0 →
      ((((wbAfterRound s).cands.filter
          (fun c => c.status = .active)).length : ℤ) ≤
        ((wbAfterRound s).seats : ℤ) -
          ((wbAfterRound s).winners.length : ℤ)) →
      ((s.cands.map (fun c => c.name)).Nodup) →
      ∃ s', wbBody s = (s', true) ∧
        s'.trace = s.trace ++ [wbRound0 s] ∧
        s'.winners = (wbAfterRound s).winners ++
          ((wbAfterRound s).cands.filter
            (fun c => c.status = .active)).map (fun c => c.index) ∧
        ∀ c ∈ (wbAfterRound s).cands.filter
            (fun c => c.status = .active),
          ∃ c', candsGet s'.cands c.name = some c' ∧
            c'.status = .elected ∧
            c'.roundElected = some (s.roundNumber + 1)) ∧
    (∀ t : FracState,
      (t.cands.filter (fun c => c.status = .active)).length ≠ 0 →
      ((((fracAfterRound t).cands.filter
          (fun c => c.status = .active)).length : ℤ) ≤
        ((fracAfterRound t).seats : ℤ) -
          ((fracAfterRound t).winners.length : ℤ)) →
      (0 < ((fracAfterRound t).cands.filter
          (fun c => c.status = .active)).length) →
      ((t.cands.map (fun c => c.name)).Nodup) →
      ∃ t' fin, fracBody t = (t', true) ∧
        t'.trace = t.trace ++ [fracRound0 t, fin] ∧
        fin.transfers = [] ∧
        fin.electedThisRound = some
          ((((fracAfterRound t).cands.filter
            (fun c => c.status = .active)).mergeSort voteDescLe).map
              (fun c => c.index)) ∧
        ((((fracAfterRound t).cands.filter
          (fun c => c.status = .active)).mergeSort voteDescLe).Pairwise
            (fun a b => b.votes ≤ a.votes)) ∧
        t'.winners = (fracAfterRound t).winners ++
          ((((fracAfterRound t).cands.filter
            (fun c => c.status = .active)).mergeSort voteDescLe).map
              (fun c => c.index)) ∧
        ∀ c ∈ ((fracAfterRound t).cands.filter
            (fun c => c.status = .active)).mergeSort voteDescLe,
          ∃ c', candsGet t'.cands c.name = some c' ∧
            c'.status = .elected ∧
            c'.roundElected = some (t.roundNumber + 1)) := by
  constructor
  · intro s hnz hfill hnodup
    have hnames : ((wbAfterRound s).cands.map
        (fun c => c.name)).Nodup := by
      have hmap : ((wbAfterRound s).cands.map (fun c => c.name)) =
          s.cands.map (fun c => c.name) := wbAction_map_name s
      rw [hmap]
      exact hnodup
    have hsub : (((wbAfterRound s).cands.filter
        (fun c => c.status = .active)).map (fun c => c.name)).Nodup := by
      refine List.Nodup.sublist ?_ hnames
      exact (List.filter_sublist ((wbAfterRound s).cands)).map
        (fun c => c.name)
    obtain ⟨ihw, ihe⟩ := wbFillElect_spec
      ((wbAfterRound s).cands.filter (fun c => c.status = .active))
      (wbAfterRound s)
      (by omega) hnames hsub
      (fun c hc => (List.mem_filter.mp hc).1)
    refine ⟨wbFillElect
      (((wbAfterRound s).cands.filter
        (fun c => c.status = .active)).map (fun c => c.name))
      (wbAfterRound s), ?_, ?_, ihw, ?_⟩
    · unfold wbBody
      dsimp only
      rw [if_neg hnz, if_pos hfill]
    · rw [wbFillElect_trace]
      rfl
    · intro c hc
      exact ihe c hc
  · intro t hnz hfill hpos hnodup
    have hnames : ((fracAfterRound t).cands.map
        (fun c => c.name)).Nodup := by
      have hmap : ((fracAfterRound t).cands.map (fun c => c.name)) =
          t.cands.map (fun c => c.name) := fracAction_map_name t
      rw [hmap]
      exact hnodup
    have hsub : (((fracAfterRound t).cands.filter
        (fun c => c.status = .active)).map (fun c => c.name)).Nodup := by
      refine List.Nodup.sublist ?_ hnames
      exact (List.filter_sublist ((fracAfterRound t).cands)).map
        (fun c => c.name)
    have hperm := List.mergeSort_perm
      ((fracAfterRound t).cands.filter (fun c => c.status = .active))
      voteDescLe
    have hsortnd : ((((fracAfterRound t).cands.filter
        (fun c => c.status = .active)).mergeSort voteDescLe).map
          (fun c => c.name)).Nodup :=
      ((hperm.map (fun c => c.name)).nodup_iff).mpr hsub
    obtain ⟨ihw, ihe⟩ := fracFillElect_spec
      (((fracAfterRound t).cands.filter
        (fun c => c.status = .active)).mergeSort voteDescLe)
      (fracAfterRound t)
      (by rw [hperm.length_eq]; omega) hnames hsortnd
      (fun c hc => (List.mem_filter.mp (hperm.subset hc)).1)
    set rem := (fracAfterRound t).cands.filter
      (fun c => c.status = .active) with hrem
    set srt := rem.mergeSort voteDescLe with hsrt
    set S2 := fracFillElect (srt.map (fun c => c.name))
      (fracAfterRound t) with hS2
    set FIN := fracFinalRound S2 (fracContinuingVotes t)
      (srt.map (fun c => c.index)) with hFIN
    refine ⟨{ S2 with trace := S2.trace ++ [FIN] }, FIN, ?_, ?_, ?_,
      ?_, ?_, ?_, ?_⟩
    · unfold fracBody
      dsimp only
      rw [if_neg hnz, if_pos ⟨hfill, hpos⟩]
    · dsimp only
      rw [hS2, fracFillElect_trace]
      simp only [fracAfterRound]
      rw [List.append_assoc]
      rfl
    · rfl
    · rfl
    · exact (List.sorted_mergeSort voteDescLe_trans voteDescLe_total
        rem).imp (fun h => by simpa [voteDescLe] using h)
    · dsimp only
      exact ihw
    · intro c hc
      exact ihe c hc

/-- C3 witness: two bullet ballots for three seats trigger the fill
branch in both engines on the very first round. -/
theorem c3_witness :
    (((wbInit [⟨["A"], none⟩, ⟨["B"], none⟩] 3
        ["A", "B", "C"]).cands.filter
      (fun c => c.status = .active)).length ≠ 0 ∧
      ∃ s', wbBody (wbInit [⟨["A"], none⟩, ⟨["B"], none⟩] 3
          ["A", "B", "C"]) = (s', true) ∧
        s'.trace = (wbInit [⟨["A"], none⟩, ⟨["B"], none⟩] 3
          ["A", "B", "C"]).trace ++
          [wbRound0 (wbInit [⟨["A"], none⟩, ⟨["B"], none⟩] 3
            ["A", "B", "C"])] ∧
        s'.winners = (wbAfterRound (wbInit [⟨["A"], none⟩, ⟨["B"], none⟩]
          3 ["A", "B", "C"])).winners ++
          ((wbAfterRound (wbInit [⟨["A"], none⟩, ⟨["B"], none⟩] 3
            ["A", "B", "C"])).cands.filter
              (fun c => c.status = .active)).map (fun c => c.index) ∧
        ∀ c ∈ (wbAfterRound (wbInit [⟨["A"], none⟩, ⟨["B"], none⟩] 3
            ["A", "B", "C"])).cands.filter
              (fun c => c.status = .active),
          ∃ c', candsGet s'.cands c.name = some c' ∧
            c'.status = .elected ∧
            c'.roundElected = some ((wbInit [⟨["A"], none⟩, ⟨["B"], none⟩]
              3 ["A", "B", "C"]).roundNumber + 1)) ∧
    (∃ t' fin, fracBody (fracInit [⟨["A"], none⟩, ⟨["B"], none⟩] 3
        ["A", "B", "C"] none) = (t', true) ∧
      t'.trace = (fracInit [⟨["A"], none⟩, ⟨["B"], none⟩] 3
        ["A", "B", "C"] none).trace ++
        [fracRound0 (fracInit [⟨["A"], none⟩, ⟨["B"], none⟩] 3
          ["A", "B", "C"] none), fin] ∧
      fin.transfers = [] ∧
      fin.electedThisRound = some
        ((((fracAfterRound (fracInit [⟨["A"], none⟩, ⟨["B"], none⟩] 3
          ["A", "B", "C"] none)).cands.filter
            (fun c => c.status = .active)).mergeSort voteDescLe).map
              (fun c => c.index)) ∧
      ((((fracAfterRound (fracInit [⟨["A"], none⟩, ⟨["B"], none⟩] 3
        ["A", "B", "C"] none)).cands.filter
          (fun c => c.status = .active)).mergeSort voteDescLe).Pairwise
            (fun a b => b.votes ≤ a.votes)) ∧
      t'.winners = (fracAfterRound (fracInit [⟨["A"], none⟩,
        ⟨["B"], none⟩] 3 ["A", "B", "C"] none)).winners ++
        ((((fracAfterRound (fracInit [⟨["A"], none⟩, ⟨["B"], none⟩] 3
          ["A", "B", "C"] none)).cands.filter
            (fun c => c.status = .active)).mergeSort voteDescLe).map
              (fun c => c.index)) ∧
      ∀ c ∈ ((fracAfterRound (fracInit [⟨["A"], none⟩, ⟨["B"], none⟩] 3
          ["A", "B", "C"] none)).cands.filter
            (fun c => c.status = .active)).mergeSort voteDescLe,
        ∃ c', candsGet t'.cands c.name = some c' ∧
          c'.status = .elected ∧
          c'.roundElected = some ((fracInit [⟨["A"], none⟩, ⟨["B"], none⟩]
            3 ["A", "B", "C"] none).roundNumber + 1)) :=
  ⟨⟨by with_unfolding_all decide,
    c3_fill_by_default.1 (wbInit [⟨["A"], none⟩, ⟨["B"], none⟩] 3
        ["A", "B", "C"])
      (by with_unfolding_all decide)
      (by with_unfolding_all decide)
      (by with_unfolding_all decide)⟩,
    c3_fill_by_default.2 (fracInit [⟨["A"], none⟩, ⟨["B"], none⟩] 3
        ["A", "B", "C"] none)
      (by with_unfolding_all decide)
      (by with_unfolding_all decide)
      (by with_unfolding_all decide)
      (by with_unfolding_all decide)⟩

/-- Every transfer of one emitted batch carries the batch's source index
and tag (whole-ballot rounding variant). -/
theorem wbTcTransfers_mem (cands : List Cand) (i : ℕ)
    (tc : List (String × ℚ)) (k : TransferKind) :
    ∀ t ∈ wbTcTransfers cands i tc k, t.tfrom = i ∧ t.kind = k := by
  intro t ht
  unfold wbTcTransfers at ht
  obtain ⟨e, _, rfl⟩ := List.mem_map.mp ht
  exact ⟨rfl, rfl⟩

/-- Every transfer of one emitted batch carries the batch's source index
and tag (fractional variant). -/
theorem fracTcTransfers_mem (cands : List Cand) (i : ℕ)
    (tc : List (String × ℚ)) (k : TransferKind) :
    ∀ t ∈ fracTcTransfers cands i tc k, t.tfrom = i ∧ t.kind = k := by
  intro t ht
  unfold fracTcTransfers at ht
  obtain ⟨e, _, rfl⟩ := List.mem_map.mp ht
  exact ⟨rfl, rfl⟩

/-- A constant list is grouped. -/
theorem grouped_const : ∀ (xs : List ℕ) (c : ℕ),
    (∀ x ∈ xs, x = c) → grouped xs = true
  | [], _, _ => rfl
  | [_], _, _ => rfl
  | x :: y :: xs, c, h => by
    have hx : x = c := h x (by simp)
    have hy : y = c := h y (by simp)
    simp only [grouped]
    rw [if_pos (hx.trans hy.symm)]
    exact grouped_const (y :: xs) c
      (fun z hz => h z (List.mem_cons_of_mem x hz))

/-- Appending a constant batch with a fresh value keeps a list
grouped. -/
theorem grouped_append_const : ∀ (xs ys : List ℕ) (c : ℕ),
    grouped xs = true → (∀ y ∈ ys, y = c) → c ∉ xs →
    grouped (xs ++ ys) = true
  | [], ys, c, _, hy, _ => grouped_const ys c hy
  | [x], ys, c, _, hy, hc => by
    rcases ys with _ | ⟨y, ys'⟩
    · rfl
    · have hxc : x ≠ c := by
        intro h
        exact hc (h ▸ List.mem_singleton_self x)
      show grouped (x :: y :: ys') = true
      simp only [grouped]
      rw [if_neg (fun h => hxc (h.trans (hy y (by simp))))]
      have hnc : (y :: ys').contains x = false := by
        simpa using fun hmem => hxc (hy x hmem)
      rw [hnc]
      rw [grouped_const (y :: ys') c hy]
      rfl
  | x1 :: x2 :: xs, ys, c, hg, hy, hc => by
    have hc' : c ∉ x2 :: xs := fun h => hc (List.mem_cons_of_mem _ h)
    simp only [grouped] at hg
    show grouped (x1 :: (x2 :: xs ++ ys)) = true
    by_cases h12 : x1 = x2
    · rw [if_pos h12] at hg
      have ih := grouped_append_const (x2 :: xs) ys c hg hy hc'
      simp only [grouped]
      rw [if_pos h12]
      exact ih
    · rw [if_neg h12] at hg
      rw [Bool.and_eq_true, Bool.not_eq_true'] at hg
      have ih := grouped_append_const (x2 :: xs) ys c hg.2 hy hc'
      have hx1c : x1 ≠ c := by
        intro h
        exact hc (h ▸ List.mem_cons_self x1 (x2 :: xs))
      have hx1notin : x1 ∉ x2 :: xs := by
        simpa using hg.1
      have hx1notin2 : x1 ∉ x2 :: xs ++ ys := by
        intro hmem
        rcases List.mem_cons.mp hmem with h | h
        · exact hx1notin (h ▸ List.mem_cons_self x2 xs)
        · rcases List.mem_append.mp h with h | h
          · exact hx1notin (List.mem_cons_of_mem _ h)
          · exact hx1c (hy x1 h)
      simp only [grouped]
      rw [if_neg h12]
      refine (Bool.and_eq_true _ _).mpr ⟨?_, ih⟩
      rw [Bool.not_eq_true']
      simpa using hx1notin2

/-- A name-and-index-preserving upsert does not change the index any
name looks up to. -/
theorem candsGet_idx_candsUpd (cs : List Cand) (n : String)
    (f : Cand → Cand) (hfn : ∀ c, (f c).name = c.name)
    (hfi : ∀ c, (f c).index = c.index) (nm : String) :
    Option.map (fun c => c.index) (candsGet (candsUpd cs n f) nm) =
      Option.map (fun c => c.index) (candsGet cs nm) := by
  by_cases h : nm = n
  · subst h
    rw [candsGet_candsUpd cs nm f hfn]
    cases candsGet cs nm <;> simp [hfi]
  · rw [candsGet_candsUpd_ne cs n nm f hfn (fun he => h he.symm)]

/-- Whole-ballot ballot redistribution does not change the index any
name looks up to. -/
theorem wbTransferBallots_idx (st : WBXfer) (bs : List BState)
    (nm : String) :
    Option.map (fun c => c.index)
      (candsGet (wbTransferBallots st bs).cands nm) =
    Option.map (fun c => c.index) (candsGet st.cands nm) := by
  unfold wbTransferBallots
  refine foldl_inv (fun x : WBXfer =>
    Option.map (fun c => c.index) (candsGet x.cands nm) =
      Option.map (fun c => c.index) (candsGet st.cands nm)) _ ?_ bs st
    rfl
  intro x b h
  dsimp only
  rcases hr : (wbAdvance x.cands b).2 with _ | next
  · simp only [hr]
    exact h
  · simp only [hr]
    refine Eq.trans (candsGet_idx_candsUpd _ _ _ ?_ ?_ nm) h
    · intro c
      rfl
    · intro c
      rfl

/-- The surplus-distribution fold leaves the transfer list alone. -/
theorem fracSurplusFold_transfers (tf : ℚ) (pile : List ℕ)
    (acc : FracAct × List (String × ℚ) × List (ℕ × String)) :
    (pile.foldl (fracSurplusStep tf) acc).1.transfers =
      acc.1.transfers := by
  refine foldl_inv (fun a => a.1.transfers = acc.1.transfers)
    (fracSurplusStep tf) ?_ pile acc rfl
  intro a i h
  unfold fracSurplusStep
  dsimp only
  split
  · exact h
  · split
    · exact h
    · exact h

/-- The surplus-distribution fold leaves the elected log alone. -/
theorem fracSurplusFold_electedL (tf : ℚ) (pile : List ℕ)
    (acc : FracAct × List (String × ℚ) × List (ℕ × String)) :
    (pile.foldl (fracSurplusStep tf) acc).1.electedL =
      acc.1.electedL := by
  refine foldl_inv (fun a => a.1.electedL = acc.1.electedL)
    (fracSurplusStep tf) ?_ pile acc rfl
  intro a i h
  unfold fracSurplusStep
  dsimp only
  split
  · exact h
  · split
    · exact h
    · exact h

/-- The elimination fold leaves the transfer list alone. -/
theorem fracElimFold_transfers (pile : List ℕ)
    (acc : FracAct × List (String × ℚ)) :
    (pile.foldl fracElimStep acc).1.transfers = acc.1.transfers := by
  refine foldl_inv (fun a => a.1.transfers = acc.1.transfers)
    fracElimStep ?_ pile acc rfl
  intro a i h
  unfold fracElimStep
  dsimp only
  split
  · exact h
  · split
    · exact h
    · exact h

/-- The elimination fold leaves the eliminated log alone. -/
theorem fracElimFold_eliminatedL (pile : List ℕ)
    (acc : FracAct × List (String × ℚ)) :
    (pile.foldl fracElimStep acc).1.eliminatedL =
      acc.1.eliminatedL := by
  refine foldl_inv (fun a => a.1.eliminatedL = acc.1.eliminatedL)
    fracElimStep ?_ pile acc rfl
  intro a i h
  unfold fracElimStep
  dsimp only
  split
  · exact h
  · split
    · exact h
    · exact h

/-- One whole-ballot elect step (stamp, redistribute surplus, pin at
quota) keeps the candidate name list. -/
theorem wbElectStep_map_name (cs : List Cand)
    (P : List (String × List BState)) (E : List BState)
    (BS : List BState) (name : String) (quota rn : ℕ) :
    ((candsUpd (wbTransferBallots
      ⟨candsUpd cs name (fun c =>
        { c with status := .elected, roundElected := some rn }),
        P, E, []⟩ BS).cands name
      (fun c => { c with votes := (quota : ℚ) })).map
        (fun c => c.name)) = cs.map (fun c => c.name) := by
  refine Eq.trans (candsUpd_map_name _ _ _ ?_) ?_
  · intro c
    rfl
  refine Eq.trans (wbTransferBallots_map_name ⟨_, _, _, _⟩ _) ?_
  refine candsUpd_map_name _ _ _ ?_
  intro c
  rfl

/-- One whole-ballot elect step does not change the index any name
looks up to. -/
theorem wbElectStep_idx (cs : List Cand)
    (P : List (String × List BState)) (E : List BState)
    (BS : List BState) (name : String) (quota rn : ℕ) (nm : String) :
    Option.map (fun c => c.index) (candsGet (candsUpd (wbTransferBallots
      ⟨candsUpd cs name (fun c =>
        { c with status := .elected, roundElected := some rn }),
        P, E, []⟩ BS).cands name
      (fun c => { c with votes := (quota : ℚ) })) nm) =
    Option.map (fun c => c.index) (candsGet cs nm) := by
  refine Eq.trans (candsGet_idx_candsUpd _ _ _ ?_ ?_ nm) ?_
  · intro c
    rfl
  · intro c
    rfl
  refine Eq.trans (wbTransferBallots_idx ⟨_, _, _, _⟩ _ nm) ?_
  refine candsGet_idx_candsUpd _ _ _ ?_ ?_ nm
  · intro c
    rfl
  · intro c
    rfl

/-- One no-surplus whole-ballot elect step (stamp, pin at quota) keeps
the candidate name list. -/
theorem wbElectStepNS_map_name (cs : List Cand) (name : String)
    (quota rn : ℕ) :
    ((candsUpd (candsUpd cs name (fun c =>
        { c with status := .elected, roundElected := some rn })) name
      (fun c => { c with votes := (quota : ℚ) })).map
        (fun c => c.name)) = cs.map (fun c => c.name) := by
  refine Eq.trans (candsUpd_map_name _ _ _ ?_) ?_
  · intro c
    rfl
  refine candsUpd_map_name _ _ _ ?_
  intro c
  rfl

/-- One no-surplus whole-ballot elect step does not change the index
any name looks up to. -/
theorem wbElectStepNS_idx (cs : List Cand) (name : String)
    (quota rn : ℕ) (nm : String) :
    Option.map (fun c => c.index) (candsGet (candsUpd (candsUpd cs name
      (fun c => { c with status := .elected,
                         roundElected := some rn })) name
      (fun c => { c with votes := (quota : ℚ) })) nm) =
    Option.map (fun c => c.index) (candsGet cs nm) := by
  refine Eq.trans (candsGet_idx_candsUpd _ _ _ ?_ ?_ nm) ?_
  · intro c
    rfl
  · intro c
    rfl
  refine candsGet_idx_candsUpd _ _ _ ?_ ?_ nm
  · intro c
    rfl
  · intro c
    rfl

/-- Pull a lookup back along an index-stability equation. -/
theorem idx_pull {cs' cs : List Cand} {nm : String} {c : Cand}
    (hc : candsGet cs' nm = some c)
    (hstab : Option.map (fun c => c.index) (candsGet cs' nm) =
      Option.map (fun c => c.index) (candsGet cs nm)) :
    ∃ c0, candsGet cs nm = some c0 ∧ c0.index = c.index := by
  rw [hc] at hstab
  rcases hsc : candsGet cs nm with _ | c0
  · rw [hsc] at hstab
    exact absurd hstab (by simp)
  · rw [hsc] at hstab
    simp only [Option.map_some'] at hstab
    exact ⟨c0, rfl, (Option.some.inj hstab).symm⟩

/-- Processing the over-quota candidates emits, per processed source,
one contiguous batch of surplus-tagged transfers from that source's
index, keeping the transfer list grouped by source and every tag
pointing into the elected log. -/
theorem wbProcessElected_transfers :
    ∀ (names : List String) (st : WBAct) (seats quota rn : ℕ),
      (st.cands.map (fun c => c.name)).Nodup →
      names.Nodup →
      (∀ nm ∈ names, ∀ nm' ∈ names, nm ≠ nm' → ∀ c c',
        candsGet st.cands nm = some c →
        candsGet st.cands nm' = some c' → c.index ≠ c'.index) →
      grouped (st.transfers.map (fun t => t.tfrom)) = true →
      (∀ t ∈ st.transfers,
        (t.kind = .surplus → t.tfrom ∈ st.electedL) ∧
        (t.kind = .elimination → t.tfrom ∈ st.eliminatedL)) →
      (∀ t ∈ st.transfers, ∀ nm ∈ names, ∀ c,
        candsGet st.cands nm = some c → t.tfrom ≠ c.index) →
      grouped ((wbProcessElected seats quota rn names st).transfers.map
        (fun t => t.tfrom)) = true ∧
      (∀ t ∈ (wbProcessElected seats quota rn names st).transfers,
        (t.kind = .surplus →
          t.tfrom ∈
            (wbProcessElected seats quota rn names st).electedL) ∧
        (t.kind = .elimination →
          t.tfrom ∈
            (wbProcessElected seats quota rn names st).eliminatedL))
  | [], st, seats, quota, rn, _, _, _, hg, ht, _ => ⟨hg, ht⟩
  | name :: rest, st, seats, quota, rn, hC, hN, hD, hg, ht, hF => by
    simp only [wbProcessElected]
    split
    · exact ⟨hg, ht⟩
    · rcases hget : candsGet st.cands name with _ | elected
      · simp only [hget]
        exact wbProcessElected_transfers rest st seats quota rn hC
          (List.nodup_cons.mp hN).2
          (fun nm h1 nm' h2 hne => hD nm (List.mem_cons_of_mem _ h1)
            nm' (List.mem_cons_of_mem _ h2) hne)
          hg ht
          (fun t htm nm h1 => hF t htm nm (List.mem_cons_of_mem _ h1))
      · simp only [hget]
        have hname_ne : ∀ nm ∈ rest, name ≠ nm := by
          intro nm h1 heq
          exact (List.nodup_cons.mp hN).1 (heq ▸ h1)
        by_cases hs : (0 : ℤ) < jround (elected.votes - (quota : ℚ)) ∧
            (st.winners ++ [elected.index]).length < seats
        · rw [if_pos hs]
          dsimp only
          refine wbProcessElected_transfers rest _ seats quota rn ?_
            (List.nodup_cons.mp hN).2 ?_ ?_ ?_ ?_
          · dsimp only
            rw [wbElectStep_map_name]
            exact hC
          · dsimp only
            intro nm h1 nm' h2 hne c c' hc hc'
            obtain ⟨c0, hc0, hi0⟩ := idx_pull hc
              (wbElectStep_idx _ _ _ _ _ _ _ nm)
            obtain ⟨c0', hc0', hi0'⟩ := idx_pull hc'
              (wbElectStep_idx _ _ _ _ _ _ _ nm')
            have hne0 := hD nm (List.mem_cons_of_mem _ h1) nm'
              (List.mem_cons_of_mem _ h2) hne c0 c0' hc0 hc0'
            rw [hi0, hi0'] at hne0
            exact hne0
          · dsimp only
            rw [List.map_append]
            refine grouped_append_const _ _ elected.index hg ?_ ?_
            · intro y hy
              obtain ⟨tt, htt, rfl⟩ := List.mem_map.mp hy
              exact (wbTcTransfers_mem _ _ _ _ tt htt).1
            · intro hmem
              obtain ⟨tt, htt, heq⟩ := List.mem_map.mp hmem
              exact hF tt htt name (List.mem_cons_self _ _) elected hget
                heq
          · dsimp only
            intro t htm
            rcases List.mem_append.mp htm with hold | hnew
            · constructor
              · intro hk
                exact List.mem_append_left _ ((ht t hold).1 hk)
              · intro hk
                exact (ht t hold).2 hk
            · have hb := wbTcTransfers_mem _ _ _ _ t hnew
              constructor
              · intro _
                rw [hb.1]
                exact List.mem_append_right _ (List.mem_singleton_self _)
              · intro hk
                rw [hb.2] at hk
                simp at hk
          · dsimp only
            intro t htm nm h1 c hc
            obtain ⟨c0, hc0, hi0⟩ := idx_pull hc
              (wbElectStep_idx _ _ _ _ _ _ _ nm)
            rw [← hi0]
            rcases List.mem_append.mp htm with hold | hnew
            · exact hF t hold nm (List.mem_cons_of_mem _ h1) c0 hc0
            · have hb := wbTcTransfers_mem _ _ _ _ t hnew
              rw [hb.1]
              exact hD name (List.mem_cons_self _ _) nm
                (List.mem_cons_of_mem _ h1) (hname_ne nm h1) elected c0
                hget hc0
        · rw [if_neg hs]
          dsimp only
          refine wbProcessElected_transfers rest _ seats quota rn ?_
            (List.nodup_cons.mp hN).2 ?_ ?_ ?_ ?_
          · dsimp only
            rw [wbElectStepNS_map_name]
            exact hC
          · dsimp only
            intro nm h1 nm' h2 hne c c' hc hc'
            obtain ⟨c0, hc0, hi0⟩ := idx_pull hc
              (wbElectStepNS_idx _ _ _ _ nm)
            obtain ⟨c0', hc0', hi0'⟩ := idx_pull hc'
              (wbElectStepNS_idx _ _ _ _ nm')
            have hne0 := hD nm (List.mem_cons_of_mem _ h1) nm'
              (List.mem_cons_of_mem _ h2) hne c0 c0' hc0 hc0'
            rw [hi0, hi0'] at hne0
            exact hne0
          · exact hg
          · dsimp only
            intro t htm
            constructor
            · intro hk
              exact List.mem_append_left _ ((ht t htm).1 hk)
            · intro hk
              exact (ht t htm).2 hk
          · dsimp only
            intro t htm nm h1 c hc
            obtain ⟨c0, hc0, hi0⟩ := idx_pull hc
              (wbElectStepNS_idx _ _ _ _ nm)
            rw [← hi0]
            exact hF t htm nm (List.mem_cons_of_mem _ h1) c0 hc0

/-- The transfers of one whole-ballot round action are grouped by
source index and correctly tagged. -/
theorem wbAction_transfers (s : WBState)
    (hC : (s.cands.map (fun c => c.name)).Nodup)
    (hI : (s.cands.map (fun c => c.index)).Nodup) :
    grouped ((wbAction s).transfers.map (fun t => t.tfrom)) = true ∧
    (∀ t ∈ (wbAction s).transfers,
      (t.kind = .surplus → t.tfrom ∈ (wbAction s).electedL) ∧
      (t.kind = .elimination →
        t.tfrom ∈ (wbAction s).eliminatedL)) := by
  have hinj := List.inj_on_of_nodup_map hI
  unfold wbAction
  dsimp only
  split
  · have hperm := List.mergeSort_perm
      ((s.cands.filter (fun c => c.status = .active)).filter
        (fun c => (s.quota : ℚ) ≤ c.votes)) voteDescLe
    have hsub : (((s.cands.filter (fun c => c.status = .active)).filter
        (fun c => (s.quota : ℚ) ≤ c.votes)).map
          (fun c => c.name)).Nodup := by
      refine List.Nodup.sublist ?_ hC
      have h1 : ((s.cands.filter (fun c => c.status = .active)).filter
          (fun c => (s.quota : ℚ) ≤ c.votes)).Sublist s.cands :=
        (List.filter_sublist _).trans (List.filter_sublist _)
      exact h1.map (fun c => c.name)
    refine wbProcessElected_transfers _ ⟨_, _, _, _, _, _, _⟩ _ _ _ hC
      ?_ ?_ rfl ?_ ?_
    · exact ((hperm.map (fun c => c.name)).nodup_iff).mpr hsub
    · intro nm h1 nm' h2 hne c c' hc hc' heq
      have hcm := List.mem_of_find?_eq_some hc
      have hcm' := List.mem_of_find?_eq_some hc'
      have hcn : c.name = nm := by
        have := List.find?_some hc
        simpa using this
      have hcn' : c'.name = nm' := by
        have := List.find?_some hc'
        simpa using this
      have : c = c' := hinj hcm hcm' heq
      rw [this, hcn'] at hcn
      exact hne hcn.symm
    · intro t htm
      exact absurd htm (List.not_mem_nil t)
    · intro t htm
      exact absurd htm (List.not_mem_nil t)
  · unfold wbEliminate
    dsimp only
    split
    · exact ⟨rfl, fun t htm => absurd htm (List.not_mem_nil t)⟩
    · next eliminated helim =>
      constructor
      · refine grouped_const _ eliminated.index ?_
        intro y hy
        obtain ⟨tt, htt, rfl⟩ := List.mem_map.mp hy
        rcases List.mem_append.mp htt with h | h
        · exact absurd h (List.not_mem_nil tt)
        · exact (wbTcTransfers_mem _ _ _ _ tt h).1
      · intro t htm
        rcases List.mem_append.mp htm with h | h
        · exact absurd h (List.not_mem_nil t)
        · have hb := wbTcTransfers_mem _ _ _ _ t h
          constructor
          · intro hk
            rw [hb.2] at hk
            simp at hk
          · intro _
            rw [hb.1]
            exact List.mem_append_right _ (List.mem_singleton_self _)

/-- The transfers of one fractional election are one surplus-tagged
batch from the elected candidate. -/
theorem fracElect_transfers (seats quota rn : ℕ) (name : String)
    (st : FracAct) (h0 : st.transfers = []) :
    grouped ((fracElect seats quota rn name st).transfers.map
      (fun t => t.tfrom)) = true ∧
    (∀ tr ∈ (fracElect seats quota rn name st).transfers,
      (tr.kind = .surplus →
        tr.tfrom ∈ (fracElect seats quota rn name st).electedL) ∧
      (tr.kind = .elimination →
        tr.tfrom ∈ (fracElect seats quota rn name st).eliminatedL)) := by
  unfold fracElect
  dsimp only
  split
  · refine ⟨by rw [h0]; rfl, ?_⟩
    intro tr htm
    rw [h0] at htm
    exact absurd htm (List.not_mem_nil tr)
  · next elected hget =>
    split
    · dsimp only
      constructor
      · rw [fracSurplusFold_transfers]
        dsimp only
        rw [h0]
        refine grouped_const _ elected.index ?_
        intro y hy
        obtain ⟨tt, htt, rfl⟩ := List.mem_map.mp hy
        rcases List.mem_append.mp htt with h | h
        · exact absurd h (List.not_mem_nil tt)
        · exact (fracTcTransfers_mem _ _ _ _ tt h).1
      · intro tr htm
        rw [fracSurplusFold_transfers] at htm
        dsimp only at htm
        rw [h0] at htm
        rcases List.mem_append.mp htm with h | h
        · exact absurd h (List.not_mem_nil tr)
        · have hb := fracTcTransfers_mem _ _ _ _ tr h
          constructor
          · intro _
            rw [hb.1]
            rw [fracSurplusFold_electedL]
            dsimp only
            exact List.mem_append_right _ (List.mem_singleton_self _)
          · intro hk
            rw [hb.2] at hk
            simp at hk
    · refine ⟨by dsimp only; rw [h0]; rfl, ?_⟩
      intro tr htm
      dsimp only at htm
      rw [h0] at htm
      exact absurd htm (List.not_mem_nil tr)

/-- The transfers of one fractional elimination are one
elimination-tagged batch from the eliminated candidate. -/
theorem fracEliminate_transfers (rn : ℕ) (st : FracAct)
    (h0 : st.transfers = []) :
    grouped ((fracEliminate rn st).transfers.map
      (fun t => t.tfrom)) = true ∧
    (∀ tr ∈ (fracEliminate rn st).transfers,
      (tr.kind = .surplus →
        tr.tfrom ∈ (fracEliminate rn st).electedL) ∧
      (tr.kind = .elimination →
        tr.tfrom ∈ (fracEliminate rn st).eliminatedL)) := by
  unfold fracEliminate
  dsimp only
  split
  · refine ⟨by rw [h0]; rfl, ?_⟩
    intro tr htm
    rw [h0] at htm
    exact absurd htm (List.not_mem_nil tr)
  · next eliminated helim =>
    constructor
    · rw [fracElimFold_transfers]
      dsimp only
      rw [h0]
      refine grouped_const _ eliminated.index ?_
      intro y hy
      obtain ⟨tt, htt, rfl⟩ := List.mem_map.mp hy
      rcases List.mem_append.mp htt with h | h
      · exact absurd h (List.not_mem_nil tt)
      · exact (fracTcTransfers_mem _ _ _ _ tt h).1
    · intro tr htm
      rw [fracElimFold_transfers] at htm
      dsimp only at htm
      rw [h0] at htm
      rcases List.mem_append.mp htm with h | h
      · exact absurd h (List.not_mem_nil tr)
      · have hb := fracTcTransfers_mem _ _ _ _ tr h
        constructor
        · intro hk
          rw [hb.2] at hk
          simp at hk
        · intro _
          rw [hb.1]
          rw [fracElimFold_eliminatedL]
          dsimp only
          exact List.mem_append_right _ (List.mem_singleton_self _)

/-- The transfers of one fractional round action are a single batch,
grouped and correctly tagged. -/
theorem fracAction_transfers (t : FracState) :
    grouped ((fracAction t).transfers.map (fun tr => tr.tfrom)) =
      true ∧
    (∀ tr ∈ (fracAction t).transfers,
      (tr.kind = .surplus → tr.tfrom ∈ (fracAction t).electedL) ∧
      (tr.kind = .elimination →
        tr.tfrom ∈ (fracAction t).eliminatedL)) := by
  unfold fracAction
  dsimp only
  split
  · exact fracElect_transfers _ _ _ _ ⟨_, _, _, _, _, _, _, _, _⟩ rfl
  · exact fracEliminate_transfers _ ⟨_, _, _, _, _, _, _, _, _⟩ rfl

/-- C7: in every round record of either engine the transfers are
grouped by source: each electing or eliminating candidate contributes
one contiguous batch from its index (in processing order), and each
transfer's tag matches its source (surplus tags point into the record's
elected list, elimination tags into its eliminated list).  Destinations
within a batch follow first-receipt order, not index order. -/
theorem c7_transfer_tags_grouped :
    (∀ s : WBState,
      (s.cands.map (fun c => c.name)).Nodup →
      (s.cands.map (fun c => c.index)).Nodup →
      tagsOk (wbRound0 s) ∧
      grouped ((wbRound0 s).transfers.map (fun t => t.tfrom)) = true) ∧
    (∀ t : FracState,
      tagsOk (fracRound0 t) ∧
      grouped ((fracRound0 t).transfers.map (fun tr => tr.tfrom)) =
        true) ∧
    (∀ (t : FracState) (cv : ℚ) (el : List ℕ),
      tagsOk (fracFinalRound t cv el) ∧
      grouped ((fracFinalRound t cv el).transfers.map
        (fun tr => tr.tfrom)) = true) := by
  refine ⟨?_, ?_, ?_⟩
  · intro s hC hI
    obtain ⟨hg, ht⟩ := wbAction_transfers s hC hI
    constructor
    · intro tr htm
      have htm' : tr ∈ (wbAction s).transfers := htm
      constructor
      · intro hk
        have hm := (ht tr htm').1 hk
        show tr.tfrom ∈ (if (wbAction s).electedL.length ≠ 0 then
          some (wbAction s).electedL else none).getD []
        have hne := List.ne_nil_of_mem hm
        rw [if_pos (fun h0 => hne (List.length_eq_zero.mp h0))]
        simpa using hm
      · intro hk
        have hm := (ht tr htm').2 hk
        show tr.tfrom ∈ (if (wbAction s).eliminatedL.length ≠ 0 then
          some (wbAction s).eliminatedL else none).getD []
        have hne := List.ne_nil_of_mem hm
        rw [if_pos (fun h0 => hne (List.length_eq_zero.mp h0))]
        simpa using hm
    · exact hg
  · intro t
    obtain ⟨hg, ht⟩ := fracAction_transfers t
    constructor
    · intro tr htm
      have htm' : tr ∈ (fracAction t).transfers := htm
      constructor
      · intro hk
        have hm := (ht tr htm').1 hk
        show tr.tfrom ∈ (if (fracAction t).electedL.length ≠ 0 then
          some (fracAction t).electedL else none).getD []
        have hne := List.ne_nil_of_mem hm
        rw [if_pos (fun h0 => hne (List.length_eq_zero.mp h0))]
        simpa using hm
      · intro hk
        have hm := (ht tr htm').2 hk
        show tr.tfrom ∈ (if (fracAction t).eliminatedL.length ≠ 0 then
          some (fracAction t).eliminatedL else none).getD []
        have hne := List.ne_nil_of_mem hm
        rw [if_pos (fun h0 => hne (List.length_eq_zero.mp h0))]
        simpa using hm
    · exact hg
  · intro t cv el
    constructor
    · intro tr htm
      exact absurd htm (List.not_mem_nil tr)
    · rfl

/-- C7 witness: on Scenario S2's initial state the round record's
transfers are grouped and tagged as proved. -/
theorem c7_witness :
    ((wbInit s2ballots 2 ["A", "B", "C", "D"]).cands.map
      (fun c => c.name)).Nodup ∧
    ((wbInit s2ballots 2 ["A", "B", "C", "D"]).cands.map
      (fun c => c.index)).Nodup ∧
    (tagsOk (wbRound0 (wbInit s2ballots 2 ["A", "B", "C", "D"])) ∧
      grouped ((wbRound0 (wbInit s2ballots 2
        ["A", "B", "C", "D"])).transfers.map (fun t => t.tfrom)) =
          true) :=
  ⟨by with_unfolding_all decide, by with_unfolding_all decide,
    c7_transfer_tags_grouped.1 (wbInit s2ballots 2 ["A", "B", "C", "D"])
      (by with_unfolding_all decide) (by with_unfolding_all decide)⟩

/-- An index-preserving upsert keeps the candidate index list. -/
theorem candsUpd_map_index (cs : List Cand) (n : String)
    (f : Cand → Cand) (hf : ∀ c, (f c).index = c.index) :
    (candsUpd cs n f).map (fun c => c.index) =
      cs.map (fun c => c.index) := by
  induction cs with
  | nil => rfl
  | cons c cs ih =>
    simp only [candsUpd, List.map_cons] at *
    rw [ih]
    by_cases hc : c.name = n
    · rw [if_pos hc, hf c]
    · rw [if_neg hc]

/-- Whole-ballot redistribution keeps the candidate index list. -/
theorem wbTransferBallots_map_index (st : WBXfer) (l : List BState) :
    (wbTransferBallots st l).cands.map (fun c => c.index) =
      st.cands.map (fun c => c.index) := by
  unfold wbTransferBallots
  refine foldl_inv (fun x : WBXfer =>
    x.cands.map (fun c => c.index) =
      st.cands.map (fun c => c.index)) _ ?_ l st rfl
  intro x b h
  dsimp only
  rcases hr : (wbAdvance x.cands b).2 with _ | next
  · simp only [hr]
    exact h
  · simp only [hr]
    refine Eq.trans (candsUpd_map_index _ _ _ ?_) h
    intro c
    rfl

/-- Processing the elected candidates keeps the candidate index
list. -/
theorem wbProcessElected_map_index (seats quota rn : ℕ) :
    ∀ (names : List String) (st : WBAct),
      (wbProcessElected seats quota rn names st).cands.map
        (fun c => c.index) = st.cands.map (fun c => c.index)
  | [], st => rfl
  | name :: rest, st => by
    simp only [wbProcessElected]
    split
    · rfl
    · rcases hget : candsGet st.cands name with _ | elected
      · simp only [hget]
        exact wbProcessElected_map_index seats quota rn rest st
      · simp only [hget]
        rw [wbProcessElected_map_index seats quota rn rest _]
        split
        · dsimp only
          refine Eq.trans (candsUpd_map_index _ _ _ ?_) ?_
          · intro c
            rfl
          refine Eq.trans (wbTransferBallots_map_index ⟨_, _, _, _⟩ _) ?_
          refine candsUpd_map_index _ _ _ ?_
          intro c
          rfl
        · refine Eq.trans (candsUpd_map_index _ _ _ ?_) ?_
          · intro c
            rfl
          refine candsUpd_map_index _ _ _ ?_
          intro c
          rfl

/-- Elimination keeps the candidate index list. -/
theorem wbEliminate_map_index (rn : ℕ) (st : WBAct) :
    (wbEliminate rn st).cands.map (fun c => c.index) =
      st.cands.map (fun c => c.index) := by
  unfold wbEliminate
  dsimp only
  split
  · rfl
  · refine Eq.trans (candsUpd_map_index _ _ _ ?_) ?_
    · intro c
      rfl
    refine Eq.trans (wbTransferBallots_map_index ⟨_, _, _, _⟩ _) ?_
    refine candsUpd_map_index _ _ _ ?_
    intro c
    rfl

/-- The whole-ballot round action keeps the candidate index list. -/
theorem wbAction_map_index (s : WBState) :
    (wbAction s).cands.map (fun c => c.index) =
      s.cands.map (fun c => c.index) := by
  unfold wbAction
  dsimp only
  split
  · exact wbProcessElected_map_index _ _ _ _ ⟨_, _, _, _, _, _, _⟩
  · exact wbEliminate_map_index _ ⟨_, _, _, _, _, _, _⟩

/-- The whole-ballot fill-by-default loop keeps the candidate index
list. -/
theorem wbFillElect_map_index :
    ∀ (names : List String) (s : WBState),
      (wbFillElect names s).cands.map (fun c => c.index) =
        s.cands.map (fun c => c.index)
  | [], _ => rfl
  | name :: rest, s => by
    simp only [wbFillElect]
    split
    · rfl
    · rcases hg : candsGet s.cands name with _ | c
      · simp only [hg]
        exact wbFillElect_map_index rest s
      · simp only [hg]
        rw [wbFillElect_map_index rest _]
        dsimp only
        refine candsUpd_map_index _ _ _ ?_
        intro c0
        rfl

/-- A surplus-distribution ballot step keeps the candidate index
list. -/
theorem fracSurplusStep_map_index (tf : ℚ)
    (acc : FracAct × List (String × ℚ) × List (ℕ × String)) (id : ℕ) :
    (fracSurplusStep tf acc id).1.cands.map (fun c => c.index) =
      acc.1.cands.map (fun c => c.index) := by
  unfold fracSurplusStep
  dsimp only
  split
  · rfl
  · split
    · refine candsUpd_map_index _ _ _ ?_
      intro c
      rfl
    · rfl

/-- Fold form of `fracSurplusStep_map_index`. -/
theorem fracSurplusFold_map_index (tf : ℚ) (pile : List ℕ)
    (acc : FracAct × List (String × ℚ) × List (ℕ × String)) :
    (pile.foldl (fracSurplusStep tf) acc).1.cands.map
      (fun c => c.index) = acc.1.cands.map (fun c => c.index) := by
  refine foldl_inv (fun a => a.1.cands.map (fun c => c.index) =
      acc.1.cands.map (fun c => c.index)) (fracSurplusStep tf) ?_ pile
    acc rfl
  intro a i h
  rw [fracSurplusStep_map_index]
  exact h

/-- An elimination ballot step keeps the candidate index list. -/
theorem fracElimStep_map_index (acc : FracAct × List (String × ℚ))
    (id : ℕ) :
    (fracElimStep acc id).1.cands.map (fun c => c.index) =
      acc.1.cands.map (fun c => c.index) := by
  unfold fracElimStep
  dsimp only
  split
  · rfl
  · split
    · refine candsUpd_map_index _ _ _ ?_
      intro c
      rfl
    · rfl

/-- Fold form of `fracElimStep_map_index`. -/
theorem fracElimFold_map_index (pile : List ℕ)
    (acc : FracAct × List (String × ℚ)) :
    (pile.foldl fracElimStep acc).1.cands.map (fun c => c.index) =
      acc.1.cands.map (fun c => c.index) := by
  refine foldl_inv (fun a => a.1.cands.map (fun c => c.index) =
      acc.1.cands.map (fun c => c.index)) fracElimStep ?_ pile acc rfl
  intro a i h
  rw [fracElimStep_map_index]
  exact h

/-- Electing in the fractional engine keeps the candidate index list. -/
theorem fracElect_map_index (seats quota rn : ℕ) (name : String)
    (st : FracAct) :
    (fracElect seats quota rn name st).cands.map (fun c => c.index) =
      st.cands.map (fun c => c.index) := by
  unfold fracElect
  dsimp only
  split
  · rfl
  · refine Eq.trans (candsUpd_map_index _ _ _ ?_) ?_
    · intro c
      rfl
    · split
      · dsimp only
        refine Eq.trans (fracSurplusFold_map_index _ _ _) ?_
        refine candsUpd_map_index _ _ _ ?_
        intro c
        rfl
      · refine candsUpd_map_index _ _ _ ?_
        intro c
        rfl

/-- Eliminating in the fractional engine keeps the candidate index
list. -/
theorem fracEliminate_map_index (rn : ℕ) (st : FracAct) :
    (fracEliminate rn st).cands.map (fun c => c.index) =
      st.cands.map (fun c => c.index) := by
  unfold fracEliminate
  dsimp only
  split
  · rfl
  · refine Eq.trans (candsUpd_map_index _ _ _ ?_) ?_
    · intro c
      rfl
    · refine Eq.trans (fracElimFold_map_index _ _) ?_
      refine candsUpd_map_index _ _ _ ?_
      intro c
      rfl

/-- The fractional round action keeps the candidate index list. -/
theorem fracAction_map_index (s : FracState) :
    (fracAction s).cands.map (fun c => c.index) =
      s.cands.map (fun c => c.index) := by
  unfold fracAction
  dsimp only
  split
  · exact fracElect_map_index _ _ _ _ ⟨_, _, _, _, _, _, _, _, _⟩
  · exact fracEliminate_map_index _ ⟨_, _, _, _, _, _, _, _, _⟩

/-- The fractional fill-by-default loop keeps the candidate index
list. -/
theorem fracFillElect_map_index :
    ∀ (names : List String) (s : FracState),
      (fracFillElect names s).cands.map (fun c => c.index) =
        s.cands.map (fun c => c.index)
  | [], _ => rfl
  | name :: rest, s => by
    simp only [fracFillElect]
    split
    · rfl
    · rcases hg : candsGet s.cands name with _ | c
      · simp only [hg]
        exact fracFillElect_map_index rest s
      · simp only [hg]
        rw [fracFillElect_map_index rest _]
        dsimp only
        refine candsUpd_map_index _ _ _ ?_
        intro c0
        rfl

/-- Source of an entry of an upserted candidate list. -/
theorem candsUpd_mem_src (cs : List Cand) (n : String) (f : Cand → Cand)
    (c' : Cand) (h : c' ∈ candsUpd cs n f) :
    ∃ c ∈ cs, (c.name = n ∧ c' = f c) ∨ (c.name ≠ n ∧ c' = c) := by
  unfold candsUpd at h
  obtain ⟨c, hc, heq⟩ := List.mem_map.mp h
  by_cases hn : c.name = n
  · rw [if_pos hn] at heq
    exact ⟨c, hc, Or.inl ⟨hn, heq.symm⟩⟩
  · rw [if_neg hn] at heq
    exact ⟨c, hc, Or.inr ⟨hn, heq.symm⟩⟩

/-- Every entry of the initial candidate map carries one of the input
enumeration pairs as its index and name. -/
theorem initCands_fold_pairs (ns : List String) :
    ∀ (l : List (ℕ × String)) (acc : List Cand),
      (∀ e ∈ l, e ∈ ns.enum) →
      (∀ c ∈ acc, ((c.index, c.name) : ℕ × String) ∈ ns.enum) →
      ∀ c ∈ (l.foldl (fun acc e =>
        (if acc.any (fun c => c.name = e.2) then
          acc.map (fun c => if c.name = e.2 then mkCand e.1 e.2 else c)
        else acc ++ [mkCand e.1 e.2])) acc),
        ((c.index, c.name) : ℕ × String) ∈ ns.enum
  | [], _, _, hacc => hacc
  | e :: l, acc, hl, hacc => by
    rw [List.foldl_cons]
    refine initCands_fold_pairs ns l _
      (fun e' he' => hl e' (List.mem_cons_of_mem _ he')) ?_
    intro c hc
    by_cases hany : acc.any (fun c => c.name = e.2) = true
    · rw [if_pos hany] at hc
      obtain ⟨c0, hc0, rfl⟩ := List.mem_map.mp hc
      by_cases hcn : c0.name = e.2
      · rw [if_pos hcn]
        exact hl e (List.mem_cons_self e l)
      · rw [if_neg hcn]
        exact hacc c0 hc0
    · rw [if_neg hany] at hc
      rcases List.mem_append.mp hc with h | h
      · exact hacc c h
      · rw [List.mem_singleton] at h
        subst h
        exact hl e (List.mem_cons_self e l)

/-- Index/name pairs of the initial candidate map come from the input
enumeration. -/
theorem initCands_pairs (ns : List String) :
    ∀ c ∈ initCands ns, ((c.index, c.name) : ℕ × String) ∈ ns.enum :=
  initCands_fold_pairs ns ns.enum [] (fun e he => he)
    (fun c hc => absurd hc (List.not_mem_nil c))

/-- The initial candidate map has pairwise distinct indexes. -/
theorem initCands_index_nodup (ns : List String) :
    ((initCands ns).map (fun c => c.index)).Nodup := by
  refine List.Nodup.map_on ?_ (List.Nodup.of_map _ (initCands_nodup ns))
  intro x hx y hy hxy
  have hpx := List.mem_enum (initCands_pairs ns x hx)
  have hpy := List.mem_enum (initCands_pairs ns y hy)
  have hxe : x.name = ns.get ⟨x.index, hpx.1⟩ := hpx.2
  have hye : y.name = ns.get ⟨y.index, hpy.1⟩ := hpy.2
  simp only [hxy] at hxe
  have hname : x.name = y.name := hxe.trans hye.symm
  exact List.inj_on_of_nodup_map (initCands_nodup ns) hx hy hname

/-- A property of fresh entries that survives replacement holds of every
entry of the candidate-map build. -/
theorem initCands_fold_pred (Pc : Cand → Prop)
    (hmk : ∀ i n, Pc (mkCand i n)) :
    ∀ (l : List (ℕ × String)) (acc : List Cand),
      (∀ c ∈ acc, Pc c) →
      ∀ c ∈ (l.foldl (fun acc e =>
        (if acc.any (fun c => c.name = e.2) then
          acc.map (fun c => if c.name = e.2 then mkCand e.1 e.2 else c)
        else acc ++ [mkCand e.1 e.2])) acc), Pc c
  | [], _, hacc => hacc
  | e :: l, acc, hacc => by
    rw [List.foldl_cons]
    refine initCands_fold_pred Pc hmk l _ ?_
    intro c hc
    by_cases hany : acc.any (fun c => c.name = e.2) = true
    · rw [if_pos hany] at hc
      obtain ⟨c0, hc0, rfl⟩ := List.mem_map.mp hc
      by_cases hcn : c0.name = e.2
      · rw [if_pos hcn]
        exact hmk e.1 e.2
      · rw [if_neg hcn]
        exact hacc c0 hc0
    · rw [if_neg hany] at hc
      rcases List.mem_append.mp hc with h | h
      · exact hacc c h
      · rw [List.mem_singleton] at h
        subst h
        exact hmk e.1 e.2

/-- No entry of the initial candidate map has an election record. -/
theorem initCands_rdE (ns : List String) :
    ∀ c ∈ initCands ns, c.roundElected = none :=
  initCands_fold_pred (fun c => c.roundElected = none)
    (fun _ _ => rfl) ns.enum []
    (fun c hc => absurd hc (List.not_mem_nil c))

/-- The whole-ballot initial state keeps the initial candidate
indexes. -/
theorem wbInit_map_index (ballots : List Ballot) (seats : ℕ)
    (names : List String) :
    (wbInit ballots seats names).cands.map (fun c => c.index) =
      (initCands names).map (fun c => c.index) := by
  unfold wbInit
  dsimp only
  apply foldl_inv (fun s : WBState =>
    s.cands.map (fun c => c.index) =
      (initCands names).map (fun c => c.index))
  · intro s b hs
    rcases hr : (wbGetCurrentChoice s.cands b).2 with _ | c
    · simp only [hr]
      exact hs
    · simp only [hr]
      refine Eq.trans (candsUpd_map_index _ _ _ ?_) hs
      intro c0
      rfl
  · rfl

/-- No candidate of the whole-ballot initial state has an election
record. -/
theorem wbInit_rdE (ballots : List Ballot) (seats : ℕ)
    (names : List String) :
    ∀ c ∈ (wbInit ballots seats names).cands,
      c.roundElected = none := by
  unfold wbInit
  dsimp only
  apply foldl_inv (fun s : WBState =>
    ∀ c ∈ s.cands, c.roundElected = none)
  · intro s b hs
    rcases hr : (wbGetCurrentChoice s.cands b).2 with _ | ch
    · simp only [hr]
      exact hs
    · simp only [hr]
      intro c hc
      obtain ⟨c0, hc0, hor⟩ := candsUpd_mem_src _ _ _ c hc
      rcases hor with ⟨hn, heq⟩ | ⟨hn, heq⟩ <;>
        · rw [heq]
          exact hs c0 hc0
  · exact initCands_rdE names

/-- The fractional initial state keeps the initial candidate indexes. -/
theorem fracInit_map_index (ballots : List Ballot) (seats : ℕ)
    (names : List String) (tq : Option ℕ) :
    (fracInit ballots seats names tq).cands.map (fun c => c.index) =
      (initCands names).map (fun c => c.index) := by
  unfold fracInit
  dsimp only
  apply foldl_inv (fun s : FracState =>
    s.cands.map (fun c => c.index) =
      (initCands names).map (fun c => c.index))
  · intro s id hs
    rcases hr : s.store.get? id with _ | b
    · simp only [hr]
      exact hs
    · simp only [hr]
      split
      · refine Eq.trans (candsUpd_map_index _ _ _ ?_) hs
        intro c0
        rfl
      · exact hs
  · rfl

/-- No candidate of the fractional initial state has an election
record. -/
theorem fracInit_rdE (ballots : List Ballot) (seats : ℕ)
    (names : List String) (tq : Option ℕ) :
    ∀ c ∈ (fracInit ballots seats names tq).cands,
      c.roundElected = none := by
  unfold fracInit
  dsimp only
  apply foldl_inv (fun s : FracState =>
    ∀ c ∈ s.cands, c.roundElected = none)
  · intro s id hs
    rcases hr : s.store.get? id with _ | b
    · simp only [hr]
      exact hs
    · simp only [hr]
      split
      · intro c hc
        obtain ⟨c0, hc0, hor⟩ := candsUpd_mem_src _ _ _ c hc
        rcases hor with ⟨hn, heq⟩ | ⟨hn, heq⟩ <;>
          · rw [heq]
            exact hs c0 hc0
      · exact hs
  · exact initCands_rdE names

/-- The whole-ballot choice search stops only on a still-active
candidate. -/
theorem wbFindChoice_active (cands : List Cand) (rs : List String) :
    ∀ (n i : ℕ), rs.length - i ≤ n →
      ∀ r, rs.get? (wbFindChoice cands rs i) = some r →
        statusOf cands r = some .active := by
  intro n
  induction n with
  | zero =>
    intro i hle r hr
    have heq : wbFindChoice cands rs i = i := by
      unfold wbFindChoice
      rw [dif_neg (by omega)]
    rw [heq] at hr
    have h2 : rs.get? i = none := List.get?_eq_none.mpr (by omega)
    rw [h2] at hr
    cases hr
  | succ n ih =>
    intro i hle r hr
    by_cases hlt : i < rs.length
    · by_cases hact : statusOf cands (rs.get ⟨i, hlt⟩) = some .active
      · have heq : wbFindChoice cands rs i = i := by
          unfold wbFindChoice
          rw [dif_pos hlt, if_pos hact]
        rw [heq] at hr
        rw [List.get?_eq_get hlt] at hr
        have hrr := Option.some.inj hr
        rw [← hrr]
        exact hact
      · have heq : wbFindChoice cands rs i =
            wbFindChoice cands rs (i + 1) := by
          conv_lhs => rw [wbFindChoice]
          rw [dif_pos hlt, if_neg hact]
        rw [heq] at hr
        exact ih (i + 1) (by omega) r hr
    · have heq : wbFindChoice cands rs i = i := by
        unfold wbFindChoice
        rw [dif_neg hlt]
      rw [heq] at hr
      have h2 : rs.get? i = none := List.get?_eq_none.mpr (by omega)
      rw [h2] at hr
      cases hr

/-- Whole-ballot `getCurrentChoice` yields only still-active
candidates. -/
theorem wbChoice_active (cands : List Cand) (b : BState) (r : String)
    (h : (wbGetCurrentChoice cands b).2 = some r) :
    statusOf cands r = some .active := by
  unfold wbGetCurrentChoice at h
  dsimp only at h
  split at h
  · next hlt =>
    have hs := wbFindChoice_active cands b.originalRankings
      (b.originalRankings.length - b.currentIndex) b.currentIndex
      (le_refl _) r
    refine hs ?_
    rw [List.get?_eq_get hlt]
    rw [Option.some.inj h]
  · cases h

/-- The fractional choice search (skipping elected and unknown names)
stops only on a still-active candidate. -/
theorem fracFindChoice_post (cands : List Cand) (rs : List String) :
    ∀ (n i : ℕ), rs.length - i ≤ n →
      ∀ r, rs.get? (fracFindChoice cands rs i true) = some r →
        statusOf cands r = some .active := by
  intro n
  induction n with
  | zero =>
    intro i hle r hr
    have heq : fracFindChoice cands rs i true = i := by
      unfold fracFindChoice
      rw [dif_neg (by omega)]
    rw [heq] at hr
    have h2 : rs.get? i = none := List.get?_eq_none.mpr (by omega)
    rw [h2] at hr
    cases hr
  | succ n ih =>
    intro i hle r hr
    by_cases hlt : i < rs.length
    · by_cases h1 : statusOf cands (rs.get ⟨i, hlt⟩) = some .eliminated
      · have heq : fracFindChoice cands rs i true =
            fracFindChoice cands rs (i + 1) true := by
          conv_lhs => rw [fracFindChoice]
          rw [dif_pos hlt]
          dsimp only
          rw [if_pos h1]
        rw [heq] at hr
        exact ih (i + 1) (by omega) r hr
      · by_cases h2 : statusOf cands (rs.get ⟨i, hlt⟩) = some .elected
        · have heq : fracFindChoice cands rs i true =
              fracFindChoice cands rs (i + 1) true := by
            conv_lhs => rw [fracFindChoice]
            rw [dif_pos hlt]
            dsimp only
            rw [if_neg h1, if_pos ⟨h2, rfl⟩]
          rw [heq] at hr
          exact ih (i + 1) (by omega) r hr
        · by_cases h3 : statusOf cands (rs.get ⟨i, hlt⟩) = some .active
          · have heq : fracFindChoice cands rs i true = i := by
              conv_lhs => rw [fracFindChoice]
              rw [dif_pos hlt]
              dsimp only
              rw [if_neg h1, if_neg (fun hcon => h2 hcon.1),
                if_pos (Or.inl h3)]
            rw [heq] at hr
            rw [List.get?_eq_get hlt] at hr
            have hrr := Option.some.inj hr
            rw [← hrr]
            exact h3
          · have heq : fracFindChoice cands rs i true =
                fracFindChoice cands rs (i + 1) true := by
              conv_lhs => rw [fracFindChoice]
              rw [dif_pos hlt]
              dsimp only
              rw [if_neg h1, if_neg (fun hcon => h2 hcon.1)]
              rw [if_neg ?_]
              rintro (h | ⟨he, hn⟩)
              · exact h3 h
              · exact hn rfl
            rw [heq] at hr
            exact ih (i + 1) (by omega) r hr
    · have heq : fracFindChoice cands rs i true = i := by
        unfold fracFindChoice
        rw [dif_neg hlt]
      rw [heq] at hr
      have h2 : rs.get? i = none := List.get?_eq_none.mpr (by omega)
      rw [h2] at hr
      cases hr

/-- `Fin`-indexed wrapper for `fracFindChoice_post`. -/
theorem fracFindChoice_stop (cands : List Cand) (rs : List String)
    (i : ℕ) (h : fracFindChoice cands rs i true < rs.length) :
    statusOf cands (rs.get ⟨fracFindChoice cands rs i true, h⟩) =
      some .active := by
  refine fracFindChoice_post cands rs (rs.length - i) i (le_refl _)
    _ ?_
  rw [List.get?_eq_get h]

/-- An active status lookup exposes the unique entry behind it. -/
theorem statusOf_active (cands : List Cand) (r : String)
    (h : statusOf cands r = some .active) :
    ∃ cE, candsGet cands r = some cE ∧ cE.status = .active := by
  unfold statusOf at h
  rcases hg : candsGet cands r with _ | cE
  · rw [hg] at h
    cases h
  · rw [hg] at h
    simp only [Option.map_some'] at h
    exact ⟨cE, rfl, Option.some.inj h⟩

theorem pinStep_rfl (q rn : ℕ) (c : Cand) : pinStep q rn c c :=
  ⟨rfl, rfl, Or.inl ⟨rfl, fun _ => rfl⟩⟩

theorem pinStep_trans (q rn : ℕ) {a b c : Cand}
    (h1 : pinStep q rn a b) (h2 : pinStep q rn b c) :
    pinStep q rn a c := by
  obtain ⟨hi1, hn1, hd1⟩ := h1
  obtain ⟨hi2, hn2, hd2⟩ := h2
  refine ⟨hi2.trans hi1, hn2.trans hn1, ?_⟩
  rcases hd2 with ⟨hr2, hs2⟩ | hx2
  · rcases hd1 with ⟨hr1, hs1⟩ | hx1
    · refine Or.inl ⟨hr2.trans hr1, ?_⟩
      intro ha
      have hb := hs1 ha
      have hbs : b.status = .elected := by
        rw [hb]
        exact ha
      exact (hs2 hbs).trans hb
    · refine Or.inr ?_
      have hcb := hs2 hx1.1
      rw [hcb]
      exact hx1
  · exact Or.inr hx2

/-- One upsert of a non-elected entry, by a step respecting the pin
relation, respects the pin relation member-wise. -/
theorem candsUpd_mem_pin (q rn : ℕ) (cs : List Cand) (n : String)
    (f : Cand → Cand)
    (hnodup : (cs.map (fun c => c.name)).Nodup)
    (cE : Cand) (hget : candsGet cs n = some cE)
    (c' : Cand) (h : c' ∈ candsUpd cs n f)
    (hstep : pinStep q rn cE (f cE)) :
    ∃ c ∈ cs, pinStep q rn c c' := by
  obtain ⟨c, hc, hor⟩ := candsUpd_mem_src cs n f c' h
  rcases hor with ⟨hn, heq⟩ | ⟨hn, heq⟩
  · have hcg : candsGet cs c.name = some c :=
      candsGet_of_nodup cs hnodup c hc
    rw [hn, hget] at hcg
    have hce := Option.some.inj hcg
    refine ⟨c, hc, ?_⟩
    rw [heq, ← hce]
    exact hstep
  · refine ⟨c, hc, ?_⟩
    rw [heq]
    exact pinStep_rfl q rn c

/-- Ballot redistribution respects the pin relation member-wise: it
only adds votes to still-active candidates. -/
theorem wbTransferBallots_mem_pin (q rn : ℕ) (st : WBXfer)
    (bs : List BState)
    (hnodup : (st.cands.map (fun c => c.name)).Nodup) :
    ∀ c' ∈ (wbTransferBallots st bs).cands,
      ∃ c ∈ st.cands, pinStep q rn c c' := by
  suffices H : ((wbTransferBallots st bs).cands.map (fun c => c.name) =
      st.cands.map (fun c => c.name)) ∧
      (∀ c' ∈ (wbTransferBallots st bs).cands,
        ∃ c ∈ st.cands, pinStep q rn c c') from H.2
  unfold wbTransferBallots
  refine foldl_inv (fun x : WBXfer =>
    (x.cands.map (fun c => c.name) =
      st.cands.map (fun c => c.name)) ∧
    (∀ c' ∈ x.cands, ∃ c ∈ st.cands, pinStep q rn c c')) _ ?_ bs st
    ⟨rfl, fun c' hc' => ⟨c', hc', pinStep_rfl q rn c'⟩⟩
  intro x b hx
  dsimp only
  rcases hr : (wbAdvance x.cands b).2 with _ | next
  · simp only [hr]
    exact hx
  · simp only [hr]
    have hact := wbChoice_active x.cands _ next hr
    obtain ⟨cE, hget, hstat⟩ := statusOf_active x.cands next hact
    have hnodup_x : (x.cands.map (fun c => c.name)).Nodup := by
      rw [hx.1]
      exact hnodup
    constructor
    · refine Eq.trans (candsUpd_map_name _ _ _ ?_) hx.1
      intro c
      rfl
    · intro c' hc'
      obtain ⟨cm, hcm, hpin⟩ := candsUpd_mem_pin q rn x.cands next _
        hnodup_x cE hget c' hc'
        ⟨rfl, rfl, Or.inl ⟨rfl, fun he =>
          absurd (hstat.symm.trans he) (by simp)⟩⟩
      obtain ⟨c0, hc0, hpin0⟩ := hx.2 cm hcm
      exact ⟨c0, hc0, pinStep_trans q rn hpin0 hpin⟩

/-- Ballot redistribution leaves non-active entries untouched. -/
theorem wbTransferBallots_get_frozen (st : WBXfer) (bs : List BState)
    (hnodup : (st.cands.map (fun c => c.name)).Nodup)
    (nm : String) (cE : Cand) (hget : candsGet st.cands nm = some cE)
    (hne : ¬ cE.status = .active) :
    candsGet (wbTransferBallots st bs).cands nm = some cE := by
  suffices H : ((wbTransferBallots st bs).cands.map (fun c => c.name) =
      st.cands.map (fun c => c.name)) ∧
      candsGet (wbTransferBallots st bs).cands nm = some cE from H.2
  unfold wbTransferBallots
  refine foldl_inv (fun x : WBXfer =>
    (x.cands.map (fun c => c.name) =
      st.cands.map (fun c => c.name)) ∧
    candsGet x.cands nm = some cE) _ ?_ bs st ⟨rfl, hget⟩
  intro x b hx
  dsimp only
  rcases hr : (wbAdvance x.cands b).2 with _ | next
  · simp only [hr]
    exact hx
  · simp only [hr]
    have hact := wbChoice_active x.cands _ next hr
    obtain ⟨cN, hgetN, hstatN⟩ := statusOf_active x.cands next hact
    have hnm : next ≠ nm := by
      intro heq
      subst heq
      rw [hx.2] at hgetN
      have hce := Option.some.inj hgetN
      refine hne ?_
      rw [hce]
      exact hstatN
    constructor
    · refine Eq.trans (candsUpd_map_name _ _ _ ?_) hx.1
      intro c
      rfl
    · rw [candsGet_candsUpd_ne]
      · exact hx.2
      · intro c
        rfl
      · exact hnm

/-- One whole-ballot elect step respects the pin relation member-wise:
the elected entry ends stamped and pinned at the quota, all others frozen
or vote-credited while active. -/
theorem wbElectStep_mem_pin (cs : List Cand)
    (P : List (String × List BState)) (E : List BState)
    (BS : List BState) (name : String) (quota rn : ℕ) (c' : Cand)
    (h : c' ∈ candsUpd (wbTransferBallots
      ⟨candsUpd cs name (fun c =>
        { c with status := .elected, roundElected := some rn }),
        P, E, []⟩ BS).cands name
      (fun c => { c with votes := (quota : ℚ) }))
    (hnodup : (cs.map (fun c => c.name)).Nodup)
    (elected : Cand) (hget : candsGet cs name = some elected) :
    ∃ c ∈ cs, pinStep quota rn c c' := by
  have hnodup1 : ((candsUpd cs name (fun c =>
      { c with status := .elected, roundElected := some rn })).map
        (fun c => c.name)).Nodup := by
    have e : (candsUpd cs name (fun c =>
        { c with status := .elected, roundElected := some rn })).map
          (fun c => c.name) = cs.map (fun c => c.name) := by
      refine candsUpd_map_name _ _ _ ?_
      intro c
      rfl
    rw [e]
    exact hnodup
  have h1 : candsGet (candsUpd cs name (fun c =>
      { c with status := .elected, roundElected := some rn })) name =
      some { elected with status := .elected,
                          roundElected := some rn } := by
    rw [candsGet_candsUpd]
    · rw [hget]
      rfl
    · intro c
      rfl
  have h2 := wbTransferBallots_get_frozen
    ⟨candsUpd cs name (fun c =>
      { c with status := .elected, roundElected := some rn }),
      P, E, []⟩ BS hnodup1 name _ h1 (by simp)
  have hnodupX : ((wbTransferBallots
      ⟨candsUpd cs name (fun c =>
        { c with status := .elected, roundElected := some rn }),
        P, E, []⟩ BS).cands.map (fun c => c.name)).Nodup := by
    rw [wbTransferBallots_map_name]
    exact hnodup1
  obtain ⟨cx, hcx, hor⟩ := candsUpd_mem_src _ name _ c' h
  rcases hor with ⟨hxn, heq⟩ | ⟨hxn, heq⟩
  · have hcg := candsGet_of_nodup _ hnodupX cx hcx
    rw [hxn, h2] at hcg
    have hcx_eq := Option.some.inj hcg
    refine ⟨elected, List.mem_of_find?_eq_some hget, ?_⟩
    rw [heq, ← hcx_eq]
    exact ⟨rfl, rfl, Or.inr ⟨rfl, rfl, rfl⟩⟩
  · obtain ⟨c1, hc1, hpin1⟩ := wbTransferBallots_mem_pin quota rn
      ⟨_, _, _, _⟩ BS hnodup1 cx hcx
    obtain ⟨c0, hc0, hor2⟩ := candsUpd_mem_src _ _ _ c1 hc1
    rcases hor2 with ⟨h0n, heq2⟩ | ⟨h0n, heq2⟩
    · exfalso
      have hname : cx.name = c1.name := hpin1.2.1
      rw [heq2] at hname
      exact hxn (hname.trans h0n)
    · refine ⟨c0, hc0, ?_⟩
      rw [heq]
      rw [heq2] at hpin1
      exact hpin1

/-- One whole-ballot elect step without surplus transfer respects the
pin relation member-wise. -/
theorem wbElectStepNS_mem_pin (cs : List Cand) (name : String)
    (quota rn : ℕ) (c' : Cand)
    (h : c' ∈ candsUpd (candsUpd cs name (fun c =>
        { c with status := .elected, roundElected := some rn })) name
      (fun c => { c with votes := (quota : ℚ) }))
    (hnodup : (cs.map (fun c => c.name)).Nodup)
    (elected : Cand) (hget : candsGet cs name = some elected) :
    ∃ c ∈ cs, pinStep quota rn c c' := by
  have hnodup1 : ((candsUpd cs name (fun c =>
      { c with status := .elected, roundElected := some rn })).map
        (fun c => c.name)).Nodup := by
    have e : (candsUpd cs name (fun c =>
        { c with status := .elected, roundElected := some rn })).map
          (fun c => c.name) = cs.map (fun c => c.name) := by
      refine candsUpd_map_name _ _ _ ?_
      intro c
      rfl
    rw [e]
    exact hnodup
  have h1 : candsGet (candsUpd cs name (fun c =>
      { c with status := .elected, roundElected := some rn })) name =
      some { elected with status := .elected,
                          roundElected := some rn } := by
    rw [candsGet_candsUpd]
    · rw [hget]
      rfl
    · intro c
      rfl
  obtain ⟨cx, hcx, hor⟩ := candsUpd_mem_src _ name _ c' h
  rcases hor with ⟨hxn, heq⟩ | ⟨hxn, heq⟩
  · have hcg := candsGet_of_nodup _ hnodup1 cx hcx
    rw [hxn, h1] at hcg
    have hcx_eq := Option.some.inj hcg
    refine ⟨elected, List.mem_of_find?_eq_some hget, ?_⟩
    rw [heq, ← hcx_eq]
    exact ⟨rfl, rfl, Or.inr ⟨rfl, rfl, rfl⟩⟩
  · obtain ⟨c0, hc0, hor2⟩ := candsUpd_mem_src _ _ _ cx hcx
    rcases hor2 with ⟨h0n, heq2⟩ | ⟨h0n, heq2⟩
    · exfalso
      refine hxn ?_
      rw [heq2]
      exact h0n
    · refine ⟨c0, hc0, ?_⟩
      rw [heq, heq2]
      exact pinStep_rfl _ _ c0

/-- One whole-ballot eliminate step respects the pin relation
member-wise. -/
theorem wbElimStep_mem_pin (cs : List Cand)
    (P : List (String × List BState)) (E : List BState)
    (BS : List BState) (name : String) (q rn : ℕ) (c' : Cand)
    (h : c' ∈ candsUpd (wbTransferBallots
      ⟨candsUpd cs name (fun c =>
        { c with status := .eliminated,
                 roundEliminated := some rn }),
        P, E, []⟩ BS).cands name
      (fun c => { c with votes := 0 }))
    (hnodup : (cs.map (fun c => c.name)).Nodup)
    (cE : Cand) (hget : candsGet cs name = some cE)
    (hstat : cE.status = .active) :
    ∃ c ∈ cs, pinStep q rn c c' := by
  have hnodup1 : ((candsUpd cs name (fun c =>
      { c with status := .eliminated,
               roundEliminated := some rn })).map
        (fun c => c.name)).Nodup := by
    have e : (candsUpd cs name (fun c =>
        { c with status := .eliminated,
                 roundEliminated := some rn })).map
          (fun c => c.name) = cs.map (fun c => c.name) := by
      refine candsUpd_map_name _ _ _ ?_
      intro c
      rfl
    rw [e]
    exact hnodup
  have h1 : candsGet (candsUpd cs name (fun c =>
      { c with status := .eliminated,
               roundEliminated := some rn })) name =
      some { cE with status := .eliminated,
                     roundEliminated := some rn } := by
    rw [candsGet_candsUpd]
    · rw [hget]
      rfl
    · intro c
      rfl
  have h2 := wbTransferBallots_get_frozen
    ⟨candsUpd cs name (fun c =>
      { c with status := .eliminated,
               roundEliminated := some rn }),
      P, E, []⟩ BS hnodup1 name _ h1 (by simp)
  have hnodupX : ((wbTransferBallots
      ⟨candsUpd cs name (fun c =>
        { c with status := .eliminated,
                 roundEliminated := some rn }),
        P, E, []⟩ BS).cands.map (fun c => c.name)).Nodup := by
    rw [wbTransferBallots_map_name]
    exact hnodup1
  obtain ⟨cx, hcx, hor⟩ := candsUpd_mem_src _ name _ c' h
  rcases hor with ⟨hxn, heq⟩ | ⟨hxn, heq⟩
  · have hcg := candsGet_of_nodup _ hnodupX cx hcx
    rw [hxn, h2] at hcg
    have hcx_eq := Option.some.inj hcg
    refine ⟨cE, List.mem_of_find?_eq_some hget, ?_⟩
    rw [heq, ← hcx_eq]
    exact ⟨rfl, rfl, Or.inl ⟨rfl, fun he =>
      absurd (hstat.symm.trans he) (by simp)⟩⟩
  · obtain ⟨c1, hc1, hpin1⟩ := wbTransferBallots_mem_pin q rn
      ⟨_, _, _, _⟩ BS hnodup1 cx hcx
    obtain ⟨c0, hc0, hor2⟩ := candsUpd_mem_src _ _ _ c1 hc1
    rcases hor2 with ⟨h0n, heq2⟩ | ⟨h0n, heq2⟩
    · exfalso
      have hname : cx.name = c1.name := hpin1.2.1
      rw [heq2] at hname
      exact hxn (hname.trans h0n)
    · refine ⟨c0, hc0, ?_⟩
      rw [heq]
      rw [heq2] at hpin1
      exact hpin1

/-- Processing elected candidates respects the pin relation
member-wise. -/
theorem wbProcessElected_mem_pin (seats quota rn : ℕ) :
    ∀ (names : List String) (st : WBAct) (c' : Cand),
      c' ∈ (wbProcessElected seats quota rn names st).cands →
      (st.cands.map (fun c => c.name)).Nodup →
      ∃ c ∈ st.cands, pinStep quota rn c c'
  | [], st, c', hc', _ => ⟨c', hc', pinStep_rfl _ _ c'⟩
  | name :: rest, st, c', hc', hnodup => by
    simp only [wbProcessElected] at hc'
    split at hc'
    · exact ⟨c', hc', pinStep_rfl _ _ c'⟩
    · rcases hget : candsGet st.cands name with _ | elected
      · simp only [hget] at hc'
        exact wbProcessElected_mem_pin seats quota rn rest st c' hc'
          hnodup
      · simp only [hget] at hc'
        by_cases hs : (0 : ℤ) < jround (elected.votes - (quota : ℚ)) ∧
            (st.winners ++ [elected.index]).length < seats
        · rw [if_pos hs] at hc'
          obtain ⟨cm, hcm, hpin2⟩ := wbProcessElected_mem_pin seats
            quota rn rest _ c' hc'
            (by dsimp only
                rw [wbElectStep_map_name]
                exact hnodup)
          dsimp only at hcm
          obtain ⟨c0, hc0, hpin0⟩ := wbElectStep_mem_pin st.cands _ _ _
            name quota rn cm hcm hnodup elected hget
          exact ⟨c0, hc0, pinStep_trans quota rn hpin0 hpin2⟩
        · rw [if_neg hs] at hc'
          obtain ⟨cm, hcm, hpin2⟩ := wbProcessElected_mem_pin seats
            quota rn rest _ c' hc'
            (by dsimp only
                rw [wbElectStepNS_map_name]
                exact hnodup)
          dsimp only at hcm
          obtain ⟨c0, hc0, hpin0⟩ := wbElectStepNS_mem_pin st.cands
            name quota rn cm hcm hnodup elected hget
          exact ⟨c0, hc0, pinStep_trans quota rn hpin0 hpin2⟩

/-- Elimination respects the pin relation member-wise. -/
theorem wbEliminate_mem_pin (q rn : ℕ) (st : WBAct) (c' : Cand)
    (hc' : c' ∈ (wbEliminate rn st).cands)
    (hnodup : (st.cands.map (fun c => c.name)).Nodup) :
    ∃ c ∈ st.cands, pinStep q rn c c' := by
  unfold wbEliminate at hc'
  dsimp only at hc'
  split at hc'
  · exact ⟨c', hc', pinStep_rfl _ _ c'⟩
  · next eliminated helim =>
    have hmem2 : eliminated ∈ (st.cands.filter
        (fun c => c.status = .active)).filter (fun c => decide (c.votes =
          votesMin ((st.cands.filter
            (fun c => c.status = .active)).map (fun d => d.votes)))) := by
      have hms := List.mem_of_mem_head? (Option.mem_def.mpr helim)
      exact (List.mergeSort_perm _ nameLe).subset hms
    have hmem4 := List.mem_filter.mp (List.mem_filter.mp hmem2).1
    have hstat : eliminated.status = .active := by
      have := hmem4.2
      simpa using this
    have hget : candsGet st.cands eliminated.name = some eliminated :=
      candsGet_of_nodup _ hnodup _ hmem4.1
    exact wbElimStep_mem_pin st.cands _ _ _ eliminated.name q rn c' hc'
      hnodup eliminated hget hstat

/-- The whole-ballot round action respects the pin relation
member-wise. -/
theorem wbAction_mem_pin (s : WBState)
    (hnodup : (s.cands.map (fun c => c.name)).Nodup) :
    ∀ c' ∈ (wbAction s).cands,
      ∃ c ∈ s.cands, pinStep s.quota s.roundNumber c c' := by
  intro c' hc'
  unfold wbAction at hc'
  dsimp only at hc'
  split at hc'
  · exact wbProcessElected_mem_pin s.seats s.quota s.roundNumber _
      ⟨_, _, _, _, _, _, _⟩ c' hc' hnodup
  · exact wbEliminate_mem_pin s.quota s.roundNumber
      ⟨_, _, _, _, _, _, _⟩ c' hc' hnodup

/-- The fractional surplus fold respects the pin relation member-wise:
transfer weight is only credited to still-active candidates. -/
theorem fracSurplusFold_mem_pin (q rn : ℕ) (tf : ℚ) (pile : List ℕ)
    (st : FracAct) (tc : List (String × ℚ)) (rs : List (ℕ × String))
    (hnodup : (st.cands.map (fun c => c.name)).Nodup) :
    ∀ c' ∈ (pile.foldl (fracSurplusStep tf) (st, tc, rs)).1.cands,
      ∃ c ∈ st.cands, pinStep q rn c c' := by
  suffices H :
      ((pile.foldl (fracSurplusStep tf) (st, tc, rs)).1.cands.map
          (fun c => c.name) = st.cands.map (fun c => c.name)) ∧
      (∀ c' ∈ (pile.foldl (fracSurplusStep tf) (st, tc, rs)).1.cands,
        ∃ c ∈ st.cands, pinStep q rn c c') from H.2
  refine foldl_inv
    (fun x : FracAct × List (String × ℚ) × List (ℕ × String) =>
      (x.1.cands.map (fun c => c.name) =
        st.cands.map (fun c => c.name)) ∧
      (∀ c' ∈ x.1.cands, ∃ c ∈ st.cands, pinStep q rn c c'))
    (fracSurplusStep tf) ?_ pile (st, tc, rs)
    ⟨rfl, fun c' hc' => ⟨c', hc', pinStep_rfl q rn c'⟩⟩
  intro x id hx
  unfold fracSurplusStep
  dsimp only
  rcases hb : x.1.store.get? id with _ | b
  · simp only [hb]
    exact hx
  · simp only [hb]
    split
    · next h =>
      have hstop := fracFindChoice_stop x.1.cands b.originalRankings
        (b.currentIndex + 1) h
      obtain ⟨cE, hget, hstat⟩ := statusOf_active x.1.cands _ hstop
      have hnx : (x.1.cands.map (fun c => c.name)).Nodup := by
        rw [hx.1]
        exact hnodup
      constructor
      · refine Eq.trans (candsUpd_map_name _ _ _ ?_) hx.1
        intro c
        rfl
      · intro c' hc'
        obtain ⟨cm, hcm, hpin⟩ := candsUpd_mem_pin q rn x.1.cands _ _
          hnx cE hget c' hc'
          ⟨rfl, rfl, Or.inl ⟨rfl, fun he =>
            absurd (hstat.symm.trans he) (by simp)⟩⟩
        obtain ⟨c0, hc0, hpin0⟩ := hx.2 cm hcm
        exact ⟨c0, hc0, pinStep_trans q rn hpin0 hpin⟩
    · exact hx

/-- The fractional surplus fold leaves non-active entries untouched. -/
theorem fracSurplusFold_get_frozen (tf : ℚ) (pile : List ℕ)
    (st : FracAct) (tc : List (String × ℚ)) (rs : List (ℕ × String))
    (hnodup : (st.cands.map (fun c => c.name)).Nodup)
    (nm : String) (cE : Cand) (hget : candsGet st.cands nm = some cE)
    (hne : ¬ cE.status = .active) :
    candsGet (pile.foldl (fracSurplusStep tf) (st, tc, rs)).1.cands nm =
      some cE := by
  suffices H :
      ((pile.foldl (fracSurplusStep tf) (st, tc, rs)).1.cands.map
          (fun c => c.name) = st.cands.map (fun c => c.name)) ∧
      candsGet (pile.foldl (fracSurplusStep tf) (st, tc, rs)).1.cands
        nm = some cE from H.2
  refine foldl_inv
    (fun x : FracAct × List (String × ℚ) × List (ℕ × String) =>
      (x.1.cands.map (fun c => c.name) =
        st.cands.map (fun c => c.name)) ∧
      candsGet x.1.cands nm = some cE)
    (fracSurplusStep tf) ?_ pile (st, tc, rs) ⟨rfl, hget⟩
  intro x id hx
  unfold fracSurplusStep
  dsimp only
  rcases hb : x.1.store.get? id with _ | b
  · simp only [hb]
    exact hx
  · simp only [hb]
    split
    · next h =>
      have hstop := fracFindChoice_stop x.1.cands b.originalRankings
        (b.currentIndex + 1) h
      obtain ⟨cN, hgetN, hstatN⟩ := statusOf_active x.1.cands _ hstop
      have hnm : b.originalRankings.get
          ⟨fracFindChoice x.1.cands b.originalRankings
            (b.currentIndex + 1) true, h⟩ ≠ nm := by
        intro heq
        rw [heq] at hgetN
        rw [hx.2] at hgetN
        have hce := Option.some.inj hgetN
        refine hne ?_
        rw [hce]
        exact hstatN
      constructor
      · refine Eq.trans (candsUpd_map_name _ _ _ ?_) hx.1
        intro c
        rfl
      · rw [candsGet_candsUpd_ne]
        · exact hx.2
        · intro c
          rfl
        · exact hnm
    · exact hx

/-- The fractional elimination fold respects the pin relation
member-wise. -/
theorem fracElimFold_mem_pin (q rn : ℕ) (pile : List ℕ) (st : FracAct)
    (tc : List (String × ℚ))
    (hnodup : (st.cands.map (fun c => c.name)).Nodup) :
    ∀ c' ∈ (pile.foldl fracElimStep (st, tc)).1.cands,
      ∃ c ∈ st.cands, pinStep q rn c c' := by
  suffices H :
      ((pile.foldl fracElimStep (st, tc)).1.cands.map
          (fun c => c.name) = st.cands.map (fun c => c.name)) ∧
      (∀ c' ∈ (pile.foldl fracElimStep (st, tc)).1.cands,
        ∃ c ∈ st.cands, pinStep q rn c c') from H.2
  refine foldl_inv
    (fun x : FracAct × List (String × ℚ) =>
      (x.1.cands.map (fun c => c.name) =
        st.cands.map (fun c => c.name)) ∧
      (∀ c' ∈ x.1.cands, ∃ c ∈ st.cands, pinStep q rn c c'))
    fracElimStep ?_ pile (st, tc)
    ⟨rfl, fun c' hc' => ⟨c', hc', pinStep_rfl q rn c'⟩⟩
  intro x id hx
  unfold fracElimStep
  dsimp only
  rcases hb : x.1.store.get? id with _ | b
  · simp only [hb]
    exact hx
  · simp only [hb]
    split
    · next h =>
      have hstop := fracFindChoice_stop x.1.cands b.originalRankings
        (b.currentIndex + 1) h
      obtain ⟨cE, hget, hstat⟩ := statusOf_active x.1.cands _ hstop
      have hnx : (x.1.cands.map (fun c => c.name)).Nodup := by
        rw [hx.1]
        exact hnodup
      constructor
      · refine Eq.trans (candsUpd_map_name _ _ _ ?_) hx.1
        intro c
        rfl
      · intro c' hc'
        obtain ⟨cm, hcm, hpin⟩ := candsUpd_mem_pin q rn x.1.cands _ _
          hnx cE hget c' hc'
          ⟨rfl, rfl, Or.inl ⟨rfl, fun he =>
            absurd (hstat.symm.trans he) (by simp)⟩⟩
        obtain ⟨c0, hc0, hpin0⟩ := hx.2 cm hcm
        exact ⟨c0, hc0, pinStep_trans q rn hpin0 hpin⟩
    · exact hx

/-- The fractional elimination fold leaves non-active entries
untouched. -/
theorem fracElimFold_get_frozen (pile : List ℕ) (st : FracAct)
    (tc : List (String × ℚ))
    (hnodup : (st.cands.map (fun c => c.name)).Nodup)
    (nm : String) (cE : Cand) (hget : candsGet st.cands nm = some cE)
    (hne : ¬ cE.status = .active) :
    candsGet (pile.foldl fracElimStep (st, tc)).1.cands nm =
      some cE := by
  suffices H :
      ((pile.foldl fracElimStep (st, tc)).1.cands.map
          (fun c => c.name) = st.cands.map (fun c => c.name)) ∧
      candsGet (pile.foldl fracElimStep (st, tc)).1.cands nm =
        some cE from H.2
  refine foldl_inv
    (fun x : FracAct × List (String × ℚ) =>
      (x.1.cands.map (fun c => c.name) =
        st.cands.map (fun c => c.name)) ∧
      candsGet x.1.cands nm = some cE)
    fracElimStep ?_ pile (st, tc) ⟨rfl, hget⟩
  intro x id hx
  unfold fracElimStep
  dsimp only
  rcases hb : x.1.store.get? id with _ | b
  · simp only [hb]
    exact hx
  · simp only [hb]
    split
    · next h =>
      have hstop := fracFindChoice_stop x.1.cands b.originalRankings
        (b.currentIndex + 1) h
      obtain ⟨cN, hgetN, hstatN⟩ := statusOf_active x.1.cands _ hstop
      have hnm : b.originalRankings.get
          ⟨fracFindChoice x.1.cands b.originalRankings
            (b.currentIndex + 1) true, h⟩ ≠ nm := by
        intro heq
        rw [heq] at hgetN
        rw [hx.2] at hgetN
        have hce := Option.some.inj hgetN
        refine hne ?_
        rw [hce]
        exact hstatN
      constructor
      · refine Eq.trans (candsUpd_map_name _ _ _ ?_) hx.1
        intro c
        rfl
      · rw [candsGet_candsUpd_ne]
        · exact hx.2
        · intro c
          rfl
        · exact hnm
    · exact hx

/-- One fractional elect step with surplus distribution respects the
pin relation member-wise: the elected entry ends stamped and pinned at
the quota. -/
theorem fracElectStep_mem_pin (cs : List Cand) (sto : List BState)
    (P : List (String × List ℕ)) (EI : List ℕ) (EV : ℚ) (W : List ℕ)
    (T : List Transfer) (EL ELL : List ℕ) (tf : ℚ) (pile : List ℕ)
    (name : String) (quota rn : ℕ) (c' : Cand)
    (h : c' ∈ candsUpd
      (pile.foldl (fracSurplusStep tf)
        (⟨candsUpd cs name (fun c =>
          { c with status := .elected, roundElected := some rn }),
          sto, P, EI, EV, W, T, EL, ELL⟩, [], [])).1.cands name
      (fun c => { c with votes := (quota : ℚ) }))
    (hnodup : (cs.map (fun c => c.name)).Nodup)
    (elected : Cand) (hget : candsGet cs name = some elected) :
    ∃ c ∈ cs, pinStep quota rn c c' := by
  have hnodup1 : ((candsUpd cs name (fun c =>
      { c with status := .elected, roundElected := some rn })).map
        (fun c => c.name)).Nodup := by
    have e : (candsUpd cs name (fun c =>
        { c with status := .elected, roundElected := some rn })).map
          (fun c => c.name) = cs.map (fun c => c.name) := by
      refine candsUpd_map_name _ _ _ ?_
      intro c
      rfl
    rw [e]
    exact hnodup
  have h1 : candsGet (candsUpd cs name (fun c =>
      { c with status := .elected, roundElected := some rn })) name =
      some { elected with status := .elected,
                          roundElected := some rn } := by
    rw [candsGet_candsUpd]
    · rw [hget]
      rfl
    · intro c
      rfl
  have h2 := fracSurplusFold_get_frozen tf pile
    ⟨candsUpd cs name (fun c =>
      { c with status := .elected, roundElected := some rn }),
      sto, P, EI, EV, W, T, EL, ELL⟩ [] [] hnodup1 name _ h1 (by simp)
  have hnodupX : ((pile.foldl (fracSurplusStep tf)
      (⟨candsUpd cs name (fun c =>
        { c with status := .elected, roundElected := some rn }),
        sto, P, EI, EV, W, T, EL, ELL⟩, [], [])).1.cands.map
        (fun c => c.name)).Nodup := by
    rw [fracSurplusFold_map_name]
    exact hnodup1
  obtain ⟨cx, hcx, hor⟩ := candsUpd_mem_src _ name _ c' h
  rcases hor with ⟨hxn, heq⟩ | ⟨hxn, heq⟩
  · have hcg := candsGet_of_nodup _ hnodupX cx hcx
    rw [hxn, h2] at hcg
    have hcx_eq := Option.some.inj hcg
    refine ⟨elected, List.mem_of_find?_eq_some hget, ?_⟩
    rw [heq, ← hcx_eq]
    exact ⟨rfl, rfl, Or.inr ⟨rfl, rfl, rfl⟩⟩
  · obtain ⟨c1, hc1, hpin1⟩ := fracSurplusFold_mem_pin quota rn tf pile
      ⟨candsUpd cs name (fun c =>
        { c with status := .elected, roundElected := some rn }),
        sto, P, EI, EV, W, T, EL, ELL⟩ [] [] hnodup1 cx hcx
    obtain ⟨c0, hc0, hor2⟩ := candsUpd_mem_src _ _ _ c1 hc1
    rcases hor2 with ⟨h0n, heq2⟩ | ⟨h0n, heq2⟩
    · exfalso
      have hname : cx.name = c1.name := hpin1.2.1
      rw [heq2] at hname
      exact hxn (hname.trans h0n)
    · refine ⟨c0, hc0, ?_⟩
      rw [heq]
      rw [heq2] at hpin1
      exact hpin1

/-- One fractional eliminate step respects the pin relation
member-wise. -/
theorem fracElimStepC_mem_pin (cs : List Cand) (sto : List BState)
    (P : List (String × List ℕ)) (EI : List ℕ) (EV : ℚ) (W : List ℕ)
    (T : List Transfer) (EL ELL : List ℕ) (pile : List ℕ)
    (name : String) (q rn : ℕ) (c' : Cand)
    (h : c' ∈ candsUpd
      (pile.foldl fracElimStep
        (⟨candsUpd cs name (fun c =>
          { c with status := .eliminated,
                   roundEliminated := some rn }),
          sto, P, EI, EV, W, T, EL, ELL⟩, [])).1.cands name
      (fun c => { c with votes := 0 }))
    (hnodup : (cs.map (fun c => c.name)).Nodup)
    (cE : Cand) (hget : candsGet cs name = some cE)
    (hstat : cE.status = .active) :
    ∃ c ∈ cs, pinStep q rn c c' := by
  have hnodup1 : ((candsUpd cs name (fun c =>
      { c with status := .eliminated,
               roundEliminated := some rn })).map
        (fun c => c.name)).Nodup := by
    have e : (candsUpd cs name (fun c =>
        { c with status := .eliminated,
                 roundEliminated := some rn })).map
          (fun c => c.name) = cs.map (fun c => c.name) := by
      refine candsUpd_map_name _ _ _ ?_
      intro c
      rfl
    rw [e]
    exact hnodup
  have h1 : candsGet (candsUpd cs name (fun c =>
      { c with status := .eliminated,
               roundEliminated := some rn })) name =
      some { cE with status := .eliminated,
                     roundEliminated := some rn } := by
    rw [candsGet_candsUpd]
    · rw [hget]
      rfl
    · intro c
      rfl
  have h2 := fracElimFold_get_frozen pile
    ⟨candsUpd cs name (fun c =>
      { c with status := .eliminated,
               roundEliminated := some rn }),
      sto, P, EI, EV, W, T, EL, ELL⟩ [] hnodup1 name _ h1 (by simp)
  have hnodupX : ((pile.foldl fracElimStep
      (⟨candsUpd cs name (fun c =>
        { c with status := .eliminated,
                 roundEliminated := some rn }),
        sto, P, EI, EV, W, T, EL, ELL⟩, [])).1.cands.map
        (fun c => c.name)).Nodup := by
    rw [fracElimFold_map_name]
    exact hnodup1
  obtain ⟨cx, hcx, hor⟩ := candsUpd_mem_src _ name _ c' h
  rcases hor with ⟨hxn, heq⟩ | ⟨hxn, heq⟩
  · have hcg := candsGet_of_nodup _ hnodupX cx hcx
    rw [hxn, h2] at hcg
    have hcx_eq := Option.some.inj hcg
    refine ⟨cE, List.mem_of_find?_eq_some hget, ?_⟩
    rw [heq, ← hcx_eq]
    exact ⟨rfl, rfl, Or.inl ⟨rfl, fun he =>
      absurd (hstat.symm.trans he) (by simp)⟩⟩
  · obtain ⟨c1, hc1, hpin1⟩ := fracElimFold_mem_pin q rn pile
      ⟨candsUpd cs name (fun c =>
        { c with status := .eliminated,
                 roundEliminated := some rn }),
        sto, P, EI, EV, W, T, EL, ELL⟩ [] hnodup1 cx hcx
    obtain ⟨c0, hc0, hor2⟩ := candsUpd_mem_src _ _ _ c1 hc1
    rcases hor2 with ⟨h0n, heq2⟩ | ⟨h0n, heq2⟩
    · exfalso
      have hname : cx.name = c1.name := hpin1.2.1
      rw [heq2] at hname
      exact hxn (hname.trans h0n)
    · refine ⟨c0, hc0, ?_⟩
      rw [heq]
      rw [heq2] at hpin1
      exact hpin1

/-- Electing in the fractional engine respects the pin relation
member-wise. -/
theorem fracElect_mem_pin (seats quota rn : ℕ) (name : String)
    (st : FracAct) (c' : Cand)
    (hc' : c' ∈ (fracElect seats quota rn name st).cands)
    (hnodup : (st.cands.map (fun c => c.name)).Nodup) :
    ∃ c ∈ st.cands, pinStep quota rn c c' := by
  unfold fracElect at hc'
  dsimp only at hc'
  split at hc'
  · exact ⟨c', hc', pinStep_rfl _ _ c'⟩
  · next elected hget =>
    split at hc'
    · dsimp only at hc'
      exact fracElectStep_mem_pin st.cands _ _ _ _ _ _ _ _ _ _ name
        quota rn c' hc' hnodup elected hget
    · exact wbElectStepNS_mem_pin st.cands name quota rn c' hc' hnodup
        elected hget

/-- Eliminating in the fractional engine respects the pin relation
member-wise. -/
theorem fracEliminate_mem_pin (q rn : ℕ) (st : FracAct) (c' : Cand)
    (hc' : c' ∈ (fracEliminate rn st).cands)
    (hnodup : (st.cands.map (fun c => c.name)).Nodup) :
    ∃ c ∈ st.cands, pinStep q rn c c' := by
  unfold fracEliminate at hc'
  dsimp only at hc'
  split at hc'
  · exact ⟨c', hc', pinStep_rfl _ _ c'⟩
  · next eliminated helim =>
    dsimp only at hc'
    have hmem2 : eliminated ∈ (st.cands.filter
        (fun c => c.status = .active)).filter (fun c => decide
          (|c.votes - votesMin ((st.cands.filter
            (fun c => c.status = .active)).map
              (fun d => d.votes))| < 1 / 10000)) := by
      have hms := List.mem_of_mem_head? (Option.mem_def.mpr helim)
      exact (List.mergeSort_perm _ nameLe).subset hms
    have hmem4 := List.mem_filter.mp (List.mem_filter.mp hmem2).1
    have hstat : eliminated.status = .active := by
      have := hmem4.2
      simpa using this
    have hget : candsGet st.cands eliminated.name = some eliminated :=
      candsGet_of_nodup _ hnodup _ hmem4.1
    exact fracElimStepC_mem_pin st.cands _ _ _ _ _ _ _ _ _
      eliminated.name q rn c' hc' hnodup eliminated hget hstat

/-- The fractional round action respects the pin relation
member-wise. -/
theorem fracAction_mem_pin (s : FracState)
    (hnodup : (s.cands.map (fun c => c.name)).Nodup) :
    ∀ c' ∈ (fracAction s).cands,
      ∃ c ∈ s.cands, pinStep s.quota s.roundNumber c c' := by
  intro c' hc'
  unfold fracAction at hc'
  dsimp only at hc'
  split at hc'
  · exact fracElect_mem_pin s.seats s.quota s.roundNumber _
      ⟨_, _, _, _, _, _, _, _, _⟩ c' hc' hnodup
  · exact fracEliminate_mem_pin s.quota s.roundNumber
      ⟨_, _, _, _, _, _, _, _, _⟩ c' hc' hnodup

/-- `Math.round` is the identity on whole numbers. -/
theorem jround_natCast (n : ℕ) : jround ((n : ℕ) : ℚ) = (n : ℤ) := by
  unfold jround
  refine Int.floor_eq_iff.mpr ⟨?_, ?_⟩
  · push_cast
    linarith
  · push_cast
    linarith

/-- Filter-and-sum of allocation votes is invariant under
permutation. -/
theorem alloc_filter_sum_perm {l l' : List Alloc} (h : l.Perm l')
    (a : Allocatee) :
    ((l.filter (fun e => e.allocatee = a)).map (fun e => e.votes)).sum =
    ((l'.filter (fun e => e.allocatee = a)).map (fun e => e.votes)).sum :=
  ((h.filter _).map _).sum_eq

/-- An absent index contributes nothing to an allocation sum. -/
theorem sum_pick_none :
    ∀ (l : List Cand) (v : Cand → ℚ) (i : ℕ),
      i ∉ l.map (fun c => c.index) →
      (((l.map (fun c => (⟨.cand c.index, v c⟩ : Alloc))).filter
        (fun e => e.allocatee = .cand i)).map (fun e => e.votes)).sum = 0
  | [], _, _, _ => rfl
  | a :: l, v, i, h => by
    rw [List.map_cons, List.filter_cons, if_neg]
    · exact sum_pick_none l v i (fun hm => h (List.mem_cons_of_mem _ hm))
    · simp only [decide_eq_true_eq]
      intro hx
      have hx2 : Allocatee.cand a.index = Allocatee.cand i := hx
      injection hx2 with h3
      refine h ?_
      rw [List.map_cons]
      exact List.mem_cons.mpr (Or.inl h3.symm)

/-- Under pairwise-distinct indexes, the allocation sum of one index is
exactly that candidate's value. -/
theorem sum_pick :
    ∀ (l : List Cand) (v : Cand → ℚ) (c0 : Cand),
      (l.map (fun c => c.index)).Nodup → c0 ∈ l →
      (((l.map (fun c => (⟨.cand c.index, v c⟩ : Alloc))).filter
        (fun e => e.allocatee = .cand c0.index)).map
        (fun e => e.votes)).sum = v c0
  | [], _, c0, _, hmem => absurd hmem (List.not_mem_nil c0)
  | a :: l, v, c0, hnd, hmem => by
    rw [List.map_cons, List.nodup_cons] at hnd
    rcases List.mem_cons.mp hmem with heq | hmem2
    · rw [heq]
      rw [List.map_cons, List.filter_cons, if_pos (by simp),
        List.map_cons, List.sum_cons, sum_pick_none l v a.index hnd.1,
        add_zero]
    · rw [List.map_cons, List.filter_cons, if_neg]
      · exact sum_pick l v c0 hnd.2 hmem2
      · simp only [decide_eq_true_eq]
        intro hx
        have hx2 : Allocatee.cand a.index = Allocatee.cand c0.index := hx
        injection hx2 with h3
        refine hnd.1 ?_
        rw [h3]
        exact List.mem_map_of_mem (fun c => c.index) hmem2

/-- Extraction of one candidate's entry from a sorted allocation
snapshot built over filtered candidates plus the exhausted entry. -/
theorem sortAllocs_pick (cs : List Cand) (pred : Cand → Bool)
    (v : Cand → ℚ) (E : ℚ) (c0 : Cand)
    (hnd : (cs.map (fun c => c.index)).Nodup)
    (hc0 : c0 ∈ cs) (hp : pred c0 = true) :
    (((sortAllocs ((cs.filter pred).map
        (fun c => (⟨.cand c.index, v c⟩ : Alloc)) ++ [⟨.ex, E⟩])).filter
      (fun e => e.allocatee = .cand c0.index)).map
      (fun e => e.votes)).sum = v c0 := by
  unfold sortAllocs
  rw [alloc_filter_sum_perm (List.mergeSort_perm _ allocLe)
    (Allocatee.cand c0.index)]
  rw [List.filter_append]
  have hex : (([(⟨.ex, E⟩ : Alloc)]).filter
      (fun e => e.allocatee = Allocatee.cand c0.index)) = [] := by
    simp
  rw [hex, List.append_nil]
  refine sum_pick (cs.filter pred) v c0 ?_
    (List.mem_filter.mpr ⟨hc0, hp⟩)
  refine List.Nodup.sublist ?_ hnd
  exact (List.filter_sublist cs).map (fun c => c.index)

/-- The whole-ballot round record shows an active or elected candidate's
rounded votes. -/
theorem allocVotesOf_wbRound0 (s : WBState) (c0 : Cand)
    (hnd : (s.cands.map (fun c => c.index)).Nodup)
    (hc0 : c0 ∈ s.cands)
    (hst : c0.status = .active ∨ c0.status = .elected) :
    allocVotesOf (wbRound0 s) (.cand c0.index) =
      ((jround c0.votes : ℤ) : ℚ) := by
  unfold allocVotesOf wbRound0 wbSnapshotAllocs
  dsimp only
  exact sortAllocs_pick s.cands _ _ _ c0 hnd hc0 (by simpa using hst)

/-- The fractional round record shows an active or elected candidate's
raw votes. -/
theorem allocVotesOf_fracRound0 (s : FracState) (c0 : Cand)
    (hnd : (s.cands.map (fun c => c.index)).Nodup)
    (hc0 : c0 ∈ s.cands)
    (hst : c0.status = .active ∨ c0.status = .elected) :
    allocVotesOf (fracRound0 s) (.cand c0.index) = c0.votes := by
  unfold allocVotesOf fracRound0 fracSnapshotAllocs
  dsimp only
  exact sortAllocs_pick s.cands _ _ _ c0 hnd hc0 (by simpa using hst)

/-- The extra fractional final record shows an elected candidate's raw
votes. -/
theorem allocVotesOf_fracFinalRound (s : FracState) (cv : ℚ)
    (idxs : List ℕ) (c0 : Cand)
    (hnd : (s.cands.map (fun c => c.index)).Nodup)
    (hc0 : c0 ∈ s.cands) (hst : c0.status = .elected) :
    allocVotesOf (fracFinalRound s cv idxs) (.cand c0.index) =
      c0.votes := by
  unfold allocVotesOf fracFinalRound
  dsimp only
  exact sortAllocs_pick s.cands _ _ _ c0 hnd hc0 (by simpa using hst)

/-- The whole-ballot fill loop changes neither the trace nor the quota
nor the round counter. -/
theorem wbFillElect_const :
    ∀ (names : List String) (s : WBState),
      (wbFillElect names s).trace = s.trace ∧
      (wbFillElect names s).quota = s.quota ∧
      (wbFillElect names s).roundNumber = s.roundNumber
  | [], _ => ⟨rfl, rfl, rfl⟩
  | name :: rest, s => by
    simp only [wbFillElect]
    split
    · exact ⟨rfl, rfl, rfl⟩
    · rcases hg : candsGet s.cands name with _ | c
      · simp only [hg]
        exact wbFillElect_const rest s
      · simp only [hg]
        exact wbFillElect_const rest _

/-- The fractional fill loop changes neither the trace nor the quota
nor the round counter. -/
theorem fracFillElect_const :
    ∀ (names : List String) (s : FracState),
      (fracFillElect names s).trace = s.trace ∧
      (fracFillElect names s).quota = s.quota ∧
      (fracFillElect names s).roundNumber = s.roundNumber
  | [], _ => ⟨rfl, rfl, rfl⟩
  | name :: rest, s => by
    simp only [fracFillElect]
    split
    · exact ⟨rfl, rfl, rfl⟩
    · rcases hg : candsGet s.cands name with _ | c
      · simp only [hg]
        exact fracFillElect_const rest s
      · simp only [hg]
        exact fracFillElect_const rest _

/-- Every entry after the whole-ballot fill loop is a source entry,
possibly stamped elected at the state's round number. -/
theorem wbFillElect_mem_src :
    ∀ (names : List String) (s : WBState),
      ∀ c' ∈ (wbFillElect names s).cands, ∃ c ∈ s.cands,
        c' = c ∨ c' = { c with status := .elected,
                               roundElected := some s.roundNumber }
  | [], _, c', hc' => ⟨c', hc', Or.inl rfl⟩
  | name :: rest, s, c', hc' => by
    simp only [wbFillElect] at hc'
    split at hc'
    · exact ⟨c', hc', Or.inl rfl⟩
    · rcases hg : candsGet s.cands name with _ | c
      · simp only [hg] at hc'
        exact wbFillElect_mem_src rest s c' hc'
      · simp only [hg] at hc'
        obtain ⟨cm, hcm, hor⟩ := wbFillElect_mem_src rest _ c' hc'
        dsimp only at hcm
        obtain ⟨c0, hc0, hor2⟩ := candsUpd_mem_src _ _ _ cm hcm
        rcases hor2 with ⟨h0n, heq2⟩ | ⟨h0n, heq2⟩
        · refine ⟨c0, hc0, Or.inr ?_⟩
          rcases hor with heq | heq
          · rw [heq, heq2]
          · rw [heq, heq2]
        · refine ⟨c0, hc0, ?_⟩
          rcases hor with heq | heq
          · exact Or.inl (heq.trans heq2)
          · refine Or.inr ?_
            rw [heq, heq2]

/-- Every entry after the fractional fill loop is a source entry,
possibly stamped elected at the state's round number. -/
theorem fracFillElect_mem_src :
    ∀ (names : List String) (s : FracState),
      ∀ c' ∈ (fracFillElect names s).cands, ∃ c ∈ s.cands,
        c' = c ∨ c' = { c with status := .elected,
                               roundElected := some s.roundNumber }
  | [], _, c', hc' => ⟨c', hc', Or.inl rfl⟩
  | name :: rest, s, c', hc' => by
    simp only [fracFillElect] at hc'
    split at hc'
    · exact ⟨c', hc', Or.inl rfl⟩
    · rcases hg : candsGet s.cands name with _ | c
      · simp only [hg] at hc'
        exact fracFillElect_mem_src rest s c' hc'
      · simp only [hg] at hc'
        obtain ⟨cm, hcm, hor⟩ := fracFillElect_mem_src rest _ c' hc'
        dsimp only at hcm
        obtain ⟨c0, hc0, hor2⟩ := candsUpd_mem_src _ _ _ cm hcm
        rcases hor2 with ⟨h0n, heq2⟩ | ⟨h0n, heq2⟩
        · refine ⟨c0, hc0, Or.inr ?_⟩
          rcases hor with heq | heq
          · rw [heq, heq2]
          · rw [heq, heq2]
        · refine ⟨c0, hc0, ?_⟩
          rcases hor with heq | heq
          · exact Or.inl (heq.trans heq2)
          · refine Or.inr ?_
            rw [heq, heq2]

/-- One continuing whole-ballot round preserves the elected-pin
invariant: old records keep their pinned entries, and the new record
shows every previously elected candidate at the (rounded) quota. -/
theorem wbAfterRound_pin (s : WBState) (h : wbPin s) :
    wbPin (wbAfterRound s) := by
  obtain ⟨hA, hB, hC, hD, hQ⟩ := h
  have hlen2 : (wbAfterRound s).trace.length = s.trace.length + 1 := by
    show (s.trace ++ [wbRound0 s]).length = s.trace.length + 1
    rw [List.length_append]
    rfl
  refine ⟨?_, ?_, ?_, ?_, ?_⟩
  · show (wbAfterRound s).trace.length + 1 = s.roundNumber + 1
    rw [hlen2]
    omega
  · show ((wbAction s).cands.map (fun c => c.name)).Nodup
    rw [wbAction_map_name]
    exact hB
  · show ((wbAction s).cands.map (fun c => c.index)).Nodup
    rw [wbAction_map_index]
    exact hC
  · intro c' hc' r hr
    obtain ⟨c, hc, hpin⟩ := wbAction_mem_pin s hB c' hc'
    obtain ⟨hi, hn, hd⟩ := hpin
    rcases hd with ⟨hrE, hsE⟩ | ⟨hst, hv, hrE⟩
    · rw [hrE] at hr
      obtain ⟨hr1, hr2, hr3⟩ := hD c hc r hr
      have hceq := hsE hr2
      refine ⟨?_, ?_, ?_⟩
      · show r < s.roundNumber + 1
        omega
      · rw [hceq]
        exact hr2
      · show c'.votes = (s.quota : ℚ)
        rw [hceq]
        exact hr3
    · rw [hrE] at hr
      have hrq : s.roundNumber = r := Option.some.inj hr
      refine ⟨?_, hst, hv⟩
      show r < s.roundNumber + 1
      omega
  · intro c' hc' r hr i hri hilen
    obtain ⟨c, hc, hpin⟩ := wbAction_mem_pin s hB c' hc'
    obtain ⟨hi, hn, hd⟩ := hpin
    have hil2 : i < s.trace.length + 1 := by
      rw [hlen2] at hilen
      exact hilen
    rcases hd with ⟨hrE, hsE⟩ | ⟨hst, hv, hrE⟩
    · rw [hrE] at hr
      obtain ⟨hr1, hr2, hr3⟩ := hD c hc r hr
      by_cases hilt : i < s.trace.length
      · have hgd : (s.trace ++ [wbRound0 s]).getD i emptyRound =
            s.trace.getD i emptyRound :=
          List.getD_append _ _ _ _ hilt
        show allocVotesOf ((s.trace ++ [wbRound0 s]).getD i emptyRound)
          (.cand c'.index) = (s.quota : ℚ)
        rw [hgd, hi]
        exact hQ c hc r hr i hri hilt
      · have hieq : i = s.trace.length := by omega
        have hgd2 : (s.trace ++ [wbRound0 s]).getD i emptyRound =
            wbRound0 s := by
          rw [List.getD_append_right _ _ _ _ (by omega), hieq,
            Nat.sub_self]
          rfl
        show allocVotesOf ((s.trace ++ [wbRound0 s]).getD i emptyRound)
          (.cand c'.index) = (s.quota : ℚ)
        rw [hgd2, hi, allocVotesOf_wbRound0 s c hC hc (Or.inr hr2), hr3,
          jround_natCast]
        exact Int.cast_natCast s.quota
    · rw [hrE] at hr
      have hrq : s.roundNumber = r := Option.some.inj hr
      exfalso
      omega

/-- One continuing fractional round preserves the elected-pin
invariant. -/
theorem fracAfterRound_pin (s : FracState) (h : fracPin s) :
    fracPin (fracAfterRound s) := by
  obtain ⟨hA, hB, hC, hD, hQ⟩ := h
  have hlen2 : (fracAfterRound s).trace.length = s.trace.length + 1 := by
    show (s.trace ++ [fracRound0 s]).length = s.trace.length + 1
    rw [List.length_append]
    rfl
  refine ⟨?_, ?_, ?_, ?_, ?_⟩
  · show (fracAfterRound s).trace.length + 1 = s.roundNumber + 1
    rw [hlen2]
    omega
  · show ((fracAction s).cands.map (fun c => c.name)).Nodup
    rw [fracAction_map_name]
    exact hB
  · show ((fracAction s).cands.map (fun c => c.index)).Nodup
    rw [fracAction_map_index]
    exact hC
  · intro c' hc' r hr
    obtain ⟨c, hc, hpin⟩ := fracAction_mem_pin s hB c' hc'
    obtain ⟨hi, hn, hd⟩ := hpin
    rcases hd with ⟨hrE, hsE⟩ | ⟨hst, hv, hrE⟩
    · rw [hrE] at hr
      obtain ⟨hr1, hr2, hr3⟩ := hD c hc r hr
      have hceq := hsE hr2
      refine ⟨?_, ?_, ?_⟩
      · show r < s.roundNumber + 1
        omega
      · rw [hceq]
        exact hr2
      · show c'.votes = (s.quota : ℚ)
        rw [hceq]
        exact hr3
    · rw [hrE] at hr
      have hrq : s.roundNumber = r := Option.some.inj hr
      refine ⟨?_, hst, hv⟩
      show r < s.roundNumber + 1
      omega
  · intro c' hc' r hr i hri hilen
    obtain ⟨c, hc, hpin⟩ := fracAction_mem_pin s hB c' hc'
    obtain ⟨hi, hn, hd⟩ := hpin
    have hil2 : i < s.trace.length + 1 := by
      rw [hlen2] at hilen
      exact hilen
    rcases hd with ⟨hrE, hsE⟩ | ⟨hst, hv, hrE⟩
    · rw [hrE] at hr
      obtain ⟨hr1, hr2, hr3⟩ := hD c hc r hr
      by_cases hilt : i < s.trace.length
      · have hgd : (s.trace ++ [fracRound0 s]).getD i emptyRound =
            s.trace.getD i emptyRound :=
          List.getD_append _ _ _ _ hilt
        show allocVotesOf ((s.trace ++ [fracRound0 s]).getD i
          emptyRound) (.cand c'.index) = (s.quota : ℚ)
        rw [hgd, hi]
        exact hQ c hc r hr i hri hilt
      · have hieq : i = s.trace.length := by omega
        have hgd2 : (s.trace ++ [fracRound0 s]).getD i emptyRound =
            fracRound0 s := by
          rw [List.getD_append_right _ _ _ _ (by omega), hieq,
            Nat.sub_self]
          rfl
        show allocVotesOf ((s.trace ++ [fracRound0 s]).getD i
          emptyRound) (.cand c'.index) = (s.quota : ℚ)
        rw [hgd2, hi, allocVotesOf_fracRound0 s c hC hc (Or.inr hr2)]
        exact hr3
    · rw [hrE] at hr
      have hrq : s.roundNumber = r := Option.some.inj hr
      exfalso
      omega

/-- The whole-ballot fill loop keeps the trace pin property: the
entries it stamps carry the current (not yet recorded) round number. -/
theorem wbFillElect_pinQ (names : List String) (s : WBState)
    (h : wbPin s) : wbPinQ (wbFillElect names s) := by
  obtain ⟨hA, hB, hC, hD, hQ⟩ := h
  obtain ⟨htr, hqu, hrn⟩ := wbFillElect_const names s
  intro c' hc' r hr i hri hilen
  obtain ⟨c, hc, hor⟩ := wbFillElect_mem_src names s c' hc'
  rw [htr] at hilen
  rw [htr, hqu]
  rcases hor with heq | heq
  · rw [heq] at hr
    rw [heq]
    exact hQ c hc r hr i hri hilen
  · rw [heq] at hr
    exfalso
    have hr2 : s.roundNumber = r := Option.some.inj hr
    omega

/-- The fractional fill-by-default step (fill loop plus the extra final
record) keeps the trace pin property: previously elected candidates
appear in the final record at exactly the quota, and freshly filled
candidates carry a round number beyond every record. -/
theorem fracFillFinal_pinQ (names : List String) (s1 : FracState)
    (cv : ℚ) (idxs : List ℕ) (h : fracPin s1) :
    fracPinQ { fracFillElect names s1 with
      trace := (fracFillElect names s1).trace ++
        [fracFinalRound (fracFillElect names s1) cv idxs] } := by
  obtain ⟨hA, hB, hC, hD, hQ⟩ := h
  obtain ⟨htr, hqu, hrn⟩ := fracFillElect_const names s1
  intro c' hc' r hr i hri hilen
  obtain ⟨c, hc, hor⟩ := fracFillElect_mem_src names s1 c' hc'
  have hlen : ((fracFillElect names s1).trace ++
      [fracFinalRound (fracFillElect names s1) cv idxs]).length =
      s1.trace.length + 1 := by
    rw [List.length_append, htr]
    rfl
  have hil2 : i < s1.trace.length + 1 := by
    have h2 : i < ((fracFillElect names s1).trace ++
        [fracFinalRound (fracFillElect names s1) cv idxs]).length :=
      hilen
    rw [hlen] at h2
    exact h2
  show allocVotesOf (((fracFillElect names s1).trace ++
      [fracFinalRound (fracFillElect names s1) cv idxs]).getD i
      emptyRound) (.cand c'.index) = ((fracFillElect names s1).quota : ℚ)
  rw [hqu]
  rcases hor with heq | heq
  · have hrc : c.roundElected = some r := by
      rw [← heq]
      exact hr
    obtain ⟨hr1, hr2, hr3⟩ := hD c hc r hrc
    by_cases hilt : i < s1.trace.length
    · have hgd : ((fracFillElect names s1).trace ++
          [fracFinalRound (fracFillElect names s1) cv idxs]).getD i
          emptyRound = s1.trace.getD i emptyRound := by
        rw [List.getD_append _ _ _ _ (by rw [htr]; exact hilt), htr]
      rw [hgd, heq]
      exact hQ c hc r hrc i hri hilt
    · have hieq : i = s1.trace.length := by omega
      have hgd2 : ((fracFillElect names s1).trace ++
          [fracFinalRound (fracFillElect names s1) cv idxs]).getD i
          emptyRound =
          fracFinalRound (fracFillElect names s1) cv idxs := by
        rw [List.getD_append_right _ _ _ _ (by rw [htr]; omega)]
        have h0 : i - (fracFillElect names s1).trace.length = 0 := by
          rw [htr]
          omega
        rw [h0]
        rfl
      rw [hgd2, heq]
      rw [← hr3]
      refine allocVotesOf_fracFinalRound (fracFillElect names s1) cv
        idxs c ?_ ?_ hr2
      · rw [fracFillElect_map_index]
        exact hC
      · have hc2 : c' ∈ (fracFillElect names s1).cands := hc'
        rw [heq] at hc2
        exact hc2
  · rw [heq] at hr
    exfalso
    have hr2 : s1.roundNumber = r := Option.some.inj hr
    omega

/-- A continuing whole-ballot loop body preserves the pin invariant. -/
theorem wbBody_pin_cont (s s' : WBState) (hb : wbBody s = (s', false))
    (h : wbPin s) : wbPin s' := by
  unfold wbBody at hb
  dsimp only at hb
  split at hb
  · exact absurd (congrArg Prod.snd hb) (by simp)
  · split at hb
    · exact absurd (congrArg Prod.snd hb) (by simp)
    · cases hb
      exact wbAfterRound_pin s h

/-- A breaking whole-ballot loop body yields a state with the trace pin
property. -/
theorem wbBody_pin_stop (s s' : WBState) (hb : wbBody s = (s', true))
    (h : wbPin s) : wbPinQ s' := by
  unfold wbBody at hb
  dsimp only at hb
  split at hb
  · cases hb
    exact h.2.2.2.2
  · split at hb
    · cases hb
      exact wbFillElect_pinQ _ _ (wbAfterRound_pin s h)
    · exact absurd (congrArg Prod.snd hb) (by simp)

/-- A continuing fractional loop body preserves the pin invariant. -/
theorem fracBody_pin_cont (s s' : FracState)
    (hb : fracBody s = (s', false)) (h : fracPin s) : fracPin s' := by
  unfold fracBody at hb
  dsimp only at hb
  split at hb
  · exact absurd (congrArg Prod.snd hb) (by simp)
  · split at hb
    · exact absurd (congrArg Prod.snd hb) (by simp)
    · cases hb
      exact fracAfterRound_pin s h

/-- A breaking fractional loop body yields a state with the trace pin
property. -/
theorem fracBody_pin_stop (s s' : FracState)
    (hb : fracBody s = (s', true)) (h : fracPin s) : fracPinQ s' := by
  unfold fracBody at hb
  dsimp only at hb
  split at hb
  · cases hb
    exact h.2.2.2.2
  · split at hb
    · cases hb
      exact fracFillFinal_pinQ _ _ _ _ (fracAfterRound_pin s h)
    · exact absurd (congrArg Prod.snd hb) (by simp)

/-- Custom loop rule for the whole-ballot loop: an invariant preserved
on continuing steps that establishes `Q` on breaking steps gives `Q` of
the loop's result. -/
theorem wbLoop_PQ (P Q : WBState → Prop)
    (hPQ : ∀ s, P s → Q s)
    (hcont : ∀ s s', wbBody s = (s', false) → P s → P s')
    (hstop : ∀ s s', wbBody s = (s', true) → P s → Q s') :
    ∀ (n cap : ℕ) (s : WBState), cap + 1 - s.roundNumber ≤ n → P s →
      Q (wbLoop cap s) := by
  intro n
  induction n with
  | zero =>
    intro cap s hle hP
    rw [wbLoop]
    split
    · next hg => omega
    · exact hPQ s hP
  | succ n ih =>
    intro cap s hle hP
    rw [wbLoop]
    split
    · next hg =>
      rcases hb : wbBody s with ⟨s', b⟩
      cases b with
      | true => exact hstop s s' hb hP
      | false =>
        have hrn := wbBody_rn hb
        exact ih cap s' (by omega) (hcont s s' hb hP)
    · exact hPQ s hP

/-- Custom loop rule for the fractional loop. -/
theorem fracLoop_PQ (P Q : FracState → Prop)
    (hPQ : ∀ s, P s → Q s)
    (hcont : ∀ s s', fracBody s = (s', false) → P s → P s')
    (hstop : ∀ s s', fracBody s = (s', true) → P s → Q s') :
    ∀ (n cap : ℕ) (s : FracState), cap + 1 - s.roundNumber ≤ n → P s →
      Q (fracLoop cap s) := by
  intro n
  induction n with
  | zero =>
    intro cap s hle hP
    rw [fracLoop]
    split
    · next hg => omega
    · exact hPQ s hP
  | succ n ih =>
    intro cap s hle hP
    rw [fracLoop]
    split
    · next hg =>
      rcases hb : fracBody s with ⟨s', b⟩
      cases b with
      | true => exact hstop s s' hb hP
      | false =>
        have hrn := fracBody_rn hb
        exact ih cap s' (by omega) (hcont s s' hb hP)
    · exact hPQ s hP

/-- The whole-ballot initial state satisfies the pin invariant. -/
theorem wbInit_pin (ballots : List Ballot) (seats : ℕ)
    (names : List String) : wbPin (wbInit ballots seats names) := by
  obtain ⟨hmn, hrn⟩ := wbInit_cands_rn ballots seats names
  refine ⟨?_, ?_, ?_, ?_, ?_⟩
  · rw [wbInit_trace, hrn]
    rfl
  · rw [hmn]
    exact initCands_nodup names
  · rw [wbInit_map_index]
    exact initCands_index_nodup names
  · intro c hc r hr
    rw [wbInit_rdE ballots seats names c hc] at hr
    cases hr
  · intro c hc r hr
    rw [wbInit_rdE ballots seats names c hc] at hr
    cases hr

/-- The fractional initial state satisfies the pin invariant. -/
theorem fracInit_pin (ballots : List Ballot) (seats : ℕ)
    (names : List String) (tq : Option ℕ) :
    fracPin (fracInit ballots seats names tq) := by
  obtain ⟨hmn, hrn⟩ := fracInit_cands_rn ballots seats names tq
  refine ⟨?_, ?_, ?_, ?_, ?_⟩
  · rw [fracInit_trace, hrn]
    rfl
  · rw [hmn]
    exact initCands_nodup names
  · rw [fracInit_map_index]
    exact initCands_index_nodup names
  · intro c hc r hr
    rw [fracInit_rdE ballots seats names tq c hc] at hr
    cases hr
  · intro c hc r hr
    rw [fracInit_rdE ballots seats names tq c hc] at hr
    cases hr

/-- C4 (amended): in both engines, for every candidate with
`roundElected = r`, every round record at trace index `i` with
`r ≤ i` — that is, every round strictly after the election round, since
the record at index `i` is the snapshot of round `i + 1` — shows that
candidate's allocation exactly equal to the quota (exact equality holds
in the fractional engine too; the record of round `r` itself shows the
pre-transfer votes instead). -/
theorem c4_elected_pin (ballots : List Ballot) (seats : ℕ)
    (candidateNames : List String) (tq : Option ℕ) :
    (∀ cv ∈ (tabulateSTV ballots seats candidateNames).candidateVotes,
      ∀ r, cv.roundElected = some r → ∀ i, r ≤ i →
        i < (tabulateSTV ballots seats candidateNames).rounds.length →
        allocVotesOf ((tabulateSTV ballots seats
            candidateNames).rounds.getD i emptyRound)
          (.cand cv.candidate) =
          ((tabulateSTV ballots seats candidateNames).quota : ℚ)) ∧
    (∀ cv ∈ (tabulateFractionalSTV ballots seats candidateNames
        tq).candidateVotes,
      ∀ r, cv.roundElected = some r → ∀ i, r ≤ i →
        i < (tabulateFractionalSTV ballots seats candidateNames
          tq).rounds.length →
        allocVotesOf ((tabulateFractionalSTV ballots seats
            candidateNames tq).rounds.getD i emptyRound)
          (.cand cv.candidate) =
          ((tabulateFractionalSTV ballots seats candidateNames
            tq).quota : ℚ)) := by
  constructor
  · intro cv hcv r hr i hri hilen
    have hQ : wbPinQ (wbLoop (candidateNames.length * 2)
        (wbInit ballots seats candidateNames)) :=
      wbLoop_PQ wbPin wbPinQ (fun s hs => hs.2.2.2.2) wbBody_pin_cont
        wbBody_pin_stop (candidateNames.length * 2 + 1)
        (candidateNames.length * 2)
        (wbInit ballots seats candidateNames) (by omega)
        (wbInit_pin ballots seats candidateNames)
    obtain ⟨c, hc, hceq⟩ := List.mem_map.mp hcv
    have hrdE : c.roundElected = some r := by
      rw [← hceq] at hr
      exact hr
    have hidx : cv.candidate = c.index := by
      rw [← hceq]
    have hres := hQ c hc r hrdE i hri hilen
    rw [hidx]
    exact hres
  · intro cv hcv r hr i hri hilen
    have hQ : fracPinQ (fracLoop (candidateNames.length * 3)
        (fracInit ballots seats candidateNames tq)) :=
      fracLoop_PQ fracPin fracPinQ (fun s hs => hs.2.2.2.2)
        fracBody_pin_cont fracBody_pin_stop
        (candidateNames.length * 3 + 1) (candidateNames.length * 3)
        (fracInit ballots seats candidateNames tq) (by omega)
        (fracInit_pin ballots seats candidateNames tq)
    obtain ⟨c, hc, hceq⟩ := List.mem_map.mp hcv
    have hrdE : c.roundElected = some r := by
      rw [← hceq] at hr
      exact hr
    have hidx : cv.candidate = c.index := by
      rw [← hceq]
    have hres := hQ c hc r hrdE i hri hilen
    rw [hidx]
    exact hres

/-- Witness for the amended C4 on concrete inputs: candidate A of
Scenario S2 (whole-ballot) is elected in round 1 and the round-2 record
shows it at the quota 4; candidate A of Scenario S4 (fractional) is
elected in round 1 and the round-2 record shows it at the quota 6. -/
theorem c4_witness :
    (⟨0, 10, 0, none, some 1⟩ : CandVotes) ∈
        (tabulateSTV s2ballots 2
          ["A", "B", "C", "D"]).candidateVotes ∧
    allocVotesOf ((tabulateSTV s2ballots 2
        ["A", "B", "C", "D"]).rounds.getD 1 emptyRound) (.cand 0) =
      ((tabulateSTV s2ballots 2 ["A", "B", "C", "D"]).quota : ℚ) ∧
    (⟨0, 12, 0, none, some 1⟩ : CandVotes) ∈
        (tabulateFractionalSTV s4ballots 2 ["A", "B", "C"]
          none).candidateVotes ∧
    allocVotesOf ((tabulateFractionalSTV s4ballots 2 ["A", "B", "C"]
        none).rounds.getD 1 emptyRound) (.cand 0) =
      ((tabulateFractionalSTV s4ballots 2 ["A", "B", "C"]
        none).quota : ℚ) :=
  ⟨by with_unfolding_all decide,
    (c4_elected_pin s2ballots 2 ["A", "B", "C", "D"] none).1
      ⟨0, 10, 0, none, some 1⟩ (by with_unfolding_all decide) 1 rfl 1
      (by decide) (by with_unfolding_all decide),
    by with_unfolding_all decide,
    (c4_elected_pin s4ballots 2 ["A", "B", "C"] none).2
      ⟨0, 12, 0, none, some 1⟩ (by with_unfolding_all decide) 1 rfl 1
      (by decide) (by with_unfolding_all decide)⟩

end RankedVote
